import Mathlib

/-!
# neuroblast: the feed-forward network of `nn.go`

A shallow embedding of the network core of `src/go/nn.go` (the data model,
`sigmoid`, `neuron.Think`, `layer.Think`, `network.Think`, `neuron.Train`,
`network.ResetErrors`, `network.Train`, `network.NewNetwork`) and the
properties of it that the specification states.

Conventions of the embedding.

* `float64` is idealised as a linearly ordered field `F`; `math.Exp` is a
  parameter `exp : F → F`.  Every definition is therefore executable at
  `F = ℚ`, and the numerical statements instantiate `F = ℝ`, `exp = Real.exp`.
  This reading is exact arithmetic: it is used for what does not depend on
  rounding (structure, failure, the frame of a call, exact identities).
* What depends on rounding (the range of `sigmoid` and of the value
  `network.Think` returns) is stated on a second reading, `Float64` and the
  namespace `F64`: IEEE 754 binary64, every operation rounded to nearest, ties
  to even, with the infinities and not-a-number.
* A Go method with a pointer receiver that mutates its receiver becomes a
  function from the old value to the new one.  A run-time panic (index out of
  range, nil dereference) becomes `none`.
* A `for _, v := range xs` loop binds `v` to a copy of the element; an
  assignment to a field of `v` changes the copy only.  Such assignments are
  kept in the embedding as local bindings that are then dropped.
* The drawing fields (`x`, `y`, `x1`, ..., `surface`, `text`) and the unused
  `neuron.index` are left out.  `layer.previousLayer` is assigned only by
  `NewNetwork` (`nil` for slot 0, `&n.layers[i-1]` for slot `i`), so the
  embedding resolves it by position, see `previousLayer`.
-/

set_option autoImplicit false
set_option linter.unusedSectionVars false
set_option linter.unusedVariables false

namespace Neuroblast

/-! ## Data model -/

/-- The struct `synapse` of `nn.go`, without its drawing coordinates. -/
structure synapse (F : Type) where
  inputNeuronIndex : Nat
  weight : F
  signal : F
deriving DecidableEq, Repr

/-- The struct `neuron` of `nn.go`, without its drawing coordinates and `index`. -/
structure neuron (F : Type) where
  output : F
  synapses : List (synapse F)
  err : F
deriving DecidableEq, Repr

/-- The struct `layer` of `nn.go`; `previousLayer` is resolved by position. -/
structure layer (F : Type) where
  inputLayer : Bool
  neurons : List (neuron F)
deriving DecidableEq, Repr

/-- The struct `network` of `nn.go`, without its drawing surface. -/
structure network (F : Type) where
  layers : List (layer F)
deriving DecidableEq, Repr

/-- The struct `example` of `nn.go`: an input vector and the target value. -/
structure Example (F : Type) where
  input : List F
  output : F
deriving DecidableEq, Repr

section Model

variable {F : Type} [LinearOrderedField F]

/-- The function `sigmoid`: `1.0 / (1.0 + math.Exp(-x))`, in exact arithmetic
(`F64.sigmoid` is the same expression with every operation rounded). -/
def sigmoid (exp : F → F) (x : F) : F :=
  1 / (1 + exp (-x))

/-- The function `sigmoid_derivative`: `x * (1 - x)`. -/
def sigmoid_derivative (x : F) : F :=
  x * (1 - x)

/-- The layer that `n.layers[j].previousLayer` points to: `nil` for slot 0 and
`&n.layers[j-1]` otherwise, as `NewNetwork` assigns it. -/
def previousLayer (layers : List (layer F)) : Nat → Option (layer F)
  | 0 => none
  | j + 1 => layers[j]?

/-! ## Forward pass -/

/-- The loop of `neuron.Think` over the synapses still to be visited, with the
running `activity` and the current `n.output`.  It returns the visited synapses
(their `signal` overwritten) and the last value assigned to `n.output`. -/
def neuron.Think.loop (exp : F → F) (prevLayer : Option (layer F)) :
    List (synapse F) → F → F → Option (List (synapse F) × F)
  | [], _, output => some ([], output)
  | s :: rest, activity, _ =>
    match prevLayer with
    | none => none
    | some p =>
      match p.neurons[s.inputNeuronIndex]? with
      | none => none
      | some src =>
        let s1 : synapse F := { s with signal := src.output }
        let activity1 := activity + s1.weight * s1.signal
        match neuron.Think.loop exp prevLayer rest activity1 (sigmoid exp activity1) with
        | none => none
        | some (done, output) => some (s1 :: done, output)

/-- The method `neuron.Think(prevLayer)`. -/
def neuron.Think (exp : F → F) (n : neuron F) (prevLayer : Option (layer F)) :
    Option (neuron F) :=
  match neuron.Think.loop exp prevLayer n.synapses 0 n.output with
  | none => none
  | some (synapses, output) => some { n with synapses := synapses, output := output }

/-- The loop of `layer.Think` over the neurons of the layer. -/
def layer.Think.loop (exp : F → F) (prevLayer : Option (layer F)) :
    List (neuron F) → Option (List (neuron F))
  | [] => some []
  | n :: rest =>
    match n.Think exp prevLayer with
    | none => none
    | some n1 =>
      match layer.Think.loop exp prevLayer rest with
      | none => none
      | some rest1 => some (n1 :: rest1)

/-- The method `layer.Think()`; the predecessor it reads is passed in. -/
def layer.Think (exp : F → F) (l : layer F) (prevLayer : Option (layer F)) :
    Option (layer F) :=
  match layer.Think.loop exp prevLayer l.neurons with
  | none => none
  | some neurons => some { l with neurons := neurons }

/-- The inner loop of `network.Think` on an input layer:
`for i := 0; i < len(inputs); i++ { n.layers[0].neurons[i].output = inputs[i] }`. -/
def network.Think.setInputs : List (neuron F) → List F → Option (List (neuron F))
  | ns, [] => some ns
  | [], _ :: _ => none
  | u :: ns, x :: xs =>
    match network.Think.setInputs ns xs with
    | none => none
    | some ns1 => some ({ u with output := x } :: ns1)

/-- One iteration of the loop `for j, layer := range n.layers` of `network.Think`. -/
def network.Think.step (exp : F → F) (inputs : List F) (layers : List (layer F)) (j : Nat) :
    Option (List (layer F)) :=
  match layers[j]? with
  | none => none
  | some l =>
    if l.inputLayer then
      match layers[0]? with
      | none => none
      | some l0 =>
        match network.Think.setInputs l0.neurons inputs with
        | none => none
        | some ns => some (layers.set 0 { l0 with neurons := ns })
    else
      match l.Think exp (previousLayer layers j) with
      | none => none
      | some l1 => some (layers.set j l1)

/-- The loop of `network.Think` over the slots `0, ..., len(n.layers) - 1`. -/
def network.Think.loop (exp : F → F) (inputs : List F) :
    List Nat → List (layer F) → Option (List (layer F))
  | [], layers => some layers
  | j :: js, layers =>
    match network.Think.step exp inputs layers j with
    | none => none
    | some layers1 => network.Think.loop exp inputs js layers1

/-- The method `network.Think(inputs)`: the network after the call and the
returned value `n.layers[len(n.layers)-1].neurons[0].output`. -/
def network.Think (exp : F → F) (n : network F) (inputs : List F) :
    Option (network F × F) :=
  match network.Think.loop exp inputs (List.range n.layers.length) n.layers with
  | none => none
  | some layers =>
    match layers[layers.length - 1]? with
    | none => none
    | some last =>
      match last.neurons[0]? with
      | none => none
      | some u => some (⟨layers⟩, u.output)

/-! ## Backward pass -/

/-- The method `neuron.Train(prevLayer)`.  The loop variable `s` is a copy of the
synapse, so `s.weight += ...` changes the copy `s1`, which the loop drops. -/
def neuron.Train.loop (n : neuron F) : List (synapse F) → layer F → Option (layer F)
  | [], prevLayer => some prevLayer
  | s :: rest, prevLayer =>
    match prevLayer.neurons[s.inputNeuronIndex]? with
    | none => none
    | some u =>
      let prevLayer1 : layer F :=
        { prevLayer with
          neurons := prevLayer.neurons.set s.inputNeuronIndex
            { u with err := u.err + n.err * s.weight * sigmoid_derivative n.output } }
      let _s1 : synapse F :=
        { s with weight := s.weight + s.signal * n.err * sigmoid_derivative n.output }
      neuron.Train.loop n rest prevLayer1

/-- The method `neuron.Train(prevLayer)`: the predecessor layer it returns. -/
def neuron.Train (n : neuron F) (prevLayer : layer F) : Option (layer F) :=
  neuron.Train.loop n n.synapses prevLayer

/-- The loop `for _, neuron := range layer.neurons { neuron.err = 0 }` of
`network.ResetErrors`: `neuron` is a copy, the assignment changes the copy. -/
def network.ResetErrors.neurons (n : network F) : List (neuron F) → network F
  | [] => n
  | u :: rest =>
    let _u1 : neuron F := { u with err := 0 }
    network.ResetErrors.neurons n rest

/-- The loop `for _, layer := range n.layers` of `network.ResetErrors`. -/
def network.ResetErrors.layers : network F → List (layer F) → network F
  | n, [] => n
  | n, l :: rest => network.ResetErrors.layers (network.ResetErrors.neurons n l.neurons) rest

/-- The method `network.ResetErrors()`. -/
def network.ResetErrors (n : network F) : network F :=
  network.ResetErrors.layers n n.layers

/-- The loop `for _, neuron := range n.layers[i].neurons` of `network.Train`:
each neuron of layer `i` trains the predecessor layer in turn. -/
def network.Train.neurons : List (neuron F) → layer F → Option (layer F)
  | [], prevLayer => some prevLayer
  | u :: rest, prevLayer =>
    match u.Train prevLayer with
    | none => none
    | some prevLayer1 => network.Train.neurons rest prevLayer1

/-- The loop `for i := len(n.layers) - 1; i > 0; i--` of `network.Train`,
started at `i`. -/
def network.Train.loop : Nat → List (layer F) → Option (List (layer F))
  | 0, layers => some layers
  | i + 1, layers =>
    match layers[i + 1]?, layers[i]? with
    | some cur, some prev =>
      match network.Train.neurons cur.neurons prev with
      | none => none
      | some prev1 => network.Train.loop i (layers.set i prev1)
    | _, _ => none

/-- The assignment `n.layers[len(n.layers)-1].neurons[0].err = err`. -/
def network.Train.setErr (layers : List (layer F)) (err : F) : Option (List (layer F)) :=
  match layers[layers.length - 1]? with
  | none => none
  | some last =>
    match last.neurons[0]? with
    | none => none
    | some u =>
      some (layers.set (layers.length - 1)
        { last with neurons := last.neurons.set 0 { u with err := err } })

/-- The method `network.Train(data)`: the network after the call and the
returned value `math.Abs(err)`. -/
def network.Train (exp : F → F) (n : network F) (data : Example F) :
    Option (network F × F) :=
  match n.Think exp data.input with
  | none => none
  | some (n1, predicted) =>
    let err := data.output - predicted
    let n2 := n1.ResetErrors
    match network.Train.setErr n2.layers err with
    | none => none
    | some layers3 =>
      match network.Train.loop (n2.layers.length - 1) layers3 with
      | none => none
      | some layers4 => some (⟨layers4⟩, |err|)

/-! ## Construction -/

/-- The loop `for _, input := range newLayer.previousLayer.neurons` of
`NewNetwork`: one synapse per predecessor neuron, its weight read from
`lines[wi]`; `index` and `wi` count up. -/
def NewNetwork.synapses (lines : List F) :
    List (neuron F) → Nat → Nat → List (synapse F) → Option (List (synapse F) × Nat)
  | [], _, wi, acc => some (acc, wi)
  | _ :: rest, index, wi, acc =>
    match lines[wi]? with
    | none => none
    | some w =>
      NewNetwork.synapses lines rest (index + 1) (wi + 1)
        (acc ++ [{ inputNeuronIndex := index, weight := w, signal := 0 }])

/-- The block `index := 0; if newLayer.previousLayer != nil { for ... }` of
`NewNetwork`: the synapses of one new neuron and the value of `wi` after them. -/
def NewNetwork.neuronSynapses (lines : List F) (prev : Option (layer F)) (wi : Nat) :
    Option (List (synapse F) × Nat) :=
  match prev with
  | none => some ([], wi)
  | some p => NewNetwork.synapses lines p.neurons 0 wi []

/-- The loop `for j := 0; j < requested[i]; j++` of `NewNetwork`, with `k`
iterations left. -/
def NewNetwork.neurons (lines : List F) (prev : Option (layer F)) :
    Nat → Nat → List (neuron F) → Option (List (neuron F) × Nat)
  | 0, wi, acc => some (acc, wi)
  | k + 1, wi, acc =>
    match NewNetwork.neuronSynapses lines prev wi with
    | none => none
    | some (syn, wi1) =>
      NewNetwork.neurons lines prev k wi1 (acc ++ [{ output := 0, synapses := syn, err := 0 }])

/-- The loop `for i := 0; i < len(requested); i++` of `NewNetwork`; `acc` holds
the slots `0, ..., i - 1` already assigned. -/
def NewNetwork.layers (lines : List F) :
    List Int → Nat → Nat → List (layer F) → Option (List (layer F))
  | [], _, _, acc => some acc
  | r :: rest, i, wi, acc =>
    match NewNetwork.neurons lines (previousLayer acc i) r.toNat wi [] with
    | none => none
    | some (ns, wi1) =>
      NewNetwork.layers lines rest (i + 1) wi1
        (acc ++ [{ inputLayer := decide (i = 0), neurons := ns }])

/-- The method `network.NewNetwork(surface, text, requested)`.  The weights it
parses from the records of `weights.csv` are the sequence `lines`. -/
def NewNetwork (lines : List F) (requested : List Int) : Option (network F) :=
  match NewNetwork.layers lines requested 0 0 [] with
  | none => none
  | some layers => some ⟨layers⟩

/-! ## Definitions used to state the properties -/

/-- The output of the unit at position `i` of the layer `p` (0 when there is none). -/
def layer.outputAt (p : layer F) (i : Nat) : F :=
  match p.neurons[i]? with
  | some u => u.output
  | none => 0

/-- The weighted sum of a unit over its synapses: the sum of
`weight * output of the predecessor unit at inputNeuronIndex`. -/
def neuron.activity (p : layer F) (u : neuron F) : F :=
  (u.synapses.map fun s => s.weight * p.outputAt s.inputNeuronIndex).sum

/-- A synapse after the forward pass has read its source unit in `p`. -/
def synapse.fed (p : layer F) (s : synapse F) : synapse F :=
  { s with signal := p.outputAt s.inputNeuronIndex }

/-- The unit `u` can read all its sources in the predecessor `prev`: every
`inputNeuronIndex` is a position of `prev` (no synapse at all when `prev` is `nil`). -/
def neuron.readable (prev : Option (layer F)) (u : neuron F) : Prop :=
  match prev with
  | none => u.synapses = []
  | some p => ∀ s ∈ u.synapses, s.inputNeuronIndex < p.neurons.length

/-- The unit the forward pass is meant to produce from `u`: every synapse fed,
the output the sigmoid of the whole weighted sum (unchanged without synapses). -/
def neuron.thought (exp : F → F) (prev : Option (layer F)) (u : neuron F) : neuron F :=
  match prev with
  | none => u
  | some p =>
    { u with
      synapses := u.synapses.map (synapse.fed p)
      output := if u.synapses = [] then u.output else sigmoid exp (u.activity p) }

/-- The layer the forward pass is meant to produce from `l`. -/
def layer.thought (exp : F → F) (prev : Option (layer F)) (l : layer F) : layer F :=
  { l with neurons := l.neurons.map (neuron.thought exp prev) }

/-- The neurons after `inputs` has been copied into the outputs of the first
`len(inputs)` of them. -/
def neuron.withOutputs : List (neuron F) → List F → List (neuron F)
  | u :: ns, x :: xs => { u with output := x } :: neuron.withOutputs ns xs
  | ns, _ => ns

/-- The layer after `inputs` has been copied into it. -/
def layer.withInputs (l0 : layer F) (inputs : List F) : layer F :=
  { l0 with neurons := neuron.withOutputs l0.neurons inputs }

/-- What the forward pass never changes in a layer: its flag and, unit by unit,
the list of `inputNeuronIndex` of its synapses. -/
def layer.shape (l : layer F) : Bool × List (List Nat) :=
  (l.inputLayer, l.neurons.map fun u => u.synapses.map fun s => s.inputNeuronIndex)

/-- The shape of a network: the shapes of its layers, in order. -/
def network.shape (n : network F) : List (Bool × List (List Nat)) :=
  n.layers.map layer.shape

/-- The weights of a network: layer by layer, unit by unit, synapse by synapse. -/
def network.weights (n : network F) : List (List (List F)) :=
  n.layers.map fun l => l.neurons.map fun u => u.synapses.map fun s => s.weight

/-- The layers after a layer of `m` units are wired: none is an input layer and
every `inputNeuronIndex` is a position of the layer before. -/
def wiredFrom : Nat → List (Bool × List (List Nat)) → Prop
  | _, [] => True
  | m, (flag, units) :: rest =>
    flag = false ∧ (∀ idxs ∈ units, ∀ i ∈ idxs, i < m) ∧ wiredFrom units.length rest

/-- A network is wired when its first layer is the only input layer and every
synapse points at a unit of the layer before its own. -/
def network.Wired (n : network F) : Prop :=
  match n.shape with
  | [] => True
  | (flag, units) :: rest => flag = true ∧ wiredFrom units.length rest

/-- The layers after `p` once the forward pass has run through them in order. -/
def forwardChain (exp : F → F) : layer F → List (layer F) → List (layer F)
  | _, [] => []
  | p, l :: rest => l.thought exp (some p) :: forwardChain exp (l.thought exp (some p)) rest

/-- The layers of a wired network after the forward pass on `inputs`. -/
def forward (exp : F → F) (inputs : List F) : List (layer F) → List (layer F)
  | [] => []
  | l0 :: rest => l0.withInputs inputs :: forwardChain exp (l0.withInputs inputs) rest

/-- The shape `NewNetwork` gives the layers for the unit counts `cs`, after a
layer of `prev` units (`none` before the first layer): the first layer is the
input layer, and every unit of a later layer has one synapse per unit of the
layer before, with `inputNeuronIndex` `0, 1, 2, ...` in order. -/
def topologyShape : Option Nat → List Nat → List (Bool × List (List Nat))
  | _, [] => []
  | prev, c :: cs =>
    (prev.isNone, List.replicate c (List.range (prev.getD 0))) :: topologyShape (some c) cs

/-- A network is well formed for the topology `t` when it has the shape that
`NewNetwork` builds for `t`. -/
def network.WellFormed (n : network F) (t : List Nat) : Prop :=
  n.shape = topologyShape none t

instance (n : network F) (t : List Nat) : Decidable (n.WellFormed t) := by
  unfold network.WellFormed
  infer_instance

/-- A unit with its `err` blanked: what the backward pass never changes. -/
def neuron.noErr (u : neuron F) : neuron F :=
  { u with err := 0 }

/-- A layer with the `err` of every unit blanked. -/
def layer.noErr (l : layer F) : layer F :=
  { l with neurons := l.neurons.map neuron.noErr }

/-- The states of the network of topology `[1, 1]`: the input unit (output `o0`,
error `e0`) and the output unit (output `o1`, error `e1`) with its one synapse
(weight `w`, signal `sig`). -/
def net11 (w o0 e0 o1 sig e1 : F) : network F :=
  ⟨[⟨true, [⟨o0, [], e0⟩]⟩, ⟨false, [⟨o1, [⟨0, w, sig⟩], e1⟩]⟩]⟩

/-- In a list of layer shapes, every `inputNeuronIndex` of a layer is a position
of the layer just before it. -/
def pairsWired (S : List (Bool × List (List Nat))) : Prop :=
  ∀ k sa sb, S[k]? = some sa → S[k + 1]? = some sb → ∀ idxs ∈ sb.2, ∀ i ∈ idxs, i < sa.2.length

/-- The driver of a training run on one example: `k` successive calls of
`network.Train` on `data`, each on the network the call before left. -/
def network.TrainTimes (exp : F → F) (data : Example F) : Nat → network F → Option (network F)
  | 0, n => some n
  | k + 1, n =>
    match n.Train exp data with
    | none => none
    | some (n1, _) => network.TrainTimes exp data k n1

/-- The number of connections the unit counts `t` imply: the sum over the
layers after the first of `t[i-1] * t[i]`. -/
def connections : List Nat → Nat
  | a :: b :: rest => a * b + connections (b :: rest)
  | _ => 0

/-- The synapses of a unit whose predecessor layer has `m` units, its weights
read from `lines` at `wi, wi + 1, ...`: the `k`-th has `inputNeuronIndex`
`index + k`. -/
def synapsesFor (lines : List F) (m index wi : Nat) : List (synapse F) :=
  (List.range m).map fun k =>
    { inputNeuronIndex := index + k, weight := lines.getD (wi + k) 0, signal := 0 }

/-- The `count` units of a layer whose predecessor has `m` units, the weights of
the `j`-th unit read from `lines` at `wi + j * m`. -/
def neuronsFor (lines : List F) (m count wi : Nat) : List (neuron F) :=
  (List.range count).map fun j =>
    { output := 0, synapses := synapsesFor lines m 0 (wi + j * m), err := 0 }

/-- The layers for the unit counts `cs` after a layer of `prev` units (`none`
before the first layer), their weights read from `lines` at `wi` on. -/
def layersFor (lines : List F) : Option Nat → List Nat → Nat → List (layer F)
  | _, [], _ => []
  | prev, c :: cs, wi =>
    { inputLayer := prev.isNone, neurons := neuronsFor lines (prev.getD 0) c wi } ::
      layersFor lines (some c) cs (wi + c * prev.getD 0)

/-- The network states of the program: a network is built by `NewNetwork` and
then only changed by calls of `network.Think` and `network.Train` that return. -/
inductive network.Reachable (exp : F → F) : network F → Prop
  | new (lines : List F) (requested : List Int) (n : network F) :
      NewNetwork lines requested = some n → network.Reachable exp n
  | think (n : network F) (inputs : List F) (n1 : network F) (v : F) :
      network.Reachable exp n → n.Think exp inputs = some (n1, v) → network.Reachable exp n1
  | train (n : network F) (data : Example F) (n1 : network F) (r : F) :
      network.Reachable exp n → n.Train exp data = some (n1, r) → network.Reachable exp n1

/-- What `network.Think` never changes in a layer: every field but the `output`
of a neuron and the `signal` of a synapse, that is the flag and, unit by unit,
the `err` and the `inputNeuronIndex` and `weight` of every synapse. -/
def layer.frame (l : layer F) : Bool × List (F × List (Nat × F)) :=
  (l.inputLayer,
    l.neurons.map fun u => (u.err, u.synapses.map fun s => (s.inputNeuronIndex, s.weight)))

/-- The frame of a network: the frames of its layers, in order. -/
def network.frame (n : network F) : List (Bool × List (F × List (Nat × F))) :=
  n.layers.map layer.frame

/-- What a unit `u` sends back to position `k` of its predecessor layer in
`neuron.Train`: the sum over the synapses of `u` with `inputNeuronIndex = k` of
`u.err * weight * sigmoid_derivative u.output`. -/
def neuron.sentTo (u : neuron F) (k : Nat) : F :=
  ((u.synapses.filter fun s => s.inputNeuronIndex = k).map
    fun s => u.err * s.weight * sigmoid_derivative u.output).sum

/-! ## The `float64` reading of the arithmetic

The definitions above read `float64` as a field.  The ones below read it as
IEEE 754 binary64 with round to nearest, ties to even: 53 significant bits,
units in the last place no smaller than `2^-1074`, overflow to an infinity from
`2^1024` on.  Every operation is rounded on its own.  The sign of a zero is not
kept (a zero is `+0`): `nn.go` never divides by a value that can be zero.
`math.Exp` stays a parameter `exp`. -/

/-- The values of a `float64`: not-a-number, the two infinities, and the finite
values, held as rationals. -/
inductive Float64 where
  | nan : Float64
  | inf (negative : Bool) : Float64
  | fin (q : ℚ) : Float64
deriving DecidableEq, Repr

/-- The integer nearest to `m`, the even one of the two when `m` lies half way. -/
def roundHalfEven {K : Type} [LinearOrderedField K] [FloorRing K] (m : K) : ℤ :=
  if m - ⌊m⌋ < 1 / 2 then ⌊m⌋
  else if 1 / 2 < m - ⌊m⌋ then ⌊m⌋ + 1
  else if ⌊m⌋ % 2 = 0 then ⌊m⌋ else ⌊m⌋ + 1

/-- The exponent of the unit in the last place of the binary64 numbers of the
binade of `a`: `2^e ≤ a < 2^(e+1)` gives `e - 52`, and never less than `-1074`. -/
def ulpExponent {K : Type} [LinearOrderedField K] [FloorRing K] (a : K) : ℤ :=
  max (Int.log 2 a - 52) (-1074)

/-- The magnitude `a ≥ 0` rounded to a multiple of its unit in the last place. -/
def roundMagnitude {K : Type} [LinearOrderedField K] [FloorRing K] (a : K) : ℚ :=
  (roundHalfEven (a / 2 ^ ulpExponent a) : ℚ) * 2 ^ ulpExponent a

/-- The `float64` nearest to the exact value `x`: an infinity when the rounded
magnitude reaches `2^1024`. -/
def round64 {K : Type} [LinearOrderedField K] [FloorRing K] (x : K) : Float64 :=
  if (2 : ℚ) ^ (1024 : ℕ) ≤ roundMagnitude |x| then Float64.inf (decide (x < 0))
  else if x < 0 then Float64.fin (-roundMagnitude |x|)
  else Float64.fin (roundMagnitude |x|)

/-- The `float64` negation `-x`. -/
def Float64.neg : Float64 → Float64
  | Float64.nan => Float64.nan
  | Float64.inf s => Float64.inf (!s)
  | Float64.fin q => Float64.fin (-q)

/-- The `float64` sum `x + y`. -/
def Float64.add : Float64 → Float64 → Float64
  | Float64.nan, _ => Float64.nan
  | _, Float64.nan => Float64.nan
  | Float64.inf s, Float64.inf r => if s = r then Float64.inf s else Float64.nan
  | Float64.inf s, Float64.fin _ => Float64.inf s
  | Float64.fin _, Float64.inf r => Float64.inf r
  | Float64.fin p, Float64.fin q => round64 (p + q)

/-- The `float64` difference `x - y`. -/
def Float64.sub (x y : Float64) : Float64 :=
  Float64.add x (Float64.neg y)

/-- The `float64` product `x * y`. -/
def Float64.mul : Float64 → Float64 → Float64
  | Float64.nan, _ => Float64.nan
  | _, Float64.nan => Float64.nan
  | Float64.inf s, Float64.inf r => Float64.inf (s != r)
  | Float64.inf s, Float64.fin q =>
    if q = 0 then Float64.nan else Float64.inf (s != decide (q < 0))
  | Float64.fin p, Float64.inf r =>
    if p = 0 then Float64.nan else Float64.inf (decide (p < 0) != r)
  | Float64.fin p, Float64.fin q => round64 (p * q)

/-- The `float64` quotient `x / y`. -/
def Float64.div : Float64 → Float64 → Float64
  | Float64.nan, _ => Float64.nan
  | _, Float64.nan => Float64.nan
  | Float64.inf _, Float64.inf _ => Float64.nan
  | Float64.inf s, Float64.fin q => Float64.inf (s != decide (q < 0))
  | Float64.fin _, Float64.inf _ => Float64.fin 0
  | Float64.fin p, Float64.fin q =>
    if q = 0 then (if p = 0 then Float64.nan else Float64.inf (decide (p < 0)))
    else round64 (p / q)

/-- The function `math.Abs` on a `float64`. -/
def Float64.abs : Float64 → Float64
  | Float64.nan => Float64.nan
  | Float64.inf _ => Float64.inf false
  | Float64.fin q => Float64.fin |q|

/-- The order `x ≤ y` of two `float64`; not-a-number compares with nothing. -/
def Float64.le : Float64 → Float64 → Prop
  | Float64.nan, _ => False
  | _, Float64.nan => False
  | Float64.inf s, Float64.inf r => s = true ∨ r = false
  | Float64.inf s, Float64.fin _ => s = true
  | Float64.fin _, Float64.inf r => r = false
  | Float64.fin p, Float64.fin q => p ≤ q

/-- A model of `math.Exp` from an exponential `rexp` on `K`: the `float64`
nearest to `rexp x`, with `Exp(+Inf) = +Inf`, `Exp(-Inf) = 0`, `Exp(NaN) = NaN`. -/
def Float64.expOf {K : Type} [LinearOrderedField K] [FloorRing K] (rexp : K → K) :
    Float64 → Float64
  | Float64.nan => Float64.nan
  | Float64.inf false => Float64.inf false
  | Float64.inf true => Float64.fin 0
  | Float64.fin q => round64 (rexp (q : K))

/-- What the properties below use of `math.Exp`: on every argument but
not-a-number it returns `+Inf` or a finite value that is not negative. -/
def ExpSound (exp : Float64 → Float64) : Prop :=
  ∀ x, x ≠ Float64.nan → exp x = Float64.inf false ∨ ∃ e : ℚ, 0 ≤ e ∧ exp x = Float64.fin e

/-- The function `exp` is non-decreasing in the order of `float64`. -/
def ExpMonotone (exp : Float64 → Float64) : Prop :=
  ∀ x y, Float64.le x y → Float64.le (exp x) (exp y)

namespace F64

/-- The function `sigmoid` in `float64`: `float64(1.0 / (1.0 + math.Exp(-x)))`. -/
def sigmoid (exp : Float64 → Float64) (x : Float64) : Float64 :=
  Float64.div (Float64.fin 1) (Float64.add (Float64.fin 1) (exp (Float64.neg x)))

/-- The function `sigmoid_derivative` in `float64`: `x * (1 - x)`. -/
def sigmoid_derivative (x : Float64) : Float64 :=
  Float64.mul x (Float64.sub (Float64.fin 1) x)

/-- The loop of `neuron.Think` in `float64`: `s.signal = ...output`,
`activity += s.weight * s.signal`, `n.output = sigmoid(activity)`, the product
and the sum each rounded. -/
def neuron.Think.loop (exp : Float64 → Float64) (prevLayer : Option (layer Float64)) :
    List (synapse Float64) → Float64 → Float64 → Option (List (synapse Float64) × Float64)
  | [], _, output => some ([], output)
  | s :: rest, activity, _ =>
    match prevLayer with
    | none => none
    | some p =>
      match p.neurons[s.inputNeuronIndex]? with
      | none => none
      | some src =>
        let s1 : synapse Float64 := { s with signal := src.output }
        let activity1 := Float64.add activity (Float64.mul s1.weight s1.signal)
        match neuron.Think.loop exp prevLayer rest activity1 (sigmoid exp activity1) with
        | none => none
        | some (done, output) => some (s1 :: done, output)

/-- The method `neuron.Think(prevLayer)` in `float64`; `activity` starts at `0.0`. -/
def neuron.Think (exp : Float64 → Float64) (n : neuron Float64)
    (prevLayer : Option (layer Float64)) : Option (neuron Float64) :=
  match neuron.Think.loop exp prevLayer n.synapses (Float64.fin 0) n.output with
  | none => none
  | some (synapses, output) => some { n with synapses := synapses, output := output }

/-- The loop of `layer.Think` over the neurons of the layer, in `float64`. -/
def layer.Think.loop (exp : Float64 → Float64) (prevLayer : Option (layer Float64)) :
    List (neuron Float64) → Option (List (neuron Float64))
  | [] => some []
  | n :: rest =>
    match neuron.Think exp n prevLayer with
    | none => none
    | some n1 =>
      match layer.Think.loop exp prevLayer rest with
      | none => none
      | some rest1 => some (n1 :: rest1)

/-- The method `layer.Think()` in `float64`. -/
def layer.Think (exp : Float64 → Float64) (l : layer Float64)
    (prevLayer : Option (layer Float64)) : Option (layer Float64) :=
  match layer.Think.loop exp prevLayer l.neurons with
  | none => none
  | some neurons => some { l with neurons := neurons }

/-- One iteration of the loop `for j, layer := range n.layers` of `network.Think`,
in `float64`. -/
def network.Think.step (exp : Float64 → Float64) (inputs : List Float64)
    (layers : List (layer Float64)) (j : Nat) : Option (List (layer Float64)) :=
  match layers[j]? with
  | none => none
  | some l =>
    if l.inputLayer then
      match layers[0]? with
      | none => none
      | some l0 =>
        match Neuroblast.network.Think.setInputs l0.neurons inputs with
        | none => none
        | some ns => some (layers.set 0 { l0 with neurons := ns })
    else
      match layer.Think exp l (previousLayer layers j) with
      | none => none
      | some l1 => some (layers.set j l1)

/-- The loop of `network.Think` over the slots `0, ..., len(n.layers) - 1`, in
`float64`. -/
def network.Think.loop (exp : Float64 → Float64) (inputs : List Float64) :
    List Nat → List (layer Float64) → Option (List (layer Float64))
  | [], layers => some layers
  | j :: js, layers =>
    match network.Think.step exp inputs layers j with
    | none => none
    | some layers1 => network.Think.loop exp inputs js layers1

/-- The method `network.Think(inputs)` in `float64`: the network after the call
and the returned value `n.layers[len(n.layers)-1].neurons[0].output`. -/
def network.Think (exp : Float64 → Float64) (n : network Float64) (inputs : List Float64) :
    Option (network Float64 × Float64) :=
  match network.Think.loop exp inputs (List.range n.layers.length) n.layers with
  | none => none
  | some layers =>
    match layers[layers.length - 1]? with
    | none => none
    | some last =>
      match last.neurons[0]? with
      | none => none
      | some u => some (⟨layers⟩, u.output)

/-- The method `neuron.Train(prevLayer)` in `float64`; as in the source, the
update of `s.weight` is made on the loop copy `s` and dropped. -/
def neuron.Train.loop (n : neuron Float64) :
    List (synapse Float64) → layer Float64 → Option (layer Float64)
  | [], prevLayer => some prevLayer
  | s :: rest, prevLayer =>
    match prevLayer.neurons[s.inputNeuronIndex]? with
    | none => none
    | some u =>
      let back := Float64.mul (Float64.mul n.err s.weight) (sigmoid_derivative n.output)
      let prevLayer1 : layer Float64 :=
        { prevLayer with
          neurons := prevLayer.neurons.set s.inputNeuronIndex
            { u with err := Float64.add u.err back } }
      let step := Float64.mul (Float64.mul s.signal n.err) (sigmoid_derivative n.output)
      let _s1 : synapse Float64 := { s with weight := Float64.add s.weight step }
      neuron.Train.loop n rest prevLayer1

/-- The method `neuron.Train(prevLayer)` in `float64`. -/
def neuron.Train (n : neuron Float64) (prevLayer : layer Float64) : Option (layer Float64) :=
  neuron.Train.loop n n.synapses prevLayer

/-- The inner loop of `network.ResetErrors` in `float64`: the assignment
`neuron.err = 0` changes the loop copy only. -/
def network.ResetErrors.neurons (n : network Float64) : List (neuron Float64) → network Float64
  | [] => n
  | u :: rest =>
    let _u1 : neuron Float64 := { u with err := Float64.fin 0 }
    network.ResetErrors.neurons n rest

/-- The outer loop of `network.ResetErrors` in `float64`. -/
def network.ResetErrors.layers : network Float64 → List (layer Float64) → network Float64
  | n, [] => n
  | n, l :: rest => network.ResetErrors.layers (network.ResetErrors.neurons n l.neurons) rest

/-- The method `network.ResetErrors()` in `float64`. -/
def network.ResetErrors (n : network Float64) : network Float64 :=
  network.ResetErrors.layers n n.layers

/-- The loop `for _, neuron := range n.layers[i].neurons` of `network.Train`, in
`float64`. -/
def network.Train.neurons : List (neuron Float64) → layer Float64 → Option (layer Float64)
  | [], prevLayer => some prevLayer
  | u :: rest, prevLayer =>
    match neuron.Train u prevLayer with
    | none => none
    | some prevLayer1 => network.Train.neurons rest prevLayer1

/-- The loop `for i := len(n.layers) - 1; i > 0; i--` of `network.Train`, started
at `i`, in `float64`. -/
def network.Train.loop : Nat → List (layer Float64) → Option (List (layer Float64))
  | 0, layers => some layers
  | i + 1, layers =>
    match layers[i + 1]?, layers[i]? with
    | some cur, some prev =>
      match network.Train.neurons cur.neurons prev with
      | none => none
      | some prev1 => network.Train.loop i (layers.set i prev1)
    | _, _ => none

/-- The method `network.Train(data)` in `float64`: the network after the call and
the returned value `math.Abs(err)`, with `err := data.output - predicted`. -/
def network.Train (exp : Float64 → Float64) (n : network Float64) (data : Example Float64) :
    Option (network Float64 × Float64) :=
  match network.Think exp n data.input with
  | none => none
  | some (n1, predicted) =>
    let err := Float64.sub data.output predicted
    let n2 := network.ResetErrors n1
    match Neuroblast.network.Train.setErr n2.layers err with
    | none => none
    | some layers3 =>
      match network.Train.loop (n2.layers.length - 1) layers3 with
      | none => none
      | some layers4 => some (⟨layers4⟩, Float64.abs err)

/-- Every unit of `l` that has a synapse holds a value of the sigmoid. -/
def layer.Squashed (exp : Float64 → Float64) (l : layer Float64) : Prop :=
  ∀ u ∈ l.neurons, u.synapses ≠ [] → ∃ a, u.output = sigmoid exp a

end F64

/-! ## Lemmas on the forward pass -/

theorem neuron_Think_loop_none_prev (exp : F → F) (ss : List (synapse F)) (a o : F)
    (r : List (synapse F) × F) (h : neuron.Think.loop exp none ss a o = some r) :
    ss = [] ∧ r = ([], o) := by
  cases ss with
  | nil => simp [neuron.Think.loop] at h; exact ⟨rfl, h.symm⟩
  | cons s rest => simp [neuron.Think.loop] at h

theorem neuron_Think_loop_ok (exp : F → F) (p : layer F) :
    ∀ (ss : List (synapse F)) (a o : F),
      (∀ s ∈ ss, s.inputNeuronIndex < p.neurons.length) →
      neuron.Think.loop exp (some p) ss a o =
        some (ss.map (synapse.fed p),
          if ss = [] then o
          else sigmoid exp (a + (ss.map fun s => s.weight * p.outputAt s.inputNeuronIndex).sum))
  | [], a, o, _ => by simp [neuron.Think.loop]
  | s :: rest, a, o, h => by
    have hs : s.inputNeuronIndex < p.neurons.length := h s (List.mem_cons_self _ _)
    have hrest : ∀ x ∈ rest, x.inputNeuronIndex < p.neurons.length :=
      fun x hx => h x (List.mem_cons_of_mem _ hx)
    have ih := neuron_Think_loop_ok exp p rest
      (a + s.weight * (p.neurons[s.inputNeuronIndex]).output)
      (sigmoid exp (a + s.weight * (p.neurons[s.inputNeuronIndex]).output)) hrest
    have hout : p.outputAt s.inputNeuronIndex = (p.neurons[s.inputNeuronIndex]).output := by
      simp [layer.outputAt, List.getElem?_eq_getElem hs]
    simp only [neuron.Think.loop, List.getElem?_eq_getElem hs, ih]
    by_cases hr : rest = []
    · subst hr
      simp [synapse.fed, hout]
    · simp [hr, synapse.fed, hout, add_assoc]

theorem neuron_Think_loop_some (exp : F → F) (p : layer F) :
    ∀ (ss : List (synapse F)) (a o : F) (r : List (synapse F) × F),
      neuron.Think.loop exp (some p) ss a o = some r →
      ∀ s ∈ ss, s.inputNeuronIndex < p.neurons.length
  | [], _, _, _, _ => by simp
  | s :: rest, a, o, r, h => by
    simp only [neuron.Think.loop] at h
    cases hs : p.neurons[s.inputNeuronIndex]? with
    | none => simp [hs] at h
    | some src =>
      simp only [hs] at h
      have hlt : s.inputNeuronIndex < p.neurons.length := by
        rcases List.getElem?_eq_some.1 hs with ⟨hlt, _⟩
        exact hlt
      cases hl : neuron.Think.loop exp (some p) rest (a + s.weight * src.output)
          (sigmoid exp (a + s.weight * src.output)) with
      | none => simp [hl] at h
      | some r1 =>
        have ih := neuron_Think_loop_some exp p rest _ _ r1 hl
        intro x hx
        rcases List.mem_cons.1 hx with rfl | hx
        · exact hlt
        · exact ih x hx

theorem neuron_Think_eq_some (exp : F → F) (prev : Option (layer F)) (u u1 : neuron F) :
    u.Think exp prev = some u1 ↔ u.readable prev ∧ u1 = u.thought exp prev := by
  cases prev with
  | none =>
    constructor
    · intro h
      unfold neuron.Think at h
      cases hl : neuron.Think.loop exp none u.synapses 0 u.output with
      | none => simp [hl] at h
      | some r =>
        obtain ⟨h1, h2⟩ := neuron_Think_loop_none_prev exp _ _ _ r hl
        subst h2
        simp only [hl, Option.some.injEq] at h
        refine ⟨h1, ?_⟩
        subst h
        cases u
        simp_all [neuron.thought]
    · intro h
      have h1 : u.synapses = [] := h.1
      rw [h.2]
      cases u
      simp_all [neuron.Think, neuron.Think.loop, neuron.thought]
  | some p =>
    constructor
    · intro h
      unfold neuron.Think at h
      cases hl : neuron.Think.loop exp (some p) u.synapses 0 u.output with
      | none => simp [hl] at h
      | some r =>
        have hr := neuron_Think_loop_some exp p _ _ _ r hl
        refine ⟨hr, ?_⟩
        rw [neuron_Think_loop_ok exp p _ _ _ hr] at h
        simp only [Option.some.injEq] at h
        rw [← h]
        simp [neuron.thought, neuron.activity]
    · intro h
      have h1 : ∀ s ∈ u.synapses, s.inputNeuronIndex < p.neurons.length := h.1
      rw [h.2]
      simp [neuron.Think, neuron_Think_loop_ok exp p _ _ _ h1, neuron.thought, neuron.activity]

theorem layer_Think_loop_eq_some (exp : F → F) (prev : Option (layer F)) :
    ∀ (us us1 : List (neuron F)),
      layer.Think.loop exp prev us = some us1 ↔
        (∀ u ∈ us, u.readable prev) ∧ us1 = us.map (neuron.thought exp prev)
  | [], us1 => by
    simp [layer.Think.loop, eq_comm]
  | u :: rest, us1 => by
    unfold layer.Think.loop
    cases hu : u.Think exp prev with
    | none =>
      have : ¬ u.readable prev := fun hr =>
        by simpa [hu] using (neuron_Think_eq_some exp prev u (u.thought exp prev)).2 ⟨hr, rfl⟩
      simp [this]
    | some u1 =>
      obtain ⟨hr, hu1⟩ := (neuron_Think_eq_some exp prev u u1).1 hu
      subst hu1
      cases hl : layer.Think.loop exp prev rest with
      | none =>
        have : ¬ ∀ x ∈ rest, x.readable prev := fun hx =>
          by simpa [hl] using (layer_Think_loop_eq_some exp prev rest _).2 ⟨hx, rfl⟩
        simp [this]
      | some rest1 =>
        obtain ⟨hx, hrest⟩ := (layer_Think_loop_eq_some exp prev rest rest1).1 hl
        subst hrest
        have hall : ∀ x ∈ u :: rest, x.readable prev := by
          intro x hx1
          rcases List.mem_cons.1 hx1 with rfl | hx1
          · exact hr
          · exact hx x hx1
        constructor
        · intro h
          simp only [Option.some.injEq] at h
          exact ⟨hall, by simp [← h]⟩
        · intro h
          rw [h.2]
          simp

theorem layer_Think_eq_some (exp : F → F) (prev : Option (layer F)) (l l1 : layer F) :
    l.Think exp prev = some l1 ↔
      (∀ u ∈ l.neurons, u.readable prev) ∧ l1 = l.thought exp prev := by
  unfold layer.Think
  cases hl : layer.Think.loop exp prev l.neurons with
  | none =>
    have : ¬ ∀ x ∈ l.neurons, x.readable prev := fun hx =>
      by simpa [hl] using (layer_Think_loop_eq_some exp prev l.neurons _).2 ⟨hx, rfl⟩
    simp [this]
  | some us1 =>
    obtain ⟨hx, hrest⟩ := (layer_Think_loop_eq_some exp prev l.neurons us1).1 hl
    subst hrest
    constructor
    · intro h
      simp only [Option.some.injEq] at h
      exact ⟨hx, by simp [← h, layer.thought]⟩
    · intro h
      rw [h.2]
      simp [layer.thought]

theorem network_Think_setInputs_eq_some :
    ∀ (ns : List (neuron F)) (xs : List F) (ns1 : List (neuron F)),
      network.Think.setInputs ns xs = some ns1 ↔
        xs.length ≤ ns.length ∧ ns1 = neuron.withOutputs ns xs
  | [], [], ns1 => by simp [network.Think.setInputs, neuron.withOutputs, eq_comm]
  | u :: ns, [], ns1 => by simp [network.Think.setInputs, neuron.withOutputs, eq_comm]
  | [], x :: xs, ns1 => by simp [network.Think.setInputs]
  | u :: ns, x :: xs, ns1 => by
    unfold network.Think.setInputs
    cases h : network.Think.setInputs ns xs with
    | none =>
      have : ¬ xs.length ≤ ns.length := fun hle =>
        by simpa [h] using (network_Think_setInputs_eq_some ns xs _).2 ⟨hle, rfl⟩
      simp [this]
    | some r =>
      obtain ⟨hle, hr⟩ := (network_Think_setInputs_eq_some ns xs r).1 h
      subst hr
      simp [neuron.withOutputs, hle, eq_comm]

theorem network_Think_step_eq_some (exp : F → F) (inputs : List F) (L L1 : List (layer F))
    (j : Nat) :
    network.Think.step exp inputs L j = some L1 ↔
      ∃ l, L[j]? = some l ∧
        ((l.inputLayer = true ∧ ∃ l0, L[0]? = some l0 ∧
            inputs.length ≤ l0.neurons.length ∧ L1 = L.set 0 (l0.withInputs inputs)) ∨
         (l.inputLayer = false ∧ (∀ u ∈ l.neurons, u.readable (previousLayer L j)) ∧
            L1 = L.set j (l.thought exp (previousLayer L j)))) := by
  unfold network.Think.step
  cases hj : L[j]? with
  | none => simp
  | some l =>
    simp only [Option.some.injEq, exists_eq_left']
    cases hf : l.inputLayer with
    | true =>
      simp only [if_true, true_and, Bool.true_eq_false, false_and, or_false]
      cases h0 : L[0]? with
      | none => simp
      | some l0 =>
        simp only [Option.some.injEq, exists_eq_left']
        cases hs : network.Think.setInputs l0.neurons inputs with
        | none =>
          have : ¬ inputs.length ≤ l0.neurons.length := fun hle =>
            by simpa [hs] using (network_Think_setInputs_eq_some _ _ _).2 ⟨hle, rfl⟩
          simp [this]
        | some ns =>
          obtain ⟨hle, hns⟩ := (network_Think_setInputs_eq_some _ _ _).1 hs
          subst hns
          simp only [Option.some.injEq, hle, true_and, layer.withInputs]
          exact eq_comm
    | false =>
      simp only [Bool.false_eq_true, if_false, false_and, true_and, false_or]
      cases ht : l.Think exp (previousLayer L j) with
      | none =>
        have : ¬ ∀ u ∈ l.neurons, u.readable (previousLayer L j) := fun hr =>
          by simpa [ht] using (layer_Think_eq_some exp _ l _).2 ⟨hr, rfl⟩
        simp [this]
      | some l1 =>
        obtain ⟨hr, hl1⟩ := (layer_Think_eq_some exp _ l l1).1 ht
        subst hl1
        have hr1 : ∀ u ∈ l.neurons, u.readable (previousLayer L j) := hr
        simp only [Option.some.injEq]
        constructor
        · intro h
          exact ⟨hr1, h.symm⟩
        · intro h
          exact h.2.symm

theorem layer_thought_shape (exp : F → F) (prev : Option (layer F)) (l : layer F) :
    (l.thought exp prev).shape = l.shape := by
  cases prev with
  | none => simp [layer.thought, layer.shape, neuron.thought]
  | some p =>
    simp only [layer.thought, layer.shape, neuron.thought, List.map_map, Prod.mk.injEq, true_and]
    apply List.map_congr_left
    intro u _
    simp [neuron.thought, Function.comp, synapse.fed]

theorem neuron_withOutputs_shape :
    ∀ (ns : List (neuron F)) (xs : List F),
      (neuron.withOutputs ns xs).map (fun u => u.synapses.map fun s => s.inputNeuronIndex) =
        ns.map (fun u => u.synapses.map fun s => s.inputNeuronIndex)
  | [], [] => rfl
  | [], _ :: _ => rfl
  | _ :: _, [] => rfl
  | u :: ns, x :: xs => by
    simp [neuron.withOutputs, neuron_withOutputs_shape ns xs]

theorem layer_withInputs_shape (l : layer F) (xs : List F) :
    (l.withInputs xs).shape = l.shape := by
  simp [layer.withInputs, layer.shape, neuron_withOutputs_shape]

theorem layer_shape_length (l l1 : layer F) (h : l1.shape = l.shape) :
    l1.neurons.length = l.neurons.length := by
  have := congrArg (fun s => s.2.length) h
  simpa [layer.shape] using this

theorem forwardChain_shape (exp : F → F) :
    ∀ (rest : List (layer F)) (p : layer F),
      (forwardChain exp p rest).map layer.shape = rest.map layer.shape
  | [], _ => rfl
  | l :: rest, p => by
    simp [forwardChain, layer_thought_shape, forwardChain_shape exp rest]

theorem forward_shape (exp : F → F) (inputs : List F) (L : List (layer F)) :
    (forward exp inputs L).map layer.shape = L.map layer.shape := by
  cases L with
  | nil => rfl
  | cons l0 rest => simp [forward, layer_withInputs_shape, forwardChain_shape]

theorem layer_readable_of_wired (p l : layer F)
    (h : ∀ idxs ∈ l.shape.2, ∀ i ∈ idxs, i < p.neurons.length) :
    ∀ u ∈ l.neurons, u.readable (some p) := by
  intro u hu s hs
  apply h (u.synapses.map fun s => s.inputNeuronIndex)
  · simp only [layer.shape, List.mem_map]
    exact ⟨u, hu, rfl⟩
  · exact List.mem_map.2 ⟨s, hs, rfl⟩

theorem network_Think_loop_chain (exp : F → F) (inputs : List F) :
    ∀ (suf pre : List (layer F)) (p : layer F),
      wiredFrom p.neurons.length (suf.map layer.shape) →
      network.Think.loop exp inputs (List.range' (pre.length + 1) suf.length) (pre ++ p :: suf) =
        some (pre ++ p :: forwardChain exp p suf)
  | [], pre, p, _ => by simp [network.Think.loop, forwardChain]
  | l :: rest, pre, p, h => by
    obtain ⟨hflag, hidx, hrest⟩ := h
    have hflag : l.inputLayer = false := hflag
    have hget : (pre ++ p :: l :: rest)[pre.length + 1]? = some l := by
      rw [List.getElem?_append_right (by omega)]
      simp
    have hprev : previousLayer (pre ++ p :: l :: rest) (pre.length + 1) = some p := by
      simp only [previousLayer]
      rw [List.getElem?_append_right (by omega)]
      simp
    have hstep : network.Think.step exp inputs (pre ++ p :: l :: rest) (pre.length + 1) =
        some ((pre ++ [p]) ++ l.thought exp (some p) :: rest) := by
      rw [network_Think_step_eq_some]
      refine ⟨l, hget, Or.inr ⟨hflag, ?_, ?_⟩⟩
      · rw [hprev]
        exact layer_readable_of_wired p l hidx
      · rw [hprev]
        simp [List.set_append]
    have hrest1 : wiredFrom (l.thought exp (some p)).neurons.length (rest.map layer.shape) := by
      have : (l.thought exp (some p)).neurons.length = (l.shape.2).length := by
        simp [layer.thought, layer.shape]
      rw [this]
      exact hrest
    have ih := network_Think_loop_chain exp inputs rest (pre ++ [p]) (l.thought exp (some p)) hrest1
    simp only [List.length_cons, List.range'_succ, network.Think.loop, hstep]
    simp only [List.length_append, List.length_singleton] at ih
    rw [ih]
    simp [forwardChain]

theorem network_Think_loop_wired (exp : F → F) (inputs : List F) (n : network F) (l0 : layer F)
    (hw : n.Wired) (h0 : n.layers.head? = some l0) (hle : inputs.length ≤ l0.neurons.length) :
    network.Think.loop exp inputs (List.range n.layers.length) n.layers =
      some (forward exp inputs n.layers) := by
  cases hL : n.layers with
  | nil => simp [hL] at h0
  | cons l rest =>
    rw [hL] at h0
    simp only [List.head?_cons, Option.some.injEq] at h0
    subst h0
    unfold network.Wired network.shape at hw
    rw [hL] at hw
    obtain ⟨hflag, hrest⟩ := hw
    have hflag : l.inputLayer = true := hflag
    have hstep : network.Think.step exp inputs (l :: rest) 0 =
        some (l.withInputs inputs :: rest) := by
      rw [network_Think_step_eq_some]
      exact ⟨l, by simp, Or.inl ⟨hflag, l, by simp, hle, by simp⟩⟩
    have hrest1 : wiredFrom (l.withInputs inputs).neurons.length (rest.map layer.shape) := by
      rw [layer_shape_length _ _ (layer_withInputs_shape l inputs)]
      simpa [layer.shape] using hrest
    have := network_Think_loop_chain exp inputs rest [] (l.withInputs inputs) hrest1
    simp only [List.length_nil, zero_add, List.nil_append] at this
    simp only [List.length_cons, List.range_eq_range', List.range'_succ, network.Think.loop, hstep,
      zero_add, this, forward]

theorem network_Think_loop_too_long (exp : F → F) (inputs : List F) (n : network F) (l0 : layer F)
    (hw : n.Wired) (h0 : n.layers.head? = some l0) (hlt : l0.neurons.length < inputs.length) :
    network.Think.loop exp inputs (List.range n.layers.length) n.layers = none := by
  cases hL : n.layers with
  | nil => simp [hL] at h0
  | cons l rest =>
    rw [hL] at h0
    simp only [List.head?_cons, Option.some.injEq] at h0
    subst h0
    unfold network.Wired network.shape at hw
    rw [hL] at hw
    have hflag : l.inputLayer = true := hw.1
    have hstep : network.Think.step exp inputs (l :: rest) 0 = none := by
      cases hs : network.Think.step exp inputs (l :: rest) 0 with
      | none => rfl
      | some L1 =>
        rw [network_Think_step_eq_some] at hs
        obtain ⟨l1, hl1, h⟩ := hs
        simp only [List.getElem?_cons_zero, Option.some.injEq] at hl1
        subst hl1
        rcases h with ⟨_, l2, hl2, hle, _⟩ | ⟨hf, _⟩
        · simp only [List.getElem?_cons_zero, Option.some.injEq] at hl2
          subst hl2
          omega
        · rw [hflag] at hf
          cases hf
    simp only [List.length_cons, List.range_eq_range', List.range'_succ, network.Think.loop, hstep]

theorem topologyShape_counts :
    ∀ (cs : List Nat) (prev : Option Nat),
      (topologyShape prev cs).map (fun sh => sh.2.length) = cs
  | [], _ => rfl
  | c :: cs, prev => by simp [topologyShape, topologyShape_counts cs]

theorem wiredFrom_topologyShape :
    ∀ (cs : List Nat) (m : Nat), wiredFrom m (topologyShape (some m) cs)
  | [], _ => trivial
  | c :: cs, m => by
    refine ⟨rfl, ?_, ?_⟩
    · intro idxs hidxs i hi
      rw [List.eq_of_mem_replicate hidxs] at hi
      simpa using hi
    · simpa using wiredFrom_topologyShape cs c

theorem network_WellFormed_wired (n : network F) (t : List Nat) (h : n.WellFormed t) :
    n.Wired := by
  unfold network.Wired
  unfold network.WellFormed at h
  rw [h]
  cases t with
  | nil => trivial
  | cons c cs =>
    refine ⟨rfl, ?_⟩
    simpa using wiredFrom_topologyShape cs c

theorem network_WellFormed_counts (n : network F) (t : List Nat) (h : n.WellFormed t) :
    n.layers.map (fun l => l.neurons.length) = t := by
  have := congrArg (List.map fun sh => sh.2.length) h
  rw [topologyShape_counts] at this
  rw [← this]
  simp [network.shape, layer.shape]

/-- Every unit of the layers after a non-empty layer has a synapse, when all the
unit counts are positive. -/
theorem topologyShape_nonempty :
    ∀ (cs : List Nat) (m : Nat), 0 < m → (∀ c ∈ cs, 0 < c) →
      ∀ sh ∈ topologyShape (some m) cs, ∀ idxs ∈ sh.2, idxs ≠ []
  | [], _, _, _ => by simp [topologyShape]
  | c :: cs, m, hm, hpos => by
    intro sh hsh idxs hidxs
    simp only [topologyShape, List.mem_cons] at hsh
    rcases hsh with rfl | hsh
    · rw [List.eq_of_mem_replicate hidxs]
      simp only [Option.getD_some, ne_eq, List.range_eq_nil]
      omega
    · exact topologyShape_nonempty cs c (hpos c (List.mem_cons_self _ _))
        (fun x hx => hpos x (List.mem_cons_of_mem _ hx)) sh hsh idxs hidxs

theorem neuron_withOutputs_outputs :
    ∀ (ns : List (neuron F)) (xs : List F), xs.length ≤ ns.length →
      (neuron.withOutputs ns xs).map (fun u => u.output) =
        xs ++ (ns.map fun u => u.output).drop xs.length
  | [], [], _ => rfl
  | [], _ :: _, h => by simp at h
  | _ :: _, [], _ => by simp [neuron.withOutputs]
  | u :: ns, x :: xs, h => by
    have h1 : xs.length ≤ ns.length := by simpa using h
    simp [neuron.withOutputs, neuron_withOutputs_outputs ns xs h1]

theorem neuron_withOutputs_weights :
    ∀ (ns : List (neuron F)) (xs : List F),
      (neuron.withOutputs ns xs).map (fun u => u.synapses.map fun s => s.weight) =
        ns.map (fun u => u.synapses.map fun s => s.weight)
  | [], [] => rfl
  | [], _ :: _ => rfl
  | _ :: _, [] => rfl
  | u :: ns, x :: xs => by
    simp [neuron.withOutputs, neuron_withOutputs_weights ns xs]

theorem layer_thought_weights (exp : F → F) (prev : Option (layer F)) (l : layer F) :
    (l.thought exp prev).neurons.map (fun u => u.synapses.map fun s => s.weight) =
      l.neurons.map (fun u => u.synapses.map fun s => s.weight) := by
  cases prev with
  | none => simp [layer.thought, neuron.thought]
  | some p =>
    simp only [layer.thought, List.map_map]
    apply List.map_congr_left
    intro u _
    simp [neuron.thought, Function.comp, synapse.fed]

theorem forwardChain_weights (exp : F → F) :
    ∀ (rest : List (layer F)) (p : layer F),
      (forwardChain exp p rest).map
          (fun l => l.neurons.map fun u => u.synapses.map fun s => s.weight) =
        rest.map (fun l => l.neurons.map fun u => u.synapses.map fun s => s.weight)
  | [], _ => rfl
  | l :: rest, p => by
    simp [forwardChain, layer_thought_weights, forwardChain_weights exp rest]

theorem forward_weights (exp : F → F) (inputs : List F) (L : List (layer F)) :
    (forward exp inputs L).map
        (fun l => l.neurons.map fun u => u.synapses.map fun s => s.weight) =
      L.map (fun l => l.neurons.map fun u => u.synapses.map fun s => s.weight) := by
  cases L with
  | nil => rfl
  | cons l0 rest =>
    simp [forward, layer.withInputs, neuron_withOutputs_weights, forwardChain_weights]

/-- Consecutive layers after the forward pass: the later one is the forward
pass of its old self on the earlier one. -/
theorem forwardChain_pairs (exp : F → F) :
    ∀ (rest : List (layer F)) (p : layer F) (j : Nat) (a b : layer F),
      (p :: forwardChain exp p rest)[j]? = some a →
      (p :: forwardChain exp p rest)[j + 1]? = some b →
      ∃ old, rest[j]? = some old ∧ b = old.thought exp (some a)
  | [], p, j, a, b, _, hb => by simp [forwardChain] at hb
  | l :: rest, p, 0, a, b, ha, hb => by
    simp only [List.getElem?_cons_zero, Option.some.injEq] at ha
    subst ha
    simp only [forwardChain, List.getElem?_cons_succ, List.getElem?_cons_zero,
      Option.some.injEq] at hb
    exact ⟨l, by simp, hb.symm⟩
  | l :: rest, p, j + 1, a, b, ha, hb => by
    simp only [forwardChain, List.getElem?_cons_succ] at ha
    rw [List.getElem?_cons_succ] at hb
    simp only [forwardChain] at hb
    obtain ⟨old, h1, h2⟩ := forwardChain_pairs exp rest (l.thought exp (some p)) j a b ha hb
    exact ⟨old, by simpa using h1, h2⟩

theorem neuron_thought_output (exp : F → F) (p : layer F) (u : neuron F)
    (h : u.synapses ≠ []) :
    (u.thought exp (some p)).output = sigmoid exp ((u.thought exp (some p)).activity p) := by
  simp only [neuron.thought, h, if_false, neuron.activity, List.map_map]
  congr 1

/-- The result of `network.Think` on a wired network whose first layer can hold
the inputs. -/
theorem network_Think_wired (exp : F → F) (inputs : List F) (n : network F) (l0 : layer F)
    (hw : n.Wired) (h0 : n.layers.head? = some l0) (hle : inputs.length ≤ l0.neurons.length) :
    n.Think exp inputs =
      (((forward exp inputs n.layers).getLast?).bind fun last => last.neurons.head?).map
        fun u => (⟨forward exp inputs n.layers⟩, u.output) := by
  unfold network.Think
  rw [network_Think_loop_wired exp inputs n l0 hw h0 hle]
  simp only [← List.getLast?_eq_getElem?]
  cases (forward exp inputs n.layers).getLast? with
  | none => rfl
  | some last =>
    cases hl : last.neurons with
    | nil => simp [hl]
    | cons u us => simp [hl]

/-- The layers of a network that is well formed for `c0 :: cs`. -/
theorem network_WellFormed_cons (n : network F) (c0 : Nat) (cs : List Nat)
    (h : n.WellFormed (c0 :: cs)) :
    ∃ l0 rest, n.layers = l0 :: rest ∧ l0.neurons.length = c0 ∧
      rest.map layer.shape = topologyShape (some c0) cs := by
  unfold network.WellFormed network.shape at h
  cases hL : n.layers with
  | nil => simp [hL, topologyShape] at h
  | cons l0 rest =>
    rw [hL] at h
    simp only [List.map_cons, topologyShape, List.cons.injEq] at h
    refine ⟨l0, rest, rfl, ?_, h.2⟩
    have := congrArg (fun sh => sh.2.length) h.1
    simpa [layer.shape] using this

theorem network_WellFormed_forward (exp : F → F) (inputs : List F) (n : network F)
    (t : List Nat) (h : n.WellFormed t) :
    network.WellFormed ⟨forward exp inputs n.layers⟩ t := by
  unfold network.WellFormed network.shape at *
  simp only [forward_shape]
  exact h

/-- On a well-formed network of positive unit counts whose first layer can hold
the inputs, `network.Think` returns: the layers are those of `forward` and the
value is the output of the first unit of the last layer. -/
theorem network_Think_wellFormed (exp : F → F) (n : network F) (c0 : Nat) (cs : List Nat)
    (inputs : List F) (hwf : n.WellFormed (c0 :: cs)) (hpos : ∀ c ∈ c0 :: cs, 0 < c)
    (hle : inputs.length ≤ c0) :
    ∃ last u us, (forward exp inputs n.layers).getLast? = some last ∧ last.neurons = u :: us ∧
      n.Think exp inputs = some (⟨forward exp inputs n.layers⟩, u.output) := by
  obtain ⟨l0, rest, hL, hc0, _⟩ := network_WellFormed_cons n c0 cs hwf
  have hT := network_Think_wired exp inputs n l0 (network_WellFormed_wired n _ hwf)
    (by simp [hL]) (by omega)
  have hcounts := network_WellFormed_counts _ _ (network_WellFormed_forward exp inputs n _ hwf)
  simp only at hcounts
  have hlast : ((forward exp inputs n.layers).getLast?).map (fun l => l.neurons.length) =
      (c0 :: cs).getLast? := by
    rw [← List.getLast?_map, hcounts]
  cases hg : (forward exp inputs n.layers).getLast? with
  | none =>
    rw [List.getLast?_eq_none_iff] at hg
    rw [hg] at hcounts
    simp at hcounts
  | some last =>
    rw [hg] at hlast
    simp only [Option.map_some'] at hlast
    have hmem : last.neurons.length ∈ c0 :: cs := List.mem_of_getLast?_eq_some hlast.symm
    have hp := hpos _ hmem
    cases hn : last.neurons with
    | nil => simp [hn] at hp
    | cons u us =>
      refine ⟨last, u, us, rfl, hn, ?_⟩
      rw [hT, hg]
      simp [hn]

/-! ## Lemmas on the backward pass -/

theorem set_map_same {α β : Type} (f : α → β) (l : List α) (i : Nat) (a b : α)
    (h : l[i]? = some a) (hf : f b = f a) : (l.set i b).map f = l.map f := by
  rw [List.map_set]
  apply List.ext_getElem?
  intro k
  rw [List.getElem?_set]
  split
  · next hik =>
    subst hik
    split
    · simp [h, hf]
    · next hlt =>
      simp only [List.length_map, not_lt] at hlt
      simp [List.getElem?_eq_none hlt]
  · rfl

theorem set_same {α : Type} (l : List α) (i : Nat) (a : α) (h : l[i]? = some a) :
    l.set i a = l := by
  have := set_map_same id l i a a h rfl
  simpa using this

theorem network_ResetErrors_neurons_eq (n : network F) :
    ∀ us : List (neuron F), network.ResetErrors.neurons n us = n
  | [] => rfl
  | _ :: rest => by
    simp only [network.ResetErrors.neurons]
    exact network_ResetErrors_neurons_eq n rest

theorem network_ResetErrors_layers_eq :
    ∀ (ls : List (layer F)) (n : network F), network.ResetErrors.layers n ls = n
  | [], _ => rfl
  | l :: rest, n => by
    simp only [network.ResetErrors.layers, network_ResetErrors_neurons_eq]
    exact network_ResetErrors_layers_eq rest n

/-- The method `network.ResetErrors` returns the network as it found it. -/
theorem network_ResetErrors_eq (n : network F) : n.ResetErrors = n :=
  network_ResetErrors_layers_eq n.layers n

theorem neuron_Train_loop_noErr (u : neuron F) :
    ∀ (ss : List (synapse F)) (p p1 : layer F),
      neuron.Train.loop u ss p = some p1 → p1.noErr = p.noErr
  | [], p, p1, h => by
    simp only [neuron.Train.loop, Option.some.injEq] at h
    rw [h]
  | s :: rest, p, p1, h => by
    simp only [neuron.Train.loop] at h
    cases hv : p.neurons[s.inputNeuronIndex]? with
    | none => simp [hv] at h
    | some v =>
      simp only [hv] at h
      rw [neuron_Train_loop_noErr u rest _ p1 h]
      simp only [layer.noErr, layer.mk.injEq, true_and]
      exact set_map_same neuron.noErr _ _ v _ hv rfl

theorem neuron_Train_loop_ok (u : neuron F) :
    ∀ (ss : List (synapse F)) (p : layer F),
      (∀ s ∈ ss, s.inputNeuronIndex < p.neurons.length) →
      ∃ p1, neuron.Train.loop u ss p = some p1
  | [], p, _ => ⟨p, rfl⟩
  | s :: rest, p, h => by
    have hs : s.inputNeuronIndex < p.neurons.length := h s (List.mem_cons_self _ _)
    simp only [neuron.Train.loop, List.getElem?_eq_getElem hs]
    apply neuron_Train_loop_ok u rest
    intro x hx
    simpa using h x (List.mem_cons_of_mem _ hx)

theorem layer_noErr_length (p p1 : layer F) (h : p1.noErr = p.noErr) :
    p1.neurons.length = p.neurons.length := by
  have := congrArg (fun l => l.neurons.length) h
  simpa [layer.noErr] using this

theorem network_Train_neurons_noErr :
    ∀ (us : List (neuron F)) (p p1 : layer F),
      network.Train.neurons us p = some p1 → p1.noErr = p.noErr
  | [], p, p1, h => by
    simp only [network.Train.neurons, Option.some.injEq] at h
    rw [h]
  | u :: rest, p, p1, h => by
    simp only [network.Train.neurons] at h
    cases hu : u.Train p with
    | none => simp [hu] at h
    | some p2 =>
      simp only [hu] at h
      rw [network_Train_neurons_noErr rest p2 p1 h]
      exact neuron_Train_loop_noErr u _ _ _ hu

theorem network_Train_neurons_ok :
    ∀ (us : List (neuron F)) (p : layer F),
      (∀ u ∈ us, u.readable (some p)) → ∃ p1, network.Train.neurons us p = some p1
  | [], p, _ => ⟨p, rfl⟩
  | u :: rest, p, h => by
    obtain ⟨p2, hp2⟩ := neuron_Train_loop_ok u u.synapses p (h u (List.mem_cons_self _ _))
    have hp2' : u.Train p = some p2 := hp2
    have hlen := layer_noErr_length _ _ (neuron_Train_loop_noErr u _ _ _ hp2)
    simp only [network.Train.neurons, hp2']
    apply network_Train_neurons_ok rest p2
    intro x hx s hs
    rw [hlen]
    exact h x (List.mem_cons_of_mem _ hx) s hs

/-- The backward loop started at `i` changes nothing but `err` fields, and
leaves the slots from `i` on as they are. -/
theorem network_Train_loop_noErr :
    ∀ (i : Nat) (L L1 : List (layer F)),
      network.Train.loop i L = some L1 →
      L1.map layer.noErr = L.map layer.noErr ∧ ∀ k, i ≤ k → L1[k]? = L[k]?
  | 0, L, L1, h => by
    simp only [network.Train.loop, Option.some.injEq] at h
    subst h
    exact ⟨rfl, fun _ _ => rfl⟩
  | i + 1, L, L1, h => by
    simp only [network.Train.loop] at h
    cases hc : L[i + 1]? with
    | none => simp [hc] at h
    | some cur =>
      cases hp : L[i]? with
      | none => simp [hc, hp] at h
      | some prev =>
        simp only [hc, hp] at h
        cases hn : network.Train.neurons cur.neurons prev with
        | none => simp [hn] at h
        | some prev1 =>
          simp only [hn] at h
          obtain ⟨h1, h2⟩ := network_Train_loop_noErr i _ L1 h
          constructor
          · rw [h1]
            exact set_map_same layer.noErr L i prev prev1 hp
              (network_Train_neurons_noErr _ _ _ hn)
          · intro k hk
            rw [h2 k (by omega), List.getElem?_set_ne (by omega)]

theorem wiredFrom_pairs :
    ∀ (rest : List (Bool × List (List Nat))) (s0 : Bool × List (List Nat)),
      wiredFrom s0.2.length rest → pairsWired (s0 :: rest)
  | [], s0, _ => by
    intro k sa sb _ hb
    simp at hb
  | (flag, units) :: rest, s0, h => by
    obtain ⟨_, hidx, hrest⟩ := h
    intro k sa sb ha hb
    cases k with
    | zero =>
      simp only [List.getElem?_cons_zero, Option.some.injEq, zero_add,
        List.getElem?_cons_succ] at ha hb
      subst ha hb
      exact hidx
    | succ k =>
      rw [List.getElem?_cons_succ] at ha hb
      exact wiredFrom_pairs rest (flag, units) hrest k sa sb ha hb

theorem network_Wired_pairs (n : network F) (h : n.Wired) : pairsWired (n.layers.map layer.shape) := by
  unfold network.Wired network.shape at h
  cases hS : n.layers.map layer.shape with
  | nil =>
    intro k sa sb ha _
    simp at ha
  | cons s0 rest =>
    rw [hS] at h
    exact wiredFrom_pairs rest s0 h.2

theorem layer_shape_noErr (l : layer F) : l.noErr.shape = l.shape := by
  simp [layer.shape, layer.noErr, neuron.noErr, Function.comp]

theorem layer_shape_of_noErr (p p1 : layer F) (h : p1.noErr = p.noErr) : p1.shape = p.shape := by
  rw [← layer_shape_noErr p1, h, layer_shape_noErr]

theorem network_Train_loop_ok :
    ∀ (i : Nat) (L : List (layer F)), i < L.length → pairsWired (L.map layer.shape) →
      ∃ L1, network.Train.loop i L = some L1
  | 0, L, _, _ => ⟨L, rfl⟩
  | i + 1, L, hi, hw => by
    have hc : L[i + 1]? = some L[i + 1] := List.getElem?_eq_getElem hi
    have hp : L[i]? = some L[i] := List.getElem?_eq_getElem (by omega)
    have hread : ∀ u ∈ (L[i + 1]).neurons, u.readable (some L[i]) := by
      apply layer_readable_of_wired
      have := hw i (L[i]).shape (L[i + 1]).shape (by simp [hp]) (by simp [hc])
      simpa [layer.shape] using this
    obtain ⟨prev1, hn⟩ := network_Train_neurons_ok _ _ hread
    simp only [network.Train.loop, hc, hp, hn]
    apply network_Train_loop_ok i
    · simp only [List.length_set]
      omega
    · rw [set_map_same layer.shape L i L[i] prev1 hp
        (layer_shape_of_noErr _ _ (network_Train_neurons_noErr _ _ _ hn))]
      exact hw

/-! ## The network of topology `[1, 1]` -/

/-- One call of `network.Train` on a state of the `[1, 1]` network: the weight
stays `w`, and the input unit's `err` grows by what the output unit sends back. -/
theorem train_net11 (exp : F → F) (w o0 e0 o1 sig e1 x y : F) :
    (net11 w o0 e0 o1 sig e1).Train exp ⟨[x], y⟩ =
      some (net11 w x
          (e0 + (y - sigmoid exp (w * x)) * w * sigmoid_derivative (sigmoid exp (w * x)))
          (sigmoid exp (w * x)) x (y - sigmoid exp (w * x)),
        |y - sigmoid exp (w * x)|) := by
  simp [net11, network.Train, network.Think, network.Think.loop, network.Think.step,
    network.Think.setInputs, List.range, List.range.loop, layer.Think, layer.Think.loop,
    neuron.Think, neuron.Think.loop, previousLayer, network_ResetErrors_eq,
    network.Train.setErr, network.Train.loop, network.Train.neurons, neuron.Train,
    neuron.Train.loop]

/-- One call of `network.Think` on a state of the `[1, 1]` network. -/
theorem think_net11 (exp : F → F) (w o0 e0 o1 sig e1 x : F) :
    (net11 w o0 e0 o1 sig e1).Think exp [x] =
      some (net11 w x e0 (sigmoid exp (w * x)) x e1, sigmoid exp (w * x)) := by
  simp [net11, network.Think, network.Think.loop, network.Think.step,
    network.Think.setInputs, List.range, List.range.loop, layer.Think, layer.Think.loop,
    neuron.Think, neuron.Think.loop, previousLayer]

/-- The network `NewNetwork` builds for the topology `[1, 1]` and the weight `w`. -/
theorem newNetwork_net11 (w : F) : NewNetwork [w] [1, 1] = some (net11 w 0 0 0 0 0) := by
  simp [NewNetwork, NewNetwork.layers, NewNetwork.neurons, NewNetwork.neuronSynapses,
    NewNetwork.synapses, previousLayer,
    net11]

/-! ## The sigmoid over the reals -/

theorem sigmoid_real_pos (x : ℝ) : 0 < sigmoid Real.exp x := by
  unfold sigmoid
  have := Real.exp_pos (-x)
  positivity

theorem sigmoid_real_lt_one (x : ℝ) : sigmoid Real.exp x < 1 := by
  unfold sigmoid
  have := Real.exp_pos (-x)
  rw [div_lt_one (by linarith)]
  linarith

/-- The value `sigmoid (1/2)` is below `0.89`. -/
theorem sigmoid_real_half_lt : sigmoid Real.exp (1/2 : ℝ) < 89/100 := by
  unfold sigmoid
  have h := Real.add_one_le_exp (-(1/2 : ℝ))
  rw [div_lt_iff₀ (by linarith)]
  linarith

/-! ## Training runs and the single output unit -/

/-- Any number of calls of `network.Train` on a state of the `[1, 1]` network
leaves the weight `w`; from the first call on, the outputs, the signal and the
output unit's `err` are those of the forward pass with `w`. -/
theorem trainTimes_net11 (exp : F → F) (w x y : F) :
    ∀ (k : Nat) (o0 e0 o1 sig e1 : F),
      ∃ o0' e0' o1' sig' e1',
        network.TrainTimes exp ⟨[x], y⟩ k (net11 w o0 e0 o1 sig e1) =
          some (net11 w o0' e0' o1' sig' e1')
  | 0, o0, e0, o1, sig, e1 => ⟨o0, e0, o1, sig, e1, rfl⟩
  | k + 1, o0, e0, o1, sig, e1 => by
    simp only [network.TrainTimes, train_net11]
    exact trainTimes_net11 exp w x y k _ _ _ _ _

/-- The last layer after `network.Think` on a well-formed network whose last
layer has one unit: the returned value is the output of that unit. -/
theorem network_Think_wellFormed_one (exp : F → F) (n : network F) (c0 : Nat) (cs : List Nat)
    (inputs : List F) (hwf : n.WellFormed (c0 :: cs)) (hpos : ∀ c ∈ c0 :: cs, 0 < c)
    (hlast : (c0 :: cs).getLast? = some 1) (hle : inputs.length ≤ c0) :
    ∃ last u, (forward exp inputs n.layers).getLast? = some last ∧ last.neurons = [u] ∧
      n.Think exp inputs = some (⟨forward exp inputs n.layers⟩, u.output) := by
  obtain ⟨last, u, us, hg, hn, hT⟩ := network_Think_wellFormed exp n c0 cs inputs hwf hpos hle
  refine ⟨last, u, hg, ?_, hT⟩
  have hcounts := network_WellFormed_counts _ _ (network_WellFormed_forward exp inputs n _ hwf)
  simp only at hcounts
  have hl : ((forward exp inputs n.layers).getLast?).map (fun l => l.neurons.length) =
      (c0 :: cs).getLast? := by
    rw [← List.getLast?_map, hcounts]
  rw [hg, hlast] at hl
  simp only [Option.map_some', Option.some.injEq, hn, List.length_cons] at hl
  have : us = [] := List.length_eq_zero.1 (by omega)
  rw [hn, this]

/-- The call `network.Train` on a wired network on which `network.Think` returns
`p` from the layers `L`, whose last layer `last` starts with the unit `u`: the
call returns `|target - p|` and leaves the last layer as `last` with the `err` of
`u` set to `target - p`. -/
theorem network_Train_of_Think (exp : F → F) (n : network F) (data : Example F)
    (L : List (layer F)) (last : layer F) (u : neuron F)
    (hT : n.Think exp data.input = some (⟨L⟩, u.output))
    (hw : pairsWired (L.map layer.shape))
    (hg : L.getLast? = some last) (hu : last.neurons[0]? = some u) :
    ∃ L4, n.Train exp data = some (⟨L4⟩, |data.output - u.output|) ∧
      L4.map layer.noErr = L.map layer.noErr ∧
      L4.getLast? = some { last with
        neurons := last.neurons.set 0 { u with err := data.output - u.output } } := by
  have hgl : L[L.length - 1]? = some last := by
    rw [← List.getLast?_eq_getElem?]
    exact hg
  have hne : 0 < L.length := by
    cases L with
    | nil => simp at hg
    | cons _ _ => simp
  have hset : network.Train.setErr L (data.output - u.output) =
      some (L.set (L.length - 1) { last with
        neurons := last.neurons.set 0 { u with err := data.output - u.output } }) := by
    simp only [network.Train.setErr, hgl, hu]
  have hnoErr : layer.noErr { last with
        neurons := last.neurons.set 0 { u with err := data.output - u.output } } =
      last.noErr := by
    simp only [layer.noErr, layer.mk.injEq, true_and]
    exact set_map_same neuron.noErr _ 0 u _ hu rfl
  have hshape3 := set_map_same layer.shape L (L.length - 1) last _ hgl
    (layer_shape_of_noErr _ _ hnoErr)
  obtain ⟨L4, h4⟩ := network_Train_loop_ok (L.length - 1)
    (L.set (L.length - 1) { last with
      neurons := last.neurons.set 0 { u with err := data.output - u.output } })
    (by simp only [List.length_set]; omega) (by rw [hshape3]; exact hw)
  obtain ⟨h5, h6⟩ := network_Train_loop_noErr _ _ _ h4
  have hlen : L4.length = L.length := by
    have := congrArg List.length h5
    simpa using this
  refine ⟨L4, ?_, ?_, ?_⟩
  · simp only [network.Train, hT, network_ResetErrors_eq, hset, h4]
  · rw [h5]
    exact set_map_same layer.noErr L _ last _ hgl hnoErr
  · rw [List.getLast?_eq_getElem?, hlen, h6 _ (le_refl _), List.getElem?_set_self (by omega)]

/-! ## Lemmas on the construction -/

theorem NewNetwork_synapses_eq (lines : List F) :
    ∀ (us : List (neuron F)) (index wi : Nat) (acc : List (synapse F)), wi ≤ lines.length →
      NewNetwork.synapses lines us index wi acc =
        if wi + us.length ≤ lines.length then
          some (acc ++ synapsesFor lines us.length index wi, wi + us.length)
        else none
  | [], index, wi, acc, h => by
    simp [NewNetwork.synapses, synapsesFor, h]
  | u :: rest, index, wi, acc, h => by
    unfold NewNetwork.synapses
    by_cases hlt : wi < lines.length
    · rw [List.getElem?_eq_getElem hlt]
      simp only
      rw [NewNetwork_synapses_eq lines rest (index + 1) (wi + 1) _ (by omega)]
      have hcond : wi + 1 + rest.length ≤ lines.length ↔
          wi + (u :: rest).length ≤ lines.length := by
        simp only [List.length_cons]
        omega
      by_cases hc : wi + (u :: rest).length ≤ lines.length
      · rw [if_pos hc, if_pos (hcond.2 hc)]
        simp only [synapsesFor, List.length_cons, List.range_succ_eq_map, List.map_cons,
          List.map_map, List.append_assoc, List.singleton_append, Option.some.injEq,
          Prod.mk.injEq, List.append_cancel_left_eq, List.cons.injEq, add_zero]
        refine ⟨⟨?_, ?_⟩, by omega⟩
        · simp [List.getD_eq_getElem?_getD, List.getElem?_eq_getElem hlt]
        · apply List.map_congr_left
          intro k _
          simp only [Function.comp, Nat.succ_eq_add_one]
          rw [show index + 1 + k = index + (k + 1) by omega,
            show wi + 1 + k = wi + (k + 1) by omega]
      · rw [if_neg hc, if_neg (fun h1 => hc (hcond.1 h1))]
    · have hnone : lines[wi]? = none := List.getElem?_eq_none (by omega)
      rw [hnone]
      simp only [List.length_cons]
      rw [if_neg (by omega)]

theorem NewNetwork_neurons_eq (lines : List F) (prev : Option (layer F)) :
    ∀ (k wi : Nat) (acc : List (neuron F)), wi ≤ lines.length →
      NewNetwork.neurons lines prev k wi acc =
        if wi + k * ((prev.map fun p => p.neurons.length).getD 0) ≤ lines.length then
          some (acc ++ (List.range k).map (fun j =>
                  { output := 0
                    synapses := synapsesFor lines ((prev.map fun p => p.neurons.length).getD 0) 0
                      (wi + j * ((prev.map fun p => p.neurons.length).getD 0))
                    err := 0 }),
            wi + k * ((prev.map fun p => p.neurons.length).getD 0))
        else none
  | 0, wi, acc, h => by
    simp [NewNetwork.neurons, h]
  | k + 1, wi, acc, h => by
    unfold NewNetwork.neurons
    cases prev with
    | none =>
      simp only [NewNetwork.neuronSynapses, Option.map_none', Option.getD_none, mul_zero,
        add_zero]
      rw [NewNetwork_neurons_eq lines none k wi _ h]
      simp only [Option.map_none', Option.getD_none, mul_zero, add_zero, if_pos h]
      simp only [synapsesFor, List.range_zero, List.map_nil, List.range_succ_eq_map,
        List.map_cons, List.map_map, List.append_assoc, List.singleton_append]
      rfl
    | some p =>
      simp only [NewNetwork.neuronSynapses, Option.map_some', Option.getD_some]
      rw [NewNetwork_synapses_eq lines p.neurons 0 wi [] h]
      by_cases hc : wi + p.neurons.length ≤ lines.length
      · rw [if_pos hc]
        simp only [List.nil_append]
        rw [NewNetwork_neurons_eq lines (some p) k (wi + p.neurons.length) _ hc]
        simp only [Option.map_some', Option.getD_some]
        have hcond : wi + p.neurons.length + k * p.neurons.length ≤ lines.length ↔
            wi + (k + 1) * p.neurons.length ≤ lines.length := by
          rw [Nat.add_mul, one_mul]
          omega
        by_cases hc2 : wi + (k + 1) * p.neurons.length ≤ lines.length
        · rw [if_pos hc2, if_pos (hcond.2 hc2)]
          simp only [List.range_succ_eq_map, List.map_cons, List.map_map, List.append_assoc,
            List.singleton_append, Option.some.injEq, Prod.mk.injEq,
            List.append_cancel_left_eq, List.cons.injEq, zero_mul, add_zero, true_and]
          refine ⟨?_, by rw [Nat.add_mul, one_mul]; omega⟩
          apply List.map_congr_left
          intro j _
          simp only [Function.comp, Nat.succ_eq_add_one]
          rw [show wi + p.neurons.length + j * p.neurons.length =
            wi + (j + 1) * p.neurons.length by rw [Nat.add_mul, one_mul]; omega]
        · rw [if_neg hc2, if_neg (fun h1 => hc2 (hcond.1 h1))]
      · rw [if_neg hc]
        simp only
        rw [if_neg]
        intro h1
        apply hc
        have : p.neurons.length ≤ (k + 1) * p.neurons.length := Nat.le_mul_of_pos_left _ (by omega)
        omega

theorem previousLayer_length (acc : List (layer F)) :
    previousLayer acc acc.length = acc.getLast? := by
  cases h : acc.length with
  | zero =>
    rw [List.length_eq_zero] at h
    subst h
    rfl
  | succ j =>
    simp only [previousLayer]
    rw [List.getLast?_eq_getElem?, h]
    rfl

theorem getLast?_concat {α : Type} (l : List α) (a : α) : (l ++ [a]).getLast? = some a := by
  rw [List.getLast?_eq_getElem?]
  simp

theorem connections_zero_cons (cs : List Nat) : connections (0 :: cs) = connections cs := by
  cases cs with
  | nil => rfl
  | cons c cs => cases cs <;> simp [connections]

theorem NewNetwork_layers_eq (lines : List F) :
    ∀ (requested : List Int) (i wi : Nat) (acc : List (layer F)),
      acc.length = i → wi ≤ lines.length →
      NewNetwork.layers lines requested i wi acc =
        if wi + connections (((acc.getLast?.map fun p => p.neurons.length).getD 0) ::
              requested.map Int.toNat) ≤ lines.length then
          some (acc ++ layersFor lines (acc.getLast?.map fun p => p.neurons.length)
            (requested.map Int.toNat) wi)
        else none
  | [], i, wi, acc, _, h => by
    simp [NewNetwork.layers, connections, layersFor, h]
  | r :: rest, i, wi, acc, hi, h => by
    unfold NewNetwork.layers
    rw [← hi, previousLayer_length, NewNetwork_neurons_eq lines _ _ _ _ h]
    generalize hm : (acc.getLast?.map fun p => p.neurons.length).getD 0 = m
    have hflag : decide (acc.length = 0) = (acc.getLast?.map fun p => p.neurons.length).isNone := by
      cases acc with
      | nil => rfl
      | cons a as => simp [List.getLast?_cons_cons, List.getLast?_eq_getLast]
    have hconn : connections (m :: (r :: rest).map Int.toNat) =
        m * r.toNat + connections (r.toNat :: rest.map Int.toNat) := by
      simp [connections]
    by_cases hc : wi + r.toNat * m ≤ lines.length
    · rw [if_pos hc]
      simp only [List.nil_append]
      rw [NewNetwork_layers_eq lines rest (acc.length + 1) (wi + r.toNat * m) _ (by simp) hc]
      rw [getLast?_concat]
      simp only [Option.map_some', Option.getD_some, List.length_map, List.length_range]
      have hcond : wi + r.toNat * m + connections (r.toNat :: rest.map Int.toNat) ≤ lines.length ↔
          wi + connections (m :: (r :: rest).map Int.toNat) ≤ lines.length := by
        rw [hconn, Nat.mul_comm m]
        omega
      by_cases hc2 : wi + connections (m :: (r :: rest).map Int.toNat) ≤ lines.length
      · rw [if_pos hc2, if_pos (hcond.2 hc2)]
        simp only [List.map_cons, layersFor, hm, hflag, neuronsFor, List.append_assoc,
          List.singleton_append]
      · rw [if_neg hc2, if_neg (fun h1 => hc2 (hcond.1 h1))]
    · rw [if_neg hc]
      simp only
      rw [if_neg]
      rw [hconn, Nat.mul_comm m]
      omega

/-- The result of `NewNetwork`: it fails when `lines` is shorter than the number
of connections of the requested topology, and otherwise builds `layersFor`. -/
theorem NewNetwork_eq (lines : List F) (requested : List Int) :
    NewNetwork lines requested =
      if connections (requested.map Int.toNat) ≤ lines.length then
        some ⟨layersFor lines none (requested.map Int.toNat) 0⟩
      else none := by
  unfold NewNetwork
  rw [NewNetwork_layers_eq lines requested 0 0 [] rfl (Nat.zero_le _)]
  simp only [List.getLast?_nil, Option.map_none', Option.getD_none, connections_zero_cons,
    zero_add, List.nil_append]
  by_cases hc : connections (requested.map Int.toNat) ≤ lines.length
  · simp only [if_pos hc]
  · simp only [if_neg hc]

theorem map_toNat_ofNat (t : List Nat) : (t.map Int.ofNat).map Int.toNat = t := by
  induction t with
  | nil => rfl
  | cons c cs ih => simp [ih]

theorem layersFor_shape (lines : List F) :
    ∀ (cs : List Nat) (prev : Option Nat) (wi : Nat),
      (layersFor lines prev cs wi).map layer.shape = topologyShape prev cs
  | [], _, _ => rfl
  | c :: cs, prev, wi => by
    simp only [layersFor, List.map_cons, topologyShape, layersFor_shape lines cs,
      List.cons.injEq, and_true]
    simp only [layer.shape, neuronsFor, synapsesFor, List.map_map, Prod.mk.injEq, true_and]
    rw [List.eq_replicate_iff]
    refine ⟨by simp, ?_⟩
    intro idxs hidxs
    simp only [List.mem_map, List.mem_range, Function.comp] at hidxs
    obtain ⟨j, _, rfl⟩ := hidxs
    simp only [zero_add, List.map_map]
    exact List.map_id'' (fun _ => rfl) _

/-- The network `NewNetwork` builds is well formed for the requested topology. -/
theorem layersFor_wellFormed (lines : List F) (t : List Nat) :
    network.WellFormed ⟨layersFor lines none t 0⟩ t :=
  layersFor_shape lines t none 0

/-- The connections of the first `i + 1` layers, as a sum over the layers. -/
theorem connections_take :
    ∀ (t : List Nat) (i : Nat),
      connections (t.take (i + 1)) = ∑ m in Finset.range i, t.getD m 0 * t.getD (m + 1) 0
  | [], i => by simp [connections]
  | [a], i => by simp [connections]
  | a :: b :: rest, 0 => by simp [connections]
  | a :: b :: rest, i + 1 => by
    have ih := connections_take (b :: rest) i
    rw [Finset.sum_range_succ']
    simp only [List.take_succ_cons, connections] at ih ⊢
    rw [ih]
    simp only [List.getD_cons_succ, List.getD_cons_zero]
    omega

theorem connections_eq_sum (t : List Nat) :
    connections t = ∑ m in Finset.range (t.length - 1), t.getD m 0 * t.getD (m + 1) 0 := by
  cases t with
  | nil => simp [connections]
  | cons a rest =>
    rw [← connections_take]
    simp

theorem sum_Ico_one (t : List Nat) (i : Nat) :
    ∑ m in Finset.Ico 1 (i + 1), t.getD (m - 1) 0 * t.getD m 0 =
      ∑ m in Finset.range i, t.getD m 0 * t.getD (m + 1) 0 := by
  rw [Finset.sum_Ico_eq_sum_range]
  simp only [add_tsub_cancel_right]
  apply Finset.sum_congr rfl
  intro m _
  rw [show 1 + m - 1 = m by omega, show 1 + m = m + 1 by omega]

/-- The number of connections, written as the sum over the layers `1 ≤ m`. -/
theorem connections_eq_sum_Ico (t : List Nat) :
    connections t = ∑ m in Finset.Ico 1 t.length, t.getD (m - 1) 0 * t.getD m 0 := by
  rw [connections_eq_sum]
  cases t with
  | nil => simp
  | cons a rest =>
    rw [List.length_cons, sum_Ico_one]
    simp

theorem layersFor_get (lines : List F) :
    ∀ (cs : List Nat) (p wi i : Nat) (l : layer F),
      (layersFor lines (some p) cs wi)[i]? = some l →
      ∃ c, cs[i]? = some c ∧
        l = { inputLayer := false
              neurons := neuronsFor lines ((p :: cs).getD i 0) c
                (wi + connections ((p :: cs).take (i + 1))) }
  | [], p, wi, i, l, h => by simp [layersFor] at h
  | c :: cs, p, wi, 0, l, h => by
    simp only [layersFor, List.getElem?_cons_zero, Option.some.injEq, Option.isNone_some,
      Option.getD_some] at h
    exact ⟨c, by simp, by simp [← h, connections]⟩
  | c :: cs, p, wi, i + 1, l, h => by
    simp only [layersFor, List.getElem?_cons_succ, Option.getD_some] at h
    obtain ⟨c1, hc1, hl⟩ := layersFor_get lines cs c (wi + c * p) i l h
    refine ⟨c1, by simpa using hc1, ?_⟩
    rw [hl]
    simp only [List.getD_cons_succ, List.take_succ_cons, connections, layer.mk.injEq, true_and]
    congr 1
    rw [Nat.mul_comm c p]
    omega

/-! ## Lemmas on repeated calls -/

/-- When `network.Think` returns on a wired network, the first layer can hold the
inputs and the layers after the call are those of `forward`. -/
theorem network_Think_some_wired (exp : F → F) (inputs : List F) (n n1 : network F) (v : F)
    (hw : n.Wired) (h : n.Think exp inputs = some (n1, v)) :
    ∃ l0, n.layers.head? = some l0 ∧ inputs.length ≤ l0.neurons.length ∧
      n1 = ⟨forward exp inputs n.layers⟩ := by
  cases hL : n.layers with
  | nil =>
    simp [network.Think, hL, network.Think.loop] at h
  | cons l0 rest =>
    refine ⟨l0, rfl, ?_, ?_⟩
    · by_contra hlt
      have := network_Think_loop_too_long exp inputs n l0 hw (by simp [hL]) (by omega)
      simp [network.Think, this] at h
    · by_cases hle : inputs.length ≤ l0.neurons.length
      · have hT := network_Think_wired exp inputs n l0 hw (by simp [hL]) hle
        rw [hT] at h
        simp only [Option.map_eq_some', Prod.mk.injEq] at h
        obtain ⟨u, _, h1, _⟩ := h
        rw [← h1, hL]
      · have := network_Think_loop_too_long exp inputs n l0 hw (by simp [hL]) (by omega)
        simp [network.Think, this] at h

theorem network_Wired_of_shape (n n1 : network F) (h : n1.shape = n.shape) (hw : n.Wired) :
    n1.Wired := by
  unfold network.Wired at *
  rw [h]
  exact hw

theorem network_Think_shape (exp : F → F) (inputs : List F) (n n1 : network F) (v : F)
    (hw : n.Wired) (h : n.Think exp inputs = some (n1, v)) : n1.shape = n.shape := by
  obtain ⟨l0, _, _, h1⟩ := network_Think_some_wired exp inputs n n1 v hw h
  rw [h1]
  exact forward_shape exp inputs n.layers

theorem network_Train_setErr_noErr (L L3 : List (layer F)) (e : F)
    (h : network.Train.setErr L e = some L3) : L3.map layer.noErr = L.map layer.noErr := by
  unfold network.Train.setErr at h
  cases hl : L[L.length - 1]? with
  | none => simp [hl] at h
  | some last =>
    cases hu : last.neurons[0]? with
    | none => simp [hl, hu] at h
    | some u =>
      simp only [hl, hu, Option.some.injEq] at h
      rw [← h]
      apply set_map_same layer.noErr L _ last _ hl
      simp only [layer.noErr, layer.mk.injEq, true_and]
      exact set_map_same neuron.noErr _ 0 u _ hu rfl

theorem shape_of_map_noErr (L L1 : List (layer F)) (h : L1.map layer.noErr = L.map layer.noErr) :
    L1.map layer.shape = L.map layer.shape := by
  have := congrArg (List.map layer.shape) h
  simp only [List.map_map] at this
  have hcomp : (layer.shape ∘ layer.noErr : layer F → _) = layer.shape :=
    funext fun l => layer_shape_noErr l
  rw [hcomp] at this
  exact this

theorem network_Train_shape (exp : F → F) (data : Example F) (n n1 : network F) (r : F)
    (hw : n.Wired) (h : n.Train exp data = some (n1, r)) : n1.shape = n.shape := by
  unfold network.Train at h
  cases hT : n.Think exp data.input with
  | none => simp [hT] at h
  | some res =>
    obtain ⟨n2, p⟩ := res
    simp only [hT, network_ResetErrors_eq] at h
    cases hs : network.Train.setErr n2.layers (data.output - p) with
    | none => simp [hs] at h
    | some L3 =>
      simp only [hs] at h
      cases hl : network.Train.loop (n2.layers.length - 1) L3 with
      | none => simp [hl] at h
      | some L4 =>
        simp only [hl, Option.some.injEq, Prod.mk.injEq] at h
        rw [← h.1, ← network_Think_shape exp data.input n n2 p hw hT]
        unfold network.shape
        simp only
        rw [shape_of_map_noErr _ _ (network_Train_loop_noErr _ _ _ hl).1,
          shape_of_map_noErr _ _ (network_Train_setErr_noErr _ _ _ hs)]

theorem network_Reachable_wired (exp : F → F) (n : network F) (h : n.Reachable exp) :
    n.Wired := by
  induction h with
  | new lines requested n hn =>
    rw [NewNetwork_eq] at hn
    by_cases hc : connections (requested.map Int.toNat) ≤ lines.length
    · rw [if_pos hc] at hn
      simp only [Option.some.injEq] at hn
      rw [← hn]
      exact network_WellFormed_wired _ _ (layersFor_wellFormed lines _)
    · rw [if_neg hc] at hn
      cases hn
  | think n inputs n1 v _ hT ih =>
    exact network_Wired_of_shape n n1 (network_Think_shape exp inputs n n1 v ih hT) ih
  | train n data n1 r _ hT ih =>
    exact network_Wired_of_shape n n1 (network_Train_shape exp data n n1 r ih hT) ih

theorem synapse_fed_fed (p : layer F) (s : synapse F) : (s.fed p).fed p = s.fed p := rfl

theorem neuron_thought_thought (exp : F → F) (p : layer F) (u : neuron F) :
    (u.thought exp (some p)).thought exp (some p) = u.thought exp (some p) := by
  by_cases hs : u.synapses = []
  · simp [neuron.thought, hs]
  · simp only [neuron.thought, hs, neuron.activity, List.map_map, List.map_eq_nil_iff,
      if_false, neuron.mk.injEq, and_true]
    exact ⟨rfl, rfl⟩

theorem layer_thought_thought (exp : F → F) (p : layer F) (l : layer F) :
    (l.thought exp (some p)).thought exp (some p) = l.thought exp (some p) := by
  simp [layer.thought, Function.comp, neuron_thought_thought]

theorem forwardChain_idem (exp : F → F) :
    ∀ (rest : List (layer F)) (p : layer F),
      forwardChain exp p (forwardChain exp p rest) = forwardChain exp p rest
  | [], _ => rfl
  | l :: rest, p => by
    simp only [forwardChain, layer_thought_thought, forwardChain_idem exp rest]

theorem neuron_withOutputs_idem :
    ∀ (ns : List (neuron F)) (xs : List F),
      neuron.withOutputs (neuron.withOutputs ns xs) xs = neuron.withOutputs ns xs
  | [], [] => rfl
  | [], _ :: _ => rfl
  | _ :: _, [] => rfl
  | u :: ns, x :: xs => by
    simp [neuron.withOutputs, neuron_withOutputs_idem ns xs]

theorem forward_idem (exp : F → F) (inputs : List F) (L : List (layer F)) :
    forward exp inputs (forward exp inputs L) = forward exp inputs L := by
  cases L with
  | nil => rfl
  | cons l0 rest =>
    simp only [forward, layer.withInputs, neuron_withOutputs_idem, forwardChain_idem]

/-- On a wired network a second `network.Think` with the same inputs returns the
same value and leaves the network as the first call left it. -/
theorem network_Think_twice (exp : F → F) (inputs : List F) (n n1 : network F) (v : F)
    (hw : n.Wired) (h : n.Think exp inputs = some (n1, v)) :
    n1.Think exp inputs = some (n1, v) := by
  obtain ⟨l0, h0, hle, h1⟩ := network_Think_some_wired exp inputs n n1 v hw h
  have hw1 := network_Wired_of_shape n n1 (network_Think_shape exp inputs n n1 v hw h) hw
  have hT := network_Think_wired exp inputs n l0 hw h0 hle
  cases hL : n.layers with
  | nil => simp [hL] at h0
  | cons l rest =>
    have hT1 := network_Think_wired exp inputs n1 (l.withInputs inputs) hw1
      (by rw [h1, hL]; rfl)
      (by rw [layer_shape_length _ _ (layer_withInputs_shape l inputs)]
          rw [hL] at h0
          simp only [List.head?_cons, Option.some.injEq] at h0
          rw [h0]
          exact hle)
    rw [hT1]
    rw [hT] at h
    rw [h1] at h ⊢
    simp only [forward_idem]
    exact h

/-! ## What the calls leave unchanged, on every network -/

/-- A function of a layer that the forward pass of a layer and the copy of the
inputs leave unchanged is left unchanged, layer by layer, by the loop of
`network.Think`. -/
theorem network_Think_loop_map {α : Type} (exp : F → F) (inputs : List F) (g : layer F → α)
    (hg1 : ∀ prev l, g (layer.thought exp prev l) = g l)
    (hg2 : ∀ l, g (layer.withInputs l inputs) = g l) :
    ∀ (js : List Nat) (L L1 : List (layer F)),
      network.Think.loop exp inputs js L = some L1 → L1.map g = L.map g
  | [], L, L1, h => by
    simp only [network.Think.loop, Option.some.injEq] at h
    rw [h]
  | j :: js, L, L1, h => by
    simp only [network.Think.loop] at h
    cases hs : network.Think.step exp inputs L j with
    | none => simp [hs] at h
    | some L2 =>
      simp only [hs] at h
      rw [network_Think_loop_map exp inputs g hg1 hg2 js L2 L1 h]
      rw [network_Think_step_eq_some] at hs
      obtain ⟨l, hl, hcase⟩ := hs
      rcases hcase with ⟨_, l0, hl0, _, hL2⟩ | ⟨_, _, hL2⟩
      · rw [hL2]
        exact set_map_same g L 0 l0 _ hl0 (hg2 l0)
      · rw [hL2]
        exact set_map_same g L j l _ hl (hg1 _ l)

theorem network_Think_map {α : Type} (exp : F → F) (inputs : List F) (g : layer F → α)
    (hg1 : ∀ prev l, g (layer.thought exp prev l) = g l)
    (hg2 : ∀ l, g (layer.withInputs l inputs) = g l)
    (n n1 : network F) (v : F) (h : n.Think exp inputs = some (n1, v)) :
    n1.layers.map g = n.layers.map g := by
  unfold network.Think at h
  cases hl : network.Think.loop exp inputs (List.range n.layers.length) n.layers with
  | none => simp [hl] at h
  | some L1 =>
    simp only [hl] at h
    cases hlast : L1[L1.length - 1]? with
    | none => simp [hlast] at h
    | some last =>
      simp only [hlast] at h
      cases hu : last.neurons[0]? with
      | none => simp [hu] at h
      | some u =>
        simp only [hu, Option.some.injEq, Prod.mk.injEq] at h
        rw [← h.1]
        exact network_Think_loop_map exp inputs g hg1 hg2 _ _ _ hl

theorem layer_thought_frame (exp : F → F) (prev : Option (layer F)) (l : layer F) :
    (l.thought exp prev).frame = l.frame := by
  cases prev with
  | none => simp [layer.thought, layer.frame, neuron.thought]
  | some p =>
    simp only [layer.thought, layer.frame, List.map_map, Prod.mk.injEq, true_and]
    apply List.map_congr_left
    intro u _
    simp [neuron.thought, Function.comp, synapse.fed]

theorem neuron_withOutputs_frame :
    ∀ (ns : List (neuron F)) (xs : List F),
      (neuron.withOutputs ns xs).map
          (fun u => (u.err, u.synapses.map fun s => (s.inputNeuronIndex, s.weight))) =
        ns.map (fun u => (u.err, u.synapses.map fun s => (s.inputNeuronIndex, s.weight)))
  | [], [] => rfl
  | [], _ :: _ => rfl
  | _ :: _, [] => rfl
  | u :: ns, x :: xs => by
    simp [neuron.withOutputs, neuron_withOutputs_frame ns xs]

theorem layer_withInputs_frame (l : layer F) (xs : List F) :
    (l.withInputs xs).frame = l.frame := by
  simp [layer.withInputs, layer.frame, neuron_withOutputs_frame]

/-- The call `network.Think` keeps the shape of every network. -/
theorem network_Think_shape_any (exp : F → F) (inputs : List F) (n n1 : network F) (v : F)
    (h : n.Think exp inputs = some (n1, v)) : n1.shape = n.shape :=
  network_Think_map exp inputs layer.shape (layer_thought_shape exp)
    (fun l => layer_withInputs_shape l inputs) n n1 v h

/-- The call `network.Train` keeps the shape of every network. -/
theorem network_Train_shape_any (exp : F → F) (data : Example F) (n n1 : network F) (r : F)
    (h : n.Train exp data = some (n1, r)) : n1.shape = n.shape := by
  unfold network.Train at h
  cases hT : n.Think exp data.input with
  | none => simp [hT] at h
  | some res =>
    obtain ⟨n2, p⟩ := res
    simp only [hT, network_ResetErrors_eq] at h
    cases hs : network.Train.setErr n2.layers (data.output - p) with
    | none => simp [hs] at h
    | some L3 =>
      simp only [hs] at h
      cases hl : network.Train.loop (n2.layers.length - 1) L3 with
      | none => simp [hl] at h
      | some L4 =>
        simp only [hl, Option.some.injEq, Prod.mk.injEq] at h
        rw [← h.1, ← network_Think_shape_any exp data.input n n2 p hT]
        unfold network.shape
        simp only
        rw [shape_of_map_noErr _ _ (network_Train_loop_noErr _ _ _ hl).1,
          shape_of_map_noErr _ _ (network_Train_setErr_noErr _ _ _ hs)]

/-! ## More on the sigmoid over the reals -/

theorem sigmoid_real_strictMono : StrictMono (sigmoid Real.exp) := by
  intro x y hxy
  unfold sigmoid
  have hy := Real.exp_pos (-y)
  have hlt : Real.exp (-y) < Real.exp (-x) := Real.exp_lt_exp.2 (by linarith)
  exact one_div_lt_one_div_of_lt (by linarith) (by linarith)

theorem sigmoid_real_zero : sigmoid Real.exp (0 : ℝ) = 1/2 := by
  simp only [sigmoid, neg_zero, Real.exp_zero]
  norm_num

/-- The value `sigmoid 10` is above `0.999`. -/
theorem sigmoid_real_ten_gt : (999/1000 : ℝ) < sigmoid Real.exp 10 := by
  unfold sigmoid
  have h1 : (2 : ℝ) ≤ Real.exp 1 := by
    have := Real.add_one_le_exp (1 : ℝ)
    linarith
  have h10 : Real.exp 10 = Real.exp 1 ^ 10 := by
    rw [← Real.exp_nat_mul]
    norm_num
  have hbig : (1024 : ℝ) ≤ Real.exp 10 := by
    rw [h10]
    calc (1024 : ℝ) = 2 ^ 10 := by norm_num
      _ ≤ Real.exp 1 ^ 10 := pow_le_pow_left₀ (by norm_num) h1 10
  have hneg : Real.exp (-10) = (Real.exp 10)⁻¹ := Real.exp_neg 10
  have hpos := Real.exp_pos 10
  have hsmall : Real.exp (-10) ≤ 1/1024 := by
    rw [hneg, inv_eq_one_div]
    exact one_div_le_one_div_of_le (by norm_num) hbig
  have hp := Real.exp_pos (-10)
  rw [lt_div_iff₀ (by linarith)]
  linarith

/-- The derivative of the sigmoid at `x` is `sigmoid x * (1 - sigmoid x)`. -/
theorem sigmoid_real_hasDerivAt (x : ℝ) :
    HasDerivAt (sigmoid Real.exp) (sigmoid_derivative (sigmoid Real.exp x)) x := by
  have hpos := Real.exp_pos (-x)
  have hne : (1 + Real.exp (-x)) ≠ 0 := by linarith
  have h1 : HasDerivAt (fun y : ℝ => Real.exp (-y)) (Real.exp (-x) * -1) x :=
    (hasDerivAt_neg x).exp
  have h2 : HasDerivAt (fun y : ℝ => 1 + Real.exp (-y)) (Real.exp (-x) * -1) x :=
    h1.const_add 1
  have h3 := (hasDerivAt_const x (1 : ℝ)).div h2 hne
  have heq : (0 * (1 + Real.exp (-x)) - 1 * (Real.exp (-x) * -1)) / (1 + Real.exp (-x)) ^ 2 =
      sigmoid_derivative (sigmoid Real.exp x) := by
    unfold sigmoid_derivative sigmoid
    field_simp
    ring
  rw [heq] at h3
  exact h3

/-! ## What the backward pass writes -/

theorem neuron_Train_loop_err (u : neuron F) :
    ∀ (ss : List (synapse F)) (p p1 : layer F),
      neuron.Train.loop u ss p = some p1 →
      ∀ (k : Nat) (v : neuron F), p.neurons[k]? = some v →
        p1.neurons[k]? = some { v with
          err := v.err + ((ss.filter fun s => s.inputNeuronIndex = k).map
            fun s => u.err * s.weight * sigmoid_derivative u.output).sum }
  | [], p, p1, h => by
    simp only [neuron.Train.loop, Option.some.injEq] at h
    subst h
    intro k v hv
    simp [hv]
  | s :: rest, p, p1, h => by
    simp only [neuron.Train.loop] at h
    cases hw : p.neurons[s.inputNeuronIndex]? with
    | none => simp [hw] at h
    | some w =>
      simp only [hw] at h
      intro k v hv
      have hlt : s.inputNeuronIndex < p.neurons.length :=
        (List.getElem?_eq_some.1 hw).1
      by_cases hk : s.inputNeuronIndex = k
      · subst hk
        have hvw : v = w := by
          rw [hw] at hv
          exact (Option.some.inj hv).symm
        subst hvw
        have := neuron_Train_loop_err u rest _ p1 h s.inputNeuronIndex
          { v with err := v.err + u.err * s.weight * sigmoid_derivative u.output }
          (by simp [List.getElem?_set_self hlt])
        rw [this]
        simp [List.filter_cons, add_assoc]
      · have := neuron_Train_loop_err u rest _ p1 h k v
          (by simp only [List.getElem?_set_ne hk]; exact hv)
        rw [this]
        simp [List.filter_cons, hk]

/-- The units `us`, trained one after the other on the layer `p`, add to the
`err` of the unit at position `k` of `p` what each of them sends to `k`. -/
theorem network_Train_neurons_err :
    ∀ (us : List (neuron F)) (p p1 : layer F),
      network.Train.neurons us p = some p1 →
      ∀ (k : Nat) (v : neuron F), p.neurons[k]? = some v →
        p1.neurons[k]? = some { v with err := v.err + (us.map fun h => h.sentTo k).sum }
  | [], p, p1, h => by
    simp only [network.Train.neurons, Option.some.injEq] at h
    subst h
    intro k v hv
    simp [hv]
  | u :: rest, p, p1, h => by
    simp only [network.Train.neurons] at h
    cases hu : u.Train p with
    | none => simp [hu] at h
    | some p2 =>
      simp only [hu] at h
      intro k v hv
      have h2 := neuron_Train_loop_err u u.synapses p p2 hu k v hv
      have := network_Train_neurons_err rest p2 p1 h k _ h2
      rw [this]
      simp [neuron.sentTo, add_assoc]

/-- In a list of synapses whose `inputNeuronIndex` count up from `a`, the
synapses with `inputNeuronIndex = a + k` are the one at position `k`. -/
theorem sum_filter_index (f : synapse F → F) :
    ∀ (ss : List (synapse F)) (a : Nat),
      ss.map (fun s => s.inputNeuronIndex) = List.range' a ss.length →
      ∀ k, ((ss.filter fun s => s.inputNeuronIndex = a + k).map f).sum =
        ((ss[k]?).map f).getD 0
  | [], _, _, k => by simp
  | s :: rest, a, h, k => by
    simp only [List.map_cons, List.length_cons, List.range'_succ, List.cons.injEq] at h
    obtain ⟨hs, hrest⟩ := h
    cases k with
    | zero =>
      have hnone : rest.filter (fun x => x.inputNeuronIndex = a + 0) = [] := by
        rw [List.filter_eq_nil_iff]
        intro x hx
        have hmem : x.inputNeuronIndex ∈ rest.map (fun s => s.inputNeuronIndex) :=
          List.mem_map.2 ⟨x, hx, rfl⟩
        rw [hrest, List.mem_range'_1] at hmem
        simp only [add_zero, decide_eq_true_eq]
        omega
      simp only [List.filter_cons, hs, add_zero, decide_True, if_true, List.map_cons,
        List.sum_cons, List.getElem?_cons_zero, Option.map_some', Option.getD_some]
      rw [add_zero] at hnone
      rw [hnone]
      simp
    | succ k =>
      have hne : ¬ s.inputNeuronIndex = a + (k + 1) := by omega
      have ih := sum_filter_index f rest (a + 1) hrest k
      rw [show a + 1 + k = a + (k + 1) by omega] at ih
      simp only [List.filter_cons, hne, decide_False, Bool.false_eq_true, if_false,
        List.getElem?_cons_succ]
      exact ih

/-- What a unit wired like those of `NewNetwork` sends to position `k`: its own
`err` times the weight of its `k`-th synapse times `output * (1 - output)`. -/
theorem neuron_sentTo_wired (u : neuron F) (m k : Nat)
    (h : u.synapses.map (fun s => s.inputNeuronIndex) = List.range m) :
    u.sentTo k =
      u.err * ((u.synapses[k]?.map fun s => s.weight).getD 0) * u.output * (1 - u.output) := by
  have hlen : u.synapses.length = m := by
    have := congrArg List.length h
    simpa using this
  have h1 : u.synapses.map (fun s => s.inputNeuronIndex) = List.range' 0 u.synapses.length := by
    rw [h, hlen, List.range_eq_range']
  have := sum_filter_index (fun s => u.err * s.weight * sigmoid_derivative u.output)
    u.synapses 0 h1 k
  rw [zero_add] at this
  unfold neuron.sentTo
  rw [this]
  cases u.synapses[k]? with
  | none => simp
  | some s => simp [sigmoid_derivative, mul_assoc]

theorem topologyShape_ranges :
    ∀ (cs : List Nat) (prev : Option Nat),
      ∀ sh ∈ topologyShape prev cs, ∀ idxs ∈ sh.2, ∃ m, idxs = List.range m
  | [], _ => by simp [topologyShape]
  | c :: cs, prev => by
    intro sh hsh idxs hidxs
    simp only [topologyShape, List.mem_cons] at hsh
    rcases hsh with rfl | hsh
    · exact ⟨prev.getD 0, List.eq_of_mem_replicate hidxs⟩
    · exact topologyShape_ranges cs (some c) sh hsh idxs hidxs

/-- The backward loop started at `m`: each layer below `m` ends as the result of
training, on the layer as it was, the units of the layer above as the loop
leaves them. -/
theorem network_Train_loop_rel :
    ∀ (m : Nat) (L L1 : List (layer F)),
      network.Train.loop m L = some L1 →
      ∀ i, i < m → ∃ a b a1, L[i]? = some a ∧ L1[i + 1]? = some b ∧ L1[i]? = some a1 ∧
        network.Train.neurons b.neurons a = some a1
  | 0, _, _, _ => by
    intro i hi
    omega
  | m + 1, L, L1, h => by
    simp only [network.Train.loop] at h
    cases hc : L[m + 1]? with
    | none => simp [hc] at h
    | some cur =>
      cases hp : L[m]? with
      | none => simp [hc, hp] at h
      | some prev =>
        simp only [hc, hp] at h
        cases hn : network.Train.neurons cur.neurons prev with
        | none => simp [hn] at h
        | some prev1 =>
          simp only [hn] at h
          have hkeep := (network_Train_loop_noErr m _ L1 h).2
          have hm : m < L.length := (List.getElem?_eq_some.1 hp).1
          intro i hi
          by_cases him : i = m
          · subst him
            refine ⟨prev, cur, prev1, hp, ?_, ?_, hn⟩
            · rw [hkeep _ (by omega), List.getElem?_set_ne (by omega)]
              exact hc
            · rw [hkeep _ (le_refl _), List.getElem?_set_self hm]
          · obtain ⟨a, b, a1, ha, hb, ha1, hrel⟩ :=
              network_Train_loop_rel m _ L1 h i (by omega)
            rw [List.getElem?_set_ne (by omega)] at ha
            exact ⟨a, b, a1, ha, hb, ha1, hrel⟩

/-- The call `network.Train` after a `network.Think` that returned `p` from the
layers `L`: the backward loop runs on `L` with the `err` of the first unit of
the last layer set to `target - p`. -/
theorem network_Train_eq_loop (exp : F → F) (n : network F) (data : Example F)
    (L : List (layer F)) (last : layer F) (u : neuron F) (p : F)
    (hT : n.Think exp data.input = some (⟨L⟩, p))
    (hg : L.getLast? = some last) (hu : last.neurons[0]? = some u) :
    n.Train exp data =
      (network.Train.loop (L.length - 1)
        (L.set (L.length - 1) { last with
          neurons := last.neurons.set 0 { u with err := data.output - p } })).map
        fun L4 => (⟨L4⟩, |data.output - p|) := by
  have hgl : L[L.length - 1]? = some last := by
    rw [← List.getLast?_eq_getElem?]
    exact hg
  simp only [network.Train, hT, network_ResetErrors_eq, network.Train.setErr, hgl, hu]
  cases network.Train.loop (L.length - 1)
      (L.set (L.length - 1) { last with
        neurons := last.neurons.set 0 { u with err := data.output - p } }) with
  | none => rfl
  | some L4 => rfl

/-! ## The outputs after the forward pass -/

/-- After the forward pass on a well-formed network of positive unit counts,
every unit of a layer after the first holds the sigmoid of its weighted sum over
the layer before. -/
theorem forward_unit_output (exp : F → F) (n : network F) (c0 : Nat) (cs : List Nat)
    (inputs : List F) (hwf : n.WellFormed (c0 :: cs)) (hpos : ∀ c ∈ c0 :: cs, 0 < c) :
    ∀ (j : Nat) (p l : layer F) (u : neuron F),
      (forward exp inputs n.layers)[j]? = some p →
      (forward exp inputs n.layers)[j + 1]? = some l → u ∈ l.neurons →
      u.output = sigmoid exp (u.activity p) := by
  obtain ⟨l0, rest, hL, _, hshape⟩ := network_WellFormed_cons n c0 cs hwf
  intro j p l u1 hp hl hu
  simp only [hL, forward] at hp hl
  obtain ⟨old, hold, hlold⟩ := forwardChain_pairs exp rest _ j p l hp hl
  subst hlold
  simp only [layer.thought, List.mem_map] at hu
  obtain ⟨u0, hu0, rfl⟩ := hu
  apply neuron_thought_output
  have hmem : old.shape ∈ topologyShape (some c0) cs := by
    rw [← hshape]
    exact List.mem_map.2 ⟨old, List.getElem?_mem hold, rfl⟩
  have hne := topologyShape_nonempty cs c0 (hpos c0 (List.mem_cons_self _ _))
    (fun x hx => hpos x (List.mem_cons_of_mem _ hx)) _ hmem
    (u0.synapses.map fun s => s.inputNeuronIndex)
    (by simp only [layer.shape, List.mem_map]; exact ⟨u0, hu0, rfl⟩)
  intro h
  exact hne (by simp [h])

/-! ## Lemmas on the rounding to `float64` -/

section Rounding

variable {K : Type} [LinearOrderedField K] [FloorRing K]

theorem roundHalfEven_ge (N : ℤ) (m : K) (h : (N : K) ≤ m) : N ≤ roundHalfEven m := by
  have hf : N ≤ ⌊m⌋ := Int.le_floor.2 h
  unfold roundHalfEven
  split_ifs <;> omega

theorem roundHalfEven_le (N : ℤ) (m : K) (h : m ≤ (N : K)) : roundHalfEven m ≤ N := by
  rcases eq_or_lt_of_le h with heq | hlt
  · subst heq
    unfold roundHalfEven
    simp
  · have hf : ⌊m⌋ < N := Int.floor_lt.2 hlt
    unfold roundHalfEven
    split_ifs <;> omega

theorem roundHalfEven_intCast (N : ℤ) : roundHalfEven (N : K) = N := by
  unfold roundHalfEven
  simp

theorem roundHalfEven_le_two_mul (m : K) (h : 0 ≤ m) : ((roundHalfEven m : ℤ) : K) ≤ 2 * m := by
  have hfl : ((⌊m⌋ : ℤ) : K) ≤ m := Int.floor_le m
  have hf0 : (0 : ℤ) ≤ ⌊m⌋ := Int.floor_nonneg.2 h
  by_cases hm : m < 1
  · have hz : ⌊m⌋ = 0 := Int.floor_eq_zero_iff.2 ⟨h, hm⟩
    unfold roundHalfEven
    rw [hz]
    simp only [Int.cast_zero, sub_zero, zero_add]
    split_ifs with h1 h2 h3
    · simpa using h
    · push_cast
      linarith
    · simpa using h
    · exact absurd (by norm_num) h3
  · have hle : roundHalfEven m ≤ ⌊m⌋ + 1 := by
      unfold roundHalfEven
      split_ifs <;> omega
    have hleK : ((roundHalfEven m : ℤ) : K) ≤ ((⌊m⌋ + 1 : ℤ) : K) := Int.cast_le.2 hle
    push_cast at hleK
    linarith

theorem roundHalfEven_mono (m1 m2 : K) (h : m1 ≤ m2) : roundHalfEven m1 ≤ roundHalfEven m2 := by
  have hf : ⌊m1⌋ ≤ ⌊m2⌋ := Int.floor_le_floor h
  rcases eq_or_lt_of_le hf with heq | hlt
  · unfold roundHalfEven
    rw [heq]
    have hfr : m1 - ((⌊m2⌋ : ℤ) : K) ≤ m2 - ((⌊m2⌋ : ℤ) : K) := by linarith
    split_ifs <;> first | omega | (exfalso; linarith)
  · unfold roundHalfEven
    split_ifs <;> omega

theorem log_two_eq (x : K) (e : ℤ) (hx : 0 < x) (h1 : (2 : K) ^ e ≤ x) (h2 : x < (2 : K) ^ (e + 1)) :
    Int.log 2 x = e := by
  have hb : 1 < (2 : ℕ) := by norm_num
  apply le_antisymm
  · have := (Int.lt_zpow_iff_log_lt hb hx (x := e + 1)).1 (by simpa using h2)
    omega
  · exact (Int.zpow_le_iff_le_log hb hx).1 (by simpa using h1)

theorem two_zpow_log_le (x : K) (hx : 0 < x) : (2 : K) ^ Int.log 2 x ≤ x := by
  have := Int.zpow_log_le_self (b := 2) (by norm_num) hx
  simpa using this

theorem lt_two_zpow_log_succ (x : K) : x < (2 : K) ^ (Int.log 2 x + 1) := by
  have := Int.lt_zpow_succ_log_self (b := 2) (by norm_num) x
  simpa using this

theorem roundMagnitude_nonneg (a : K) (h : 0 ≤ a) : 0 ≤ roundMagnitude a := by
  unfold roundMagnitude
  have hpos : (0 : K) < 2 ^ ulpExponent a := zpow_pos (by norm_num) _
  have hm : ((0 : ℤ) : K) ≤ a / 2 ^ ulpExponent a := by
    simpa using div_nonneg h hpos.le
  have := roundHalfEven_ge 0 _ hm
  have hq : (0 : ℚ) < 2 ^ ulpExponent a := zpow_pos (by norm_num) _
  exact mul_nonneg (by exact_mod_cast this) hq.le

theorem roundMagnitude_zero : roundMagnitude (0 : K) = 0 := by
  unfold roundMagnitude
  have h := roundHalfEven_intCast (K := K) 0
  simp only [Int.cast_zero] at h
  simp [h]

/-- The rounded magnitude of `a ≥ 2^j` is at least `2^j`, for `j ≥ -1074`. -/
theorem roundMagnitude_ge_zpow (a : K) (j : ℤ) (hj : -1074 ≤ j) (h : (2 : K) ^ j ≤ a) :
    (2 : ℚ) ^ j ≤ roundMagnitude a := by
  have ha : 0 < a := lt_of_lt_of_le (zpow_pos (by norm_num) _) h
  have hje : j ≤ Int.log 2 a :=
    (Int.zpow_le_iff_le_log (b := 2) (by norm_num) ha).1 (by simpa using h)
  have hu : ulpExponent a ≤ Int.log 2 a := by
    unfold ulpExponent
    exact max_le (by omega) (by omega)
  obtain ⟨n, hn⟩ := Int.eq_ofNat_of_zero_le (sub_nonneg.2 hu)
  have hposK : (0 : K) < 2 ^ ulpExponent a := zpow_pos (by norm_num) _
  have hN : (((2 : ℤ) ^ n : ℤ) : K) ≤ a / 2 ^ ulpExponent a := by
    rw [le_div_iff₀ hposK]
    push_cast
    rw [← zpow_natCast, ← hn, ← zpow_add₀ (by norm_num : (2 : K) ≠ 0)]
    simpa using two_zpow_log_le a ha
  have hr := roundHalfEven_ge _ _ hN
  unfold roundMagnitude
  have hposQ : (0 : ℚ) < 2 ^ ulpExponent a := zpow_pos (by norm_num) _
  calc (2 : ℚ) ^ j ≤ 2 ^ Int.log 2 a := zpow_le_zpow_right₀ (by norm_num) hje
    _ = ((2 : ℤ) ^ n : ℤ) * 2 ^ ulpExponent a := by
        push_cast
        rw [← zpow_natCast, ← hn, ← zpow_add₀ (by norm_num : (2 : ℚ) ≠ 0)]
        simp
    _ ≤ (roundHalfEven (a / 2 ^ ulpExponent a) : ℚ) * 2 ^ ulpExponent a :=
        mul_le_mul_of_nonneg_right (by exact_mod_cast hr) hposQ.le

/-- The rounded magnitude of `a ≤ 2^j` is at most `2^j`, for `j ≥ -1074`. -/
theorem roundMagnitude_le_zpow (a : K) (j : ℤ) (hj : -1074 ≤ j) (ha : 0 ≤ a)
    (h : a ≤ (2 : K) ^ j) : roundMagnitude a ≤ (2 : ℚ) ^ j := by
  rcases eq_or_lt_of_le ha with h0 | hpos
  · rw [← h0, roundMagnitude_zero]
    exact (zpow_pos (by norm_num) _).le
  · have hej : Int.log 2 a ≤ j := by
      by_contra hlt
      have hlt : j + 1 ≤ Int.log 2 a := by omega
      have h1 : (2 : K) ^ (j + 1) ≤ a :=
        le_trans (zpow_le_zpow_right₀ (by norm_num) hlt) (two_zpow_log_le a hpos)
      have h2 : (2 : K) ^ j < 2 ^ (j + 1) := zpow_lt_zpow_right₀ (by norm_num) (by omega)
      linarith
    have hu : ulpExponent a ≤ j := by
      unfold ulpExponent
      exact max_le (by omega) hj
    obtain ⟨n, hn⟩ := Int.eq_ofNat_of_zero_le (sub_nonneg.2 hu)
    have hposK : (0 : K) < 2 ^ ulpExponent a := zpow_pos (by norm_num) _
    have hN : a / 2 ^ ulpExponent a ≤ (((2 : ℤ) ^ n : ℤ) : K) := by
      rw [div_le_iff₀ hposK]
      push_cast
      rw [← zpow_natCast, ← hn, ← zpow_add₀ (by norm_num : (2 : K) ≠ 0)]
      simpa using h
    have hr := roundHalfEven_le _ _ hN
    unfold roundMagnitude
    have hposQ : (0 : ℚ) < 2 ^ ulpExponent a := zpow_pos (by norm_num) _
    calc (roundHalfEven (a / 2 ^ ulpExponent a) : ℚ) * 2 ^ ulpExponent a
        ≤ ((2 : ℤ) ^ n : ℤ) * 2 ^ ulpExponent a :=
          mul_le_mul_of_nonneg_right (by exact_mod_cast hr) hposQ.le
      _ = (2 : ℚ) ^ j := by
          push_cast
          rw [← zpow_natCast, ← hn, ← zpow_add₀ (by norm_num : (2 : ℚ) ≠ 0)]
          simp

/-- The rounded magnitude is at most twice the exact one. -/
theorem roundMagnitude_le_two_mul (a : K) (h : 0 ≤ a) :
    ((roundMagnitude a : ℚ) : K) ≤ 2 * a := by
  unfold roundMagnitude
  have hposK : (0 : K) < 2 ^ ulpExponent a := zpow_pos (by norm_num) _
  have hm := roundHalfEven_le_two_mul (a / 2 ^ ulpExponent a) (div_nonneg h hposK.le)
  push_cast
  calc ((roundHalfEven (a / 2 ^ ulpExponent a) : ℤ) : K) * 2 ^ ulpExponent a
      ≤ 2 * (a / 2 ^ ulpExponent a) * 2 ^ ulpExponent a :=
        mul_le_mul_of_nonneg_right hm hposK.le
    _ = 2 * a := by
        field_simp

/-- A magnitude in `[1, 1 + 2^-53)` rounds to 1. -/
theorem roundMagnitude_near_one (a : K) (h1 : 1 ≤ a) (h2 : a < 1 + 1 / 2 ^ 53) :
    roundMagnitude a = 1 := by
  have hsmall : (1 : K) / 2 ^ 53 < 1 := by
    rw [div_lt_one (by positivity)]
    norm_num
  have hlog : Int.log 2 a = 0 :=
    log_two_eq a 0 (by linarith) (by simpa using h1) (by norm_num; linarith)
  have hu : ulpExponent a = -52 := by
    unfold ulpExponent
    rw [hlog]
    norm_num
  have hdiv : a / (2 : K) ^ (-52 : ℤ) = a * 2 ^ 52 := by
    rw [zpow_neg, div_inv_eq_mul]
    norm_cast
  have hcast : (((2 : ℤ) ^ 52 : ℤ) : K) = (2 : K) ^ 52 := by norm_cast
  have hP : (0 : K) < 2 ^ 52 := by positivity
  have hlo : (((2 : ℤ) ^ 52 : ℤ) : K) ≤ a * 2 ^ 52 := by
    rw [hcast]
    exact le_mul_of_one_le_left hP.le h1
  have hhi : a * 2 ^ 52 < (((2 : ℤ) ^ 52 : ℤ) : K) + 1 / 2 := by
    rw [hcast]
    have h3 : (1 + 1 / 2 ^ 53) * (2 : K) ^ 52 = 2 ^ 52 + 1 / 2 := by
      field_simp
      ring
    calc a * 2 ^ 52 < (1 + 1 / 2 ^ 53) * 2 ^ 52 :=
          mul_lt_mul_of_pos_right h2 hP
      _ = 2 ^ 52 + 1 / 2 := h3
  have hfloor : ⌊a * (2 : K) ^ 52⌋ = (2 : ℤ) ^ 52 :=
    Int.floor_eq_iff.2 ⟨hlo, by linarith [hhi]⟩
  have hr : roundHalfEven (a * (2 : K) ^ 52) = (2 : ℤ) ^ 52 := by
    unfold roundHalfEven
    rw [hfloor, if_pos (by linarith [hhi])]
  unfold roundMagnitude
  rw [hu, hdiv, hr]
  norm_num

/-- A value `k * 2^j` with `2^52 ≤ k < 2^53` and `j ≥ -1074` rounds to itself. -/
theorem roundMagnitude_grid (k : ℕ) (j : ℤ) (hk1 : 2 ^ 52 ≤ k) (hk2 : k < 2 ^ 53)
    (hj : -1074 ≤ j) : roundMagnitude ((k : K) * 2 ^ j) = (k : ℚ) * 2 ^ j := by
  have hposK : (0 : K) < 2 ^ j := zpow_pos (by norm_num) _
  have hk1K : (2 : K) ^ (52 : ℕ) ≤ (k : K) := by exact_mod_cast hk1
  have hk2K : (k : K) < (2 : K) ^ (53 : ℕ) := by exact_mod_cast hk2
  have hapos : (0 : K) < (k : K) * 2 ^ j :=
    mul_pos (lt_of_lt_of_le (by positivity) hk1K) hposK
  have hlog : Int.log 2 ((k : K) * 2 ^ j) = j + 52 := by
    apply log_two_eq _ _ hapos
    · rw [add_comm, zpow_add₀ (by norm_num : (2 : K) ≠ 0)]
      exact mul_le_mul_of_nonneg_right
        (by rw [show (52 : ℤ) = ((52 : ℕ) : ℤ) by norm_num, zpow_natCast]; exact hk1K) hposK.le
    · rw [show j + 52 + 1 = 53 + j by ring, zpow_add₀ (by norm_num : (2 : K) ≠ 0)]
      exact mul_lt_mul_of_pos_right
        (by rw [show (53 : ℤ) = ((53 : ℕ) : ℤ) by norm_num, zpow_natCast]; exact hk2K) hposK
  have hu : ulpExponent ((k : K) * 2 ^ j) = j := by
    unfold ulpExponent
    rw [hlog]
    simp only [add_sub_cancel_right]
    exact max_eq_left hj
  have hr : roundHalfEven ((k : K) * 2 ^ j / 2 ^ j) = (k : ℤ) := by
    rw [mul_div_assoc, div_self hposK.ne', mul_one]
    have := roundHalfEven_intCast (K := K) (k : ℤ)
    simpa using this
  unfold roundMagnitude
  rw [hu, hr]
  simp

/-- Rounding keeps the order of two magnitudes. -/
theorem roundMagnitude_mono (a b : K) (ha : 0 ≤ a) (hab : a ≤ b) :
    roundMagnitude a ≤ roundMagnitude b := by
  rcases eq_or_lt_of_le ha with h0 | hpos
  · rw [← h0, roundMagnitude_zero]
    exact roundMagnitude_nonneg b (le_trans ha hab)
  · have hbpos : 0 < b := lt_of_lt_of_le hpos hab
    have hlog : Int.log 2 a ≤ Int.log 2 b := Int.log_mono_right hpos hab
    have hule : ulpExponent a ≤ ulpExponent b := by
      unfold ulpExponent
      exact max_le_max (by omega) (le_refl _)
    rcases eq_or_lt_of_le hule with heq | hlt
    · unfold roundMagnitude
      rw [heq]
      have hposK : (0 : K) < 2 ^ ulpExponent b := zpow_pos (by norm_num) _
      have hposQ : (0 : ℚ) < 2 ^ ulpExponent b := zpow_pos (by norm_num) _
      have hm := roundHalfEven_mono (a / 2 ^ ulpExponent b) (b / 2 ^ ulpExponent b)
        (div_le_div_of_nonneg_right hab hposK.le)
      exact mul_le_mul_of_nonneg_right (by exact_mod_cast hm) hposQ.le
    · have hub : ulpExponent b = Int.log 2 b - 52 := by
        unfold ulpExponent at hlt ⊢
        apply max_eq_left
        by_contra hcon
        rw [max_eq_right (by omega)] at hlt
        have := le_max_right (Int.log 2 a - 52) (-1074)
        omega
      have hua : Int.log 2 a - 52 ≤ ulpExponent a := le_max_left _ _
      have hua2 : -1074 ≤ ulpExponent a := le_max_right _ _
      have hj1 : max (Int.log 2 a + 1) (-1074) ≤ Int.log 2 b := max_le (by omega) (by omega)
      have h1 : roundMagnitude a ≤ (2 : ℚ) ^ max (Int.log 2 a + 1) (-1074) := by
        apply roundMagnitude_le_zpow a _ (le_max_right _ _) ha
        exact le_trans (lt_two_zpow_log_succ a).le
          (zpow_le_zpow_right₀ (by norm_num) (le_max_left _ _))
      have h2 : (2 : ℚ) ^ Int.log 2 b ≤ roundMagnitude b :=
        roundMagnitude_ge_zpow b _ (by omega) (two_zpow_log_le b hbpos)
      exact le_trans h1 (le_trans (zpow_le_zpow_right₀ (by norm_num) hj1) h2)

/-- The `float64` nearest to `x ≥ 0` is `+Inf` or a finite value that is not
negative and at most twice `x`. -/
theorem round64_nonneg (x : K) (h : 0 ≤ x) :
    round64 x = Float64.inf false ∨
      ∃ v : ℚ, 0 ≤ v ∧ (v : K) ≤ 2 * x ∧ round64 x = Float64.fin v := by
  unfold round64
  rw [abs_of_nonneg h]
  by_cases hov : (2 : ℚ) ^ (1024 : ℕ) ≤ roundMagnitude x
  · left
    rw [if_pos hov]
    simp [not_lt.2 h]
  · right
    rw [if_neg hov, if_neg (not_lt.2 h)]
    exact ⟨_, roundMagnitude_nonneg x h, roundMagnitude_le_two_mul x h, rfl⟩

/-- The `float64` nearest to `x ≥ 1` is `+Inf` or a finite value `≥ 1`. -/
theorem round64_ge_one (x : K) (h : 1 ≤ x) :
    round64 x = Float64.inf false ∨ ∃ v : ℚ, 1 ≤ v ∧ round64 x = Float64.fin v := by
  have h0 : 0 ≤ x := by linarith
  unfold round64
  rw [abs_of_nonneg h0]
  by_cases hov : (2 : ℚ) ^ (1024 : ℕ) ≤ roundMagnitude x
  · left
    rw [if_pos hov]
    simp [not_lt.2 h0]
  · right
    rw [if_neg hov, if_neg (not_lt.2 h0)]
    have := roundMagnitude_ge_zpow x 0 (by norm_num) (by simpa using h)
    exact ⟨_, by simpa using this, rfl⟩

/-- The `float64` nearest to `x` in `[0, 1]` is a finite value in `[0, 1]`. -/
theorem round64_unit (x : K) (h0 : 0 ≤ x) (h1 : x ≤ 1) :
    ∃ v : ℚ, 0 ≤ v ∧ v ≤ 1 ∧ round64 x = Float64.fin v := by
  have hle : roundMagnitude x ≤ 1 := by
    have := roundMagnitude_le_zpow x 0 (by norm_num) h0 (by simpa using h1)
    simpa using this
  unfold round64
  rw [abs_of_nonneg h0]
  have hov : ¬ (2 : ℚ) ^ (1024 : ℕ) ≤ roundMagnitude x := by
    intro hcon
    have : (1 : ℚ) < 2 ^ (1024 : ℕ) := one_lt_pow₀ (by norm_num) (by norm_num)
    linarith
  rw [if_neg hov, if_neg (not_lt.2 h0)]
  exact ⟨_, roundMagnitude_nonneg x h0, hle, rfl⟩

/-- The `float64` nearest to `x` in `[0, 1]` is also at most twice `x`. -/
theorem round64_unit_two (x : K) (h0 : 0 ≤ x) (h1 : x ≤ 1) :
    ∃ v : ℚ, 0 ≤ v ∧ v ≤ 1 ∧ (v : K) ≤ 2 * x ∧ round64 x = Float64.fin v := by
  obtain ⟨v, hv0, hv1, hv⟩ := round64_unit x h0 h1
  rcases round64_nonneg x h0 with h | ⟨w, _, hw2, hw⟩
  · rw [h] at hv
    cases hv
  · rw [hw] at hv
    simp only [Float64.fin.injEq] at hv
    subst hv
    exact ⟨w, hv0, hv1, hw2, hw⟩

/-- A value in `[1, 1 + 2^-53)` rounds to the `float64` 1. -/
theorem round64_near_one (x : K) (h1 : 1 ≤ x) (h2 : x < 1 + 1 / 2 ^ 53) :
    round64 x = Float64.fin 1 := by
  have h0 : 0 ≤ x := by linarith
  unfold round64
  rw [abs_of_nonneg h0, roundMagnitude_near_one x h1 h2]
  have hov : ¬ (2 : ℚ) ^ (1024 : ℕ) ≤ 1 := by
    have : (1 : ℚ) < 2 ^ (1024 : ℕ) := one_lt_pow₀ (by norm_num) (by norm_num)
    linarith
  rw [if_neg hov, if_neg (not_lt.2 h0)]

/-- A value from `2^1024` on rounds to `+Inf`. -/
theorem round64_overflow (x : K) (h : (2 : K) ^ (1024 : ℕ) ≤ x) :
    round64 x = Float64.inf false := by
  have h0 : 0 ≤ x := le_trans (by positivity) h
  unfold round64
  rw [abs_of_nonneg h0]
  have := roundMagnitude_ge_zpow x 1024 (by norm_num)
    (by rw [show (1024 : ℤ) = ((1024 : ℕ) : ℤ) by norm_num, zpow_natCast]; exact h)
  rw [show (1024 : ℤ) = ((1024 : ℕ) : ℤ) by norm_num, zpow_natCast] at this
  rw [if_pos this]
  simp [not_lt.2 h0]

/-- Rounding to `float64` keeps the order of two values that are not negative. -/
theorem round64_mono (x y : K) (hx : 0 ≤ x) (hxy : x ≤ y) :
    Float64.le (round64 x) (round64 y) := by
  have hy : 0 ≤ y := le_trans hx hxy
  have hm := roundMagnitude_mono x y hx hxy
  unfold round64
  rw [abs_of_nonneg hx, abs_of_nonneg hy]
  by_cases hovx : (2 : ℚ) ^ (1024 : ℕ) ≤ roundMagnitude x
  · rw [if_pos hovx, if_pos (le_trans hovx hm)]
    simp [Float64.le, not_lt.2 hy]
  · rw [if_neg hovx, if_neg (not_lt.2 hx)]
    by_cases hovy : (2 : ℚ) ^ (1024 : ℕ) ≤ roundMagnitude y
    · rw [if_pos hovy]
      simp [Float64.le, not_lt.2 hy]
    · rw [if_neg hovy, if_neg (not_lt.2 hy)]
      exact hm

end Rounding

/-! ## Lemmas on the sigmoid in `float64` -/

theorem Float64_neg_ne_nan (x : Float64) (h : x ≠ Float64.nan) : Float64.neg x ≠ Float64.nan := by
  cases x <;> simp_all [Float64.neg]

theorem Float64_le_ne_nan (x y : Float64) (h : Float64.le x y) :
    x ≠ Float64.nan ∧ y ≠ Float64.nan := by
  cases x <;> cases y <;> simp_all [Float64.le]

theorem Float64_le_neg (x y : Float64) (h : Float64.le x y) :
    Float64.le (Float64.neg y) (Float64.neg x) := by
  have hn := Float64_le_ne_nan x y h
  cases x with
  | nan => exact absurd rfl hn.1
  | inf s =>
    cases y with
    | nan => exact absurd rfl hn.2
    | inf r => cases s <;> cases r <;> simp_all [Float64.le, Float64.neg]
    | fin q => cases s <;> simp_all [Float64.le, Float64.neg]
  | fin p =>
    cases y with
    | nan => exact absurd rfl hn.2
    | inf r => cases r <;> simp_all [Float64.le, Float64.neg]
    | fin q =>
      have h : p ≤ q := h
      show -q ≤ -p
      linarith

/-- The denominator `1.0 + math.Exp(-x)` of the sigmoid is `+Inf` or a finite
value `≥ 1`. -/
theorem F64_denominator (exp : Float64 → Float64) (hexp : ExpSound exp) (x : Float64)
    (hx : x ≠ Float64.nan) :
    Float64.add (Float64.fin 1) (exp (Float64.neg x)) = Float64.inf false ∨
      ∃ d : ℚ, 1 ≤ d ∧ Float64.add (Float64.fin 1) (exp (Float64.neg x)) = Float64.fin d := by
  rcases hexp _ (Float64_neg_ne_nan x hx) with he | ⟨e, he0, he⟩
  · left
    rw [he]
    rfl
  · rw [he]
    exact round64_ge_one (1 + e) (by linarith)

/-- The sigmoid in `float64` of a value that is not not-a-number is a finite value
in `[0, 1]`. -/
theorem F64_sigmoid_bounds (exp : Float64 → Float64) (hexp : ExpSound exp) (x : Float64)
    (hx : x ≠ Float64.nan) :
    ∃ s : ℚ, 0 ≤ s ∧ s ≤ 1 ∧ F64.sigmoid exp x = Float64.fin s := by
  unfold F64.sigmoid
  rcases F64_denominator exp hexp x hx with hd | ⟨d, hd1, hd⟩
  · rw [hd]
    exact ⟨0, le_refl _, by norm_num, rfl⟩
  · rw [hd]
    have hd0 : d ≠ 0 := by
      intro h
      rw [h] at hd1
      norm_num at hd1
    have hpos : (0 : ℚ) < d := by linarith
    obtain ⟨v, hv0, hv1, hv⟩ := round64_unit (1 / d) (by positivity)
      (by rw [div_le_one hpos]; exact hd1)
    refine ⟨v, hv0, hv1, ?_⟩
    simp only [Float64.div, hd0, if_false]
    exact hv

/-- The sigmoid in `float64` is non-decreasing when `math.Exp` is. -/
theorem F64_sigmoid_mono (exp : Float64 → Float64) (hexp : ExpSound exp)
    (hmono : ExpMonotone exp) (x y : Float64) (hxy : Float64.le x y) :
    Float64.le (F64.sigmoid exp x) (F64.sigmoid exp y) := by
  have hx : x ≠ Float64.nan := (Float64_le_ne_nan x y hxy).1
  have hy : y ≠ Float64.nan := (Float64_le_ne_nan x y hxy).2
  have hle := hmono _ _ (Float64_le_neg x y hxy)
  obtain ⟨sy, hsy0, _, hsy⟩ := F64_sigmoid_bounds exp hexp y hy
  rw [hsy]
  unfold F64.sigmoid at hsy ⊢
  rcases hexp _ (Float64_neg_ne_nan x hx) with hex | ⟨ex, hex0, hex⟩
  · rw [hex]
    exact hsy0
  · rcases hexp _ (Float64_neg_ne_nan y hy) with hey | ⟨ey, hey0, hey⟩
    · rw [hex, hey] at hle
      simp [Float64.le] at hle
    · rw [hex, hey] at hle
      have hle : ey ≤ ex := hle
      rw [hex]
      rw [hey] at hsy
      have hdle := round64_mono (1 + ey) (1 + ex) (by linarith) (by linarith)
      rcases round64_ge_one (1 + ex) (by linarith) with hdx | ⟨dx, hdx1, hdx⟩
      · simp only [Float64.add, hdx, Float64.div]
        exact hsy0
      · rcases round64_ge_one (1 + ey) (by linarith) with hdy | ⟨dy, hdy1, hdy⟩
        · rw [hdx, hdy] at hdle
          simp [Float64.le] at hdle
        · rw [hdx, hdy] at hdle
          have hdle : dy ≤ dx := hdle
          have hdx0 : dx ≠ 0 := by
            intro h
            rw [h] at hdx1
            norm_num at hdx1
          have hdy0 : dy ≠ 0 := by
            intro h
            rw [h] at hdy1
            norm_num at hdy1
          simp only [Float64.add, hdy, Float64.div, hdy0, if_false] at hsy
          simp only [Float64.add, hdx, Float64.div, hdx0, if_false]
          rw [← hsy]
          apply round64_mono
          · positivity
          · exact one_div_le_one_div_of_le (by linarith) hdle

section ExpModel

variable {K : Type} [LinearOrderedField K] [FloorRing K]

theorem Float64_expOf_sound (rexp : K → K) (hpos : ∀ x, 0 < rexp x) :
    ExpSound (Float64.expOf rexp) := by
  intro x hx
  cases x with
  | nan => exact absurd rfl hx
  | inf s =>
    cases s with
    | false => exact Or.inl rfl
    | true => exact Or.inr ⟨0, le_refl _, rfl⟩
  | fin q =>
    rcases round64_nonneg (rexp (q : K)) (hpos _).le with h | ⟨v, hv, _, h⟩
    · exact Or.inl h
    · exact Or.inr ⟨v, hv, h⟩

theorem Float64_expOf_monotone (rexp : K → K) (hpos : ∀ x, 0 < rexp x)
    (hmono : ∀ x y, x ≤ y → rexp x ≤ rexp y) : ExpMonotone (Float64.expOf rexp) := by
  intro x y hxy
  have hnonneg : ∀ q : ℚ, Float64.le (Float64.fin 0) (round64 (rexp (q : K))) := by
    intro q
    rcases round64_nonneg (rexp (q : K)) (hpos _).le with h | ⟨v, hv, _, h⟩
    · rw [h]
      rfl
    · rw [h]
      exact hv
  have hinf : ∀ q : ℚ, Float64.le (round64 (rexp (q : K))) (Float64.inf false) := by
    intro q
    rcases round64_nonneg (rexp (q : K)) (hpos _).le with h | ⟨v, hv, _, h⟩
    · rw [h]
      exact Or.inr rfl
    · rw [h]
      rfl
  have hn := Float64_le_ne_nan x y hxy
  cases x with
  | nan => exact absurd rfl hn.1
  | inf s =>
    cases y with
    | nan => exact absurd rfl hn.2
    | inf r =>
      cases s <;> cases r <;> simp_all [Float64.le, Float64.expOf]
    | fin q =>
      cases s with
      | false => simp [Float64.le] at hxy
      | true => exact hnonneg q
  | fin p =>
    cases y with
    | nan => exact absurd rfl hn.2
    | inf r =>
      cases r with
      | false => exact hinf p
      | true => simp [Float64.le] at hxy
    | fin q =>
      have hpq : p ≤ q := hxy
      exact round64_mono _ _ (hpos _).le (hmono _ _ (by exact_mod_cast hpq))

end ExpModel

/-! ## The sigmoid in `float64` with the real exponential -/

theorem exp_38_gt : (2 : ℝ) ^ 54 < Real.exp 38 := by
  have h1 : (2.7182818283 : ℝ) < Real.exp 1 := Real.exp_one_gt_d9
  have h38 : Real.exp 38 = Real.exp 1 ^ 38 := by
    rw [← Real.exp_nat_mul]
    norm_num
  rw [h38]
  calc (2 : ℝ) ^ 54 < (2.7182818283 : ℝ) ^ 38 := by norm_num
    _ ≤ Real.exp 1 ^ 38 := pow_le_pow_left₀ (by norm_num) h1.le 38

theorem exp_800_ge : (2 : ℝ) ^ 1024 ≤ Real.exp 800 := by
  have h1 : (2.7 : ℝ) ≤ Real.exp 1 := by
    have := Real.exp_one_gt_d9
    linarith
  have h800 : Real.exp 800 = (Real.exp 1 ^ 25) ^ 32 := by
    rw [← pow_mul, ← Real.exp_nat_mul]
    norm_num
  have h25 : (2 : ℝ) ^ 32 ≤ Real.exp 1 ^ 25 :=
    calc (2 : ℝ) ^ 32 ≤ (2.7 : ℝ) ^ 25 := by norm_num
      _ ≤ Real.exp 1 ^ 25 := pow_le_pow_left₀ (by norm_num) h1 25
  rw [h800]
  calc (2 : ℝ) ^ 1024 = ((2 : ℝ) ^ 32) ^ 32 := by rw [← pow_mul]
    _ ≤ (Real.exp 1 ^ 25) ^ 32 := pow_le_pow_left₀ (by positivity) h25 32

/-- With the real exponential rounded to `float64`, the sigmoid of any finite
value from 38 on is exactly 1. -/
theorem F64_sigmoid_one (a : ℚ) (ha : 38 ≤ a) :
    F64.sigmoid (Float64.expOf Real.exp) (Float64.fin a) = Float64.fin 1 := by
  have haR : (38 : ℝ) ≤ (a : ℝ) := by exact_mod_cast ha
  have hexp : Real.exp (((-a : ℚ)) : ℝ) < 1 / 2 ^ 54 := by
    have h1 : Real.exp (((-a : ℚ)) : ℝ) ≤ Real.exp (-38) :=
      Real.exp_le_exp.2 (by push_cast; linarith)
    have h2 : Real.exp (-38) = (Real.exp 38)⁻¹ := Real.exp_neg 38
    have h3 : (Real.exp 38)⁻¹ < 1 / 2 ^ 54 := by
      rw [inv_eq_one_div]
      exact one_div_lt_one_div_of_lt (by positivity) exp_38_gt
    linarith
  have hpos := Real.exp_pos (((-a : ℚ)) : ℝ)
  obtain ⟨v, hv0, _, hv2, hv⟩ := round64_unit_two (Real.exp (((-a : ℚ)) : ℝ)) hpos.le
    (by
      have : (1 : ℝ) / 2 ^ 54 ≤ 1 := by
        rw [div_le_one (by positivity)]
        exact one_le_pow₀ (by norm_num)
      linarith)
  have hvR : (v : ℝ) < 1 / 2 ^ 53 := by
    have : (2 : ℝ) * (1 / 2 ^ 54) = 1 / 2 ^ 53 := by norm_num
    linarith
  have hvQ : v < 1 / 2 ^ 53 := by
    have h : ((v : ℚ) : ℝ) < (((1 : ℚ) / 2 ^ 53 : ℚ) : ℝ) := by
      push_cast
      exact hvR
    exact Rat.cast_lt.1 h
  have hadd : Float64.add (Float64.fin 1) (Float64.fin v) = Float64.fin 1 :=
    round64_near_one (1 + v) (by linarith) (by linarith)
  have hdiv : Float64.div (Float64.fin 1) (Float64.fin 1) = Float64.fin 1 := by
    simp only [Float64.div, one_ne_zero, if_false]
    exact round64_near_one ((1 : ℚ) / 1) (by norm_num) (by norm_num)
  unfold F64.sigmoid
  simp only [Float64.neg, Float64.expOf]
  rw [hv, hadd, hdiv]

/-- With the real exponential rounded to `float64`, the sigmoid of any finite
value up to -800 is exactly 0. -/
theorem F64_sigmoid_zero (a : ℚ) (ha : a ≤ -800) :
    F64.sigmoid (Float64.expOf Real.exp) (Float64.fin a) = Float64.fin 0 := by
  have haR : (800 : ℝ) ≤ (((-a : ℚ)) : ℝ) := by
    have : (a : ℝ) ≤ -800 := by exact_mod_cast ha
    push_cast
    linarith
  have hexp : (2 : ℝ) ^ (1024 : ℕ) ≤ Real.exp (((-a : ℚ)) : ℝ) :=
    le_trans exp_800_ge (Real.exp_le_exp.2 haR)
  unfold F64.sigmoid
  simp only [Float64.neg, Float64.expOf]
  rw [round64_overflow _ hexp]
  rfl

/-! ## Lemmas on the forward and backward pass in `float64` -/

theorem F64_neuron_Think_loop_ok (exp : Float64 → Float64) (p : layer Float64) :
    ∀ (ss : List (synapse Float64)) (activity output : Float64),
      (∀ s ∈ ss, s.inputNeuronIndex < p.neurons.length) →
      ∃ done o, F64.neuron.Think.loop exp (some p) ss activity output = some (done, o) ∧
        done.map (fun s => s.inputNeuronIndex) = ss.map (fun s => s.inputNeuronIndex) ∧
        (ss = [] → o = output) ∧ (ss ≠ [] → ∃ a, o = F64.sigmoid exp a)
  | [], activity, output, _ =>
    ⟨[], output, rfl, rfl, fun _ => rfl, fun h => absurd rfl h⟩
  | s :: rest, activity, output, h => by
    have hs : s.inputNeuronIndex < p.neurons.length := h s (List.mem_cons_self _ _)
    obtain ⟨done, o, hloop, hidx, hnil, hcons⟩ :=
      F64_neuron_Think_loop_ok exp p rest
        (Float64.add activity (Float64.mul s.weight (p.neurons[s.inputNeuronIndex]).output))
        (F64.sigmoid exp
          (Float64.add activity (Float64.mul s.weight (p.neurons[s.inputNeuronIndex]).output)))
        (fun x hx => h x (List.mem_cons_of_mem _ hx))
    refine ⟨{ s with signal := (p.neurons[s.inputNeuronIndex]).output } :: done, o, ?_, ?_, ?_, ?_⟩
    · simp only [F64.neuron.Think.loop, List.getElem?_eq_getElem hs, hloop]
    · simp only [List.map_cons, hidx]
    · intro h0
      cases h0
    · intro _
      by_cases hr : rest = []
      · exact ⟨_, hnil hr⟩
      · exact hcons hr

theorem F64_neuron_Think_ok (exp : Float64 → Float64) (p : layer Float64) (u : neuron Float64)
    (h : ∀ s ∈ u.synapses, s.inputNeuronIndex < p.neurons.length) :
    ∃ u1, F64.neuron.Think exp u (some p) = some u1 ∧
      u1.synapses.map (fun s => s.inputNeuronIndex) =
        u.synapses.map (fun s => s.inputNeuronIndex) ∧
      (u.synapses ≠ [] → ∃ a, u1.output = F64.sigmoid exp a) := by
  obtain ⟨done, o, hloop, hidx, _, hcons⟩ :=
    F64_neuron_Think_loop_ok exp p u.synapses (Float64.fin 0) u.output h
  exact ⟨{ u with synapses := done, output := o }, by simp only [F64.neuron.Think, hloop],
    hidx, hcons⟩

theorem F64_layer_Think_loop_ok (exp : Float64 → Float64) (p : layer Float64) :
    ∀ (us : List (neuron Float64)),
      (∀ u ∈ us, ∀ s ∈ u.synapses, s.inputNeuronIndex < p.neurons.length) →
      ∃ us1, F64.layer.Think.loop exp (some p) us = some us1 ∧
        us1.map (fun u => u.synapses.map fun s => s.inputNeuronIndex) =
          us.map (fun u => u.synapses.map fun s => s.inputNeuronIndex) ∧
        ∀ u ∈ us1, u.synapses ≠ [] → ∃ a, u.output = F64.sigmoid exp a
  | [], _ => ⟨[], rfl, rfl, fun u hu => by simp at hu⟩
  | u :: rest, h => by
    obtain ⟨u1, hu1, hidx, hout⟩ := F64_neuron_Think_ok exp p u (h u (List.mem_cons_self _ _))
    obtain ⟨rest1, hrest, hridx, hrout⟩ :=
      F64_layer_Think_loop_ok exp p rest (fun x hx => h x (List.mem_cons_of_mem _ hx))
    refine ⟨u1 :: rest1, ?_, ?_, ?_⟩
    · simp only [F64.layer.Think.loop, hu1, hrest]
    · simp only [List.map_cons, hidx, hridx]
    · intro x hx hne
      rcases List.mem_cons.1 hx with hx | hx
      · subst hx
        apply hout
        intro h0
        apply hne
        have := congrArg List.length hidx
        simp only [List.length_map, h0, List.length_nil] at this
        exact List.length_eq_zero.1 this
      · exact hrout x hx hne

theorem F64_layer_Think_ok (exp : Float64 → Float64) (p l : layer Float64)
    (h : ∀ idxs ∈ l.shape.2, ∀ i ∈ idxs, i < p.neurons.length) :
    ∃ l1, F64.layer.Think exp l (some p) = some l1 ∧ l1.shape = l.shape ∧
      F64.layer.Squashed exp l1 := by
  have hread : ∀ u ∈ l.neurons, ∀ s ∈ u.synapses, s.inputNeuronIndex < p.neurons.length := by
    intro u hu s hs
    apply h (u.synapses.map fun s => s.inputNeuronIndex)
    · simp only [layer.shape, List.mem_map]
      exact ⟨u, hu, rfl⟩
    · exact List.mem_map.2 ⟨s, hs, rfl⟩
  obtain ⟨us1, hloop, hidx, hout⟩ := F64_layer_Think_loop_ok exp p l.neurons hread
  refine ⟨{ l with neurons := us1 }, by simp only [F64.layer.Think, hloop], ?_, hout⟩
  simp only [layer.shape, hidx]

theorem setInputs_ok {G : Type} :
    ∀ (ns : List (neuron G)) (xs : List G), xs.length ≤ ns.length →
      ∃ ns1, network.Think.setInputs ns xs = some ns1 ∧
        ns1.map (fun u => u.synapses.map fun s => s.inputNeuronIndex) =
          ns.map (fun u => u.synapses.map fun s => s.inputNeuronIndex)
  | [], [], _ => ⟨[], rfl, rfl⟩
  | u :: ns, [], _ => ⟨u :: ns, rfl, rfl⟩
  | [], x :: xs, h => by simp at h
  | u :: ns, x :: xs, h => by
    obtain ⟨ns1, h1, h2⟩ := setInputs_ok ns xs (by simpa using h)
    exact ⟨{ u with output := x } :: ns1, by simp only [network.Think.setInputs, h1],
      by simp only [List.map_cons, h2]⟩

theorem shape_length {G : Type} (l l1 : layer G) (h : l1.shape = l.shape) :
    l1.neurons.length = l.neurons.length := by
  have := congrArg (fun s => s.2.length) h
  simpa [layer.shape] using this

theorem F64_network_Think_loop_chain (exp : Float64 → Float64) (inputs : List Float64) :
    ∀ (suf pre : List (layer Float64)) (p : layer Float64),
      wiredFrom p.neurons.length (suf.map layer.shape) →
      ∃ suf1,
        F64.network.Think.loop exp inputs (List.range' (pre.length + 1) suf.length)
            (pre ++ p :: suf) = some (pre ++ p :: suf1) ∧
          suf1.map layer.shape = suf.map layer.shape ∧
          ∀ l ∈ suf1, F64.layer.Squashed exp l
  | [], pre, p, _ => ⟨[], by simp [F64.network.Think.loop], rfl, fun l hl => by simp at hl⟩
  | l :: rest, pre, p, h => by
    obtain ⟨hflag, hidx, hrest⟩ := h
    have hflag : l.inputLayer = false := hflag
    have hget : (pre ++ p :: l :: rest)[pre.length + 1]? = some l := by
      rw [List.getElem?_append_right (by omega)]
      simp
    have hprev : previousLayer (pre ++ p :: l :: rest) (pre.length + 1) = some p := by
      simp only [previousLayer]
      rw [List.getElem?_append_right (by omega)]
      simp
    obtain ⟨l1, hl1, hshape, hsq⟩ := F64_layer_Think_ok exp p l hidx
    have hstep : F64.network.Think.step exp inputs (pre ++ p :: l :: rest) (pre.length + 1) =
        some ((pre ++ [p]) ++ l1 :: rest) := by
      simp only [F64.network.Think.step, hget, hflag, hprev, hl1, Bool.false_eq_true, if_false]
      simp [List.set_append]
    have hrest1 : wiredFrom l1.neurons.length (rest.map layer.shape) := by
      have : l1.neurons.length = (l.shape.2).length := by
        rw [shape_length l l1 hshape]
        simp [layer.shape]
      rw [this]
      exact hrest
    obtain ⟨suf1, hloop, hsh, hall⟩ :=
      F64_network_Think_loop_chain exp inputs rest (pre ++ [p]) l1 hrest1
    simp only [List.length_append, List.length_singleton] at hloop
    refine ⟨l1 :: suf1, ?_, ?_, ?_⟩
    · simp only [List.length_cons, List.range'_succ, F64.network.Think.loop, hstep, hloop]
      simp
    · simp only [List.map_cons, hshape, hsh]
    · intro x hx
      rcases List.mem_cons.1 hx with hx | hx
      · subst hx
        exact hsq
      · exact hall x hx

/-- On a network that is well formed for positive unit counts `c0 :: c1 :: cs`
ending in a layer of one unit, `network.Think` in `float64` returns: the shapes
of the layers are kept, and the value returned is a value of the sigmoid. -/
theorem F64_network_Think_ok (exp : Float64 → Float64) (n : network Float64) (c0 c1 : Nat)
    (cs : List Nat) (inputs : List Float64) (hwf : n.WellFormed (c0 :: c1 :: cs))
    (hpos : ∀ c ∈ c0 :: c1 :: cs, 0 < c) (hle : inputs.length ≤ c0) :
    ∃ L last u a, F64.network.Think exp n inputs = some (⟨L⟩, u.output) ∧
      L.map layer.shape = n.layers.map layer.shape ∧ L.getLast? = some last ∧
      last.neurons[0]? = some u ∧ u.output = F64.sigmoid exp a := by
  unfold network.WellFormed network.shape at hwf
  cases hL : n.layers with
  | nil =>
    rw [hL] at hwf
    simp [topologyShape] at hwf
  | cons l0 rest =>
    rw [hL] at hwf
    simp only [List.map_cons, topologyShape, Option.isNone_none, Option.getD_none,
      List.cons.injEq] at hwf
    obtain ⟨h0, hrest⟩ := hwf
    have hflag : l0.inputLayer = true := by
      have := congrArg Prod.fst h0
      simpa [layer.shape] using this
    have hlen0 : l0.neurons.length = c0 := by
      have := congrArg (fun s => s.2.length) h0
      simpa [layer.shape] using this
    obtain ⟨ns1, hset, hidx⟩ := setInputs_ok l0.neurons inputs (by omega)
    have hstep : F64.network.Think.step exp inputs (l0 :: rest) 0 =
        some ({ l0 with neurons := ns1 } :: rest) := by
      simp [F64.network.Think.step, hflag, hset]
    have hlen1 : ({ l0 with neurons := ns1 } : layer Float64).neurons.length = c0 := by
      have := congrArg List.length hidx
      simp only [List.length_map] at this
      simp only [this, hlen0]
    have hwired : wiredFrom ({ l0 with neurons := ns1 } : layer Float64).neurons.length
        (rest.map layer.shape) := by
      rw [hlen1]
      have := wiredFrom_topologyShape (c1 :: cs) c0
      simp only [topologyShape] at hrest this
      rw [hrest]
      exact this
    obtain ⟨suf1, hloop, hsh, hall⟩ :=
      F64_network_Think_loop_chain exp inputs rest [] { l0 with neurons := ns1 } hwired
    simp only [List.length_nil, zero_add, List.nil_append] at hloop
    have hshape1 : suf1.map layer.shape = topologyShape (some c0) (c1 :: cs) := by
      rw [hsh]
      simpa [topologyShape] using hrest
    have hne : suf1 ≠ [] := by
      intro h
      rw [h] at hshape1
      simp [topologyShape] at hshape1
    obtain ⟨last, hlast⟩ : ∃ last, suf1.getLast? = some last := by
      cases hg : suf1.getLast? with
      | none => exact absurd (List.getLast?_eq_none_iff.1 hg) hne
      | some last => exact ⟨last, rfl⟩
    have hmem : last ∈ suf1 := List.mem_of_getLast?_eq_some hlast
    have hshmem : last.shape ∈ topologyShape (some c0) (c1 :: cs) := by
      rw [← hshape1]
      exact List.mem_map.2 ⟨last, hmem, rfl⟩
    have hcount : 0 < last.neurons.length := by
      have hc := topologyShape_counts (c1 :: cs) (some c0)
      have : last.shape.2.length ∈ (topologyShape (some c0) (c1 :: cs)).map
          (fun sh => sh.2.length) := List.mem_map.2 ⟨_, hshmem, rfl⟩
      rw [hc] at this
      have := hpos _ (List.mem_cons_of_mem _ this)
      simpa [layer.shape] using this
    have hu : last.neurons[0]? = some (last.neurons[0]) := List.getElem?_eq_getElem hcount
    have hsyn : (last.neurons[0]).synapses ≠ [] := by
      have hn := topologyShape_nonempty (c1 :: cs) c0 (hpos c0 (List.mem_cons_self _ _))
        (fun c hc => hpos c (List.mem_cons_of_mem _ hc)) last.shape hshmem
        ((last.neurons[0]).synapses.map fun s => s.inputNeuronIndex)
        (by
          simp only [layer.shape, List.mem_map]
          exact ⟨_, List.getElem_mem _, rfl⟩)
      intro h
      apply hn
      rw [h]
      rfl
    obtain ⟨a, ha⟩ := hall last hmem _ (List.getElem_mem hcount) hsyn
    have hLlast : ({ l0 with neurons := ns1 } :: suf1).getLast? = some last := by
      cases suf1 with
      | nil => exact absurd rfl hne
      | cons x xs =>
        rw [List.getLast?_cons_cons]
        exact hlast
    refine ⟨{ l0 with neurons := ns1 } :: suf1, last, last.neurons[0], a, ?_, ?_, hLlast, hu, ha⟩
    · have hgl : ({ l0 with neurons := ns1 } :: suf1)[
          ({ l0 with neurons := ns1 } :: suf1).length - 1]? = some last := by
        rw [← List.getLast?_eq_getElem?]
        exact hLlast
      have hlenr : suf1.length = rest.length := by
        have := congrArg List.length hsh
        simpa using this
      simp only [F64.network.Think, hL, List.length_cons, List.range_eq_range',
        List.range'_succ, F64.network.Think.loop, hstep, zero_add]
      rw [hloop]
      simp only [hgl, hu]
    · simp only [List.map_cons, hsh, List.cons.injEq, and_true]
      simp only [layer.shape, hidx]

theorem F64_network_ResetErrors_neurons_eq (n : network Float64) :
    ∀ us : List (neuron Float64), F64.network.ResetErrors.neurons n us = n
  | [] => rfl
  | _ :: rest => by
    simp only [F64.network.ResetErrors.neurons]
    exact F64_network_ResetErrors_neurons_eq n rest

theorem F64_network_ResetErrors_layers_eq :
    ∀ (ls : List (layer Float64)) (n : network Float64),
      F64.network.ResetErrors.layers n ls = n
  | [], _ => rfl
  | l :: rest, n => by
    simp only [F64.network.ResetErrors.layers, F64_network_ResetErrors_neurons_eq]
    exact F64_network_ResetErrors_layers_eq rest n

/-- In `float64` too, `network.ResetErrors` returns the network as it found it. -/
theorem F64_network_ResetErrors_eq (n : network Float64) : F64.network.ResetErrors n = n :=
  F64_network_ResetErrors_layers_eq n.layers n

theorem F64_neuron_Train_loop_ok (u : neuron Float64) :
    ∀ (ss : List (synapse Float64)) (p : layer Float64),
      (∀ s ∈ ss, s.inputNeuronIndex < p.neurons.length) →
      ∃ p1, F64.neuron.Train.loop u ss p = some p1 ∧ p1.shape = p.shape
  | [], p, _ => ⟨p, rfl, rfl⟩
  | s :: rest, p, h => by
    have hs : s.inputNeuronIndex < p.neurons.length := h s (List.mem_cons_self _ _)
    have hget : p.neurons[s.inputNeuronIndex]? = some (p.neurons[s.inputNeuronIndex]) :=
      List.getElem?_eq_getElem hs
    simp only [F64.neuron.Train.loop, hget]
    obtain ⟨p1, hp1, hsh⟩ := F64_neuron_Train_loop_ok u rest
      { p with
        neurons := p.neurons.set s.inputNeuronIndex
          { p.neurons[s.inputNeuronIndex] with
            err := Float64.add (p.neurons[s.inputNeuronIndex]).err
              (Float64.mul (Float64.mul u.err s.weight) (F64.sigmoid_derivative u.output)) } }
      (by
        intro x hx
        simpa using h x (List.mem_cons_of_mem _ hx))
    refine ⟨p1, hp1, ?_⟩
    rw [hsh]
    simp only [layer.shape, Prod.mk.injEq, true_and]
    exact set_map_same _ _ _ _ _ hget rfl

theorem F64_network_Train_neurons_ok :
    ∀ (us : List (neuron Float64)) (p : layer Float64),
      (∀ u ∈ us, ∀ s ∈ u.synapses, s.inputNeuronIndex < p.neurons.length) →
      ∃ p1, F64.network.Train.neurons us p = some p1 ∧ p1.shape = p.shape
  | [], p, _ => ⟨p, rfl, rfl⟩
  | u :: rest, p, h => by
    obtain ⟨p2, hp2, hsh2⟩ := F64_neuron_Train_loop_ok u u.synapses p (h u (List.mem_cons_self _ _))
    have hp2' : F64.neuron.Train u p = some p2 := hp2
    have hlen := shape_length _ _ hsh2
    obtain ⟨p1, hp1, hsh1⟩ := F64_network_Train_neurons_ok rest p2 (by
      intro x hx s hs
      rw [hlen]
      exact h x (List.mem_cons_of_mem _ hx) s hs)
    exact ⟨p1, by simp only [F64.network.Train.neurons, hp2', hp1], by rw [hsh1, hsh2]⟩

/-- The backward loop in `float64`, started at `i` on layers whose synapses point
into the layer before their own, returns, and leaves the slots from `i` on as
they are. -/
theorem F64_network_Train_loop_ok :
    ∀ (i : Nat) (L : List (layer Float64)), i < L.length → pairsWired (L.map layer.shape) →
      ∃ L1, F64.network.Train.loop i L = some L1 ∧ L1.map layer.shape = L.map layer.shape ∧
        ∀ k, i ≤ k → L1[k]? = L[k]?
  | 0, L, _, _ => ⟨L, rfl, rfl, fun _ _ => rfl⟩
  | i + 1, L, hi, hw => by
    have hc : L[i + 1]? = some L[i + 1] := List.getElem?_eq_getElem hi
    have hp : L[i]? = some L[i] := List.getElem?_eq_getElem (by omega)
    have hread : ∀ u ∈ (L[i + 1]).neurons, ∀ s ∈ u.synapses,
        s.inputNeuronIndex < (L[i]).neurons.length := by
      intro u hu s hs
      have := hw i (L[i]).shape (L[i + 1]).shape (by simp [hp]) (by simp [hc])
        (u.synapses.map fun s => s.inputNeuronIndex)
        (by
          simp only [layer.shape, List.mem_map]
          exact ⟨u, hu, rfl⟩)
        s.inputNeuronIndex (List.mem_map.2 ⟨s, hs, rfl⟩)
      simpa [layer.shape] using this
    obtain ⟨prev1, hn, hsh⟩ := F64_network_Train_neurons_ok _ _ hread
    have hset : (L.set i prev1).map layer.shape = L.map layer.shape :=
      set_map_same layer.shape L i L[i] prev1 hp hsh
    obtain ⟨L1, h1, h2, h3⟩ := F64_network_Train_loop_ok i (L.set i prev1)
      (by simp only [List.length_set]; omega) (by rw [hset]; exact hw)
    refine ⟨L1, by simp only [F64.network.Train.loop, hc, hp, hn, h1], by rw [h2, hset], ?_⟩
    intro k hk
    rw [h3 k (by omega), List.getElem?_set_ne (by omega)]

/-- The call `network.Train` in `float64` on a network on which `network.Think`
returns `v` from layers whose synapses point into the layer before their own:
the call returns `math.Abs(target - v)`. -/
theorem F64_network_Train_of_Think (exp : Float64 → Float64) (n : network Float64)
    (data : Example Float64) (L : List (layer Float64)) (last : layer Float64)
    (u : neuron Float64)
    (hT : F64.network.Think exp n data.input = some (⟨L⟩, u.output))
    (hw : pairsWired (L.map layer.shape))
    (hg : L.getLast? = some last) (hu : last.neurons[0]? = some u) :
    ∃ L4, F64.network.Train exp n data =
        some (⟨L4⟩, Float64.abs (Float64.sub data.output u.output)) ∧
      L4.map layer.shape = L.map layer.shape := by
  have hgl : L[L.length - 1]? = some last := by
    rw [← List.getLast?_eq_getElem?]
    exact hg
  have hne : 0 < L.length := by
    cases L with
    | nil => simp at hg
    | cons _ _ => simp
  have hset : network.Train.setErr L (Float64.sub data.output u.output) =
      some (L.set (L.length - 1) { last with
        neurons := last.neurons.set 0
          { u with err := Float64.sub data.output u.output } }) := by
    simp only [network.Train.setErr, hgl, hu]
  have hshape : layer.shape { last with
        neurons := last.neurons.set 0
          { u with err := Float64.sub data.output u.output } } = last.shape := by
    simp only [layer.shape, Prod.mk.injEq, true_and]
    exact set_map_same _ _ 0 u _ hu rfl
  have hshape3 := set_map_same layer.shape L (L.length - 1) last _ hgl hshape
  obtain ⟨L4, h4, h5, _⟩ := F64_network_Train_loop_ok (L.length - 1)
    (L.set (L.length - 1) { last with
      neurons := last.neurons.set 0
        { u with err := Float64.sub data.output u.output } })
    (by simp only [List.length_set]; omega) (by rw [hshape3]; exact hw)
  refine ⟨L4, ?_, by rw [h5, hshape3]⟩
  simp only [F64.network.Train, hT, F64_network_ResetErrors_eq, hset, h4]

/-! ## The values a `float64` operation returns -/

section Grid

variable {K : Type} [LinearOrderedField K] [FloorRing K]

/-- A rounded magnitude is an integer multiple of `2^-1074`. -/
theorem roundMagnitude_multiple (a : K) :
    ∃ k : ℤ, roundMagnitude a = (k : ℚ) * 2 ^ (-1074 : ℤ) := by
  have he : -1074 ≤ ulpExponent a := le_max_right _ _
  obtain ⟨m, hm⟩ := Int.eq_ofNat_of_zero_le (show 0 ≤ ulpExponent a + 1074 by omega)
  have hu : ulpExponent a = (m : ℤ) + (-1074) := by omega
  refine ⟨roundHalfEven (a / 2 ^ ulpExponent a) * 2 ^ m, ?_⟩
  unfold roundMagnitude
  rw [show (2 : ℚ) ^ ulpExponent a = 2 ^ ((m : ℤ) + (-1074)) by rw [← hu],
    zpow_add₀ (by norm_num : (2 : ℚ) ≠ 0), zpow_natCast]
  push_cast
  ring

/-- A finite value that `round64` returns is an integer multiple of `2^-1074`. -/
theorem round64_multiple (x : K) (v : ℚ) (h : round64 x = Float64.fin v) :
    ∃ k : ℤ, v = (k : ℚ) * 2 ^ (-1074 : ℤ) := by
  obtain ⟨k, hk⟩ := roundMagnitude_multiple |x|
  unfold round64 at h
  split_ifs at h with h1 h2
  · simp only [Float64.fin.injEq] at h
    exact ⟨-k, by rw [← h, hk]; push_cast; ring⟩
  · simp only [Float64.fin.injEq] at h
    exact ⟨k, by rw [← h, hk]⟩

theorem round64_zero : round64 (0 : K) = Float64.fin 0 := by
  unfold round64
  simp [roundMagnitude_zero]

/-- A value from `2^1024` on, negated, rounds to `-Inf`. -/
theorem round64_neg_overflow (x : K) (h : (2 : K) ^ (1024 : ℕ) ≤ x) :
    round64 (-x) = Float64.inf true := by
  have h0 : 0 < x := lt_of_lt_of_le (by positivity) h
  unfold round64
  rw [abs_neg, abs_of_nonneg h0.le]
  have := roundMagnitude_ge_zpow x 1024 (by norm_num)
    (by rw [show (1024 : ℤ) = ((1024 : ℕ) : ℤ) by norm_num, zpow_natCast]; exact h)
  rw [show (1024 : ℤ) = ((1024 : ℕ) : ℤ) by norm_num, zpow_natCast] at this
  rw [if_pos this]
  simp [h0]

/-- A positive value `k * 2^j` with a 53-bit `k` and below `2^1024` is a
`float64`: rounding returns it. -/
theorem round64_exact (k : ℕ) (j : ℤ) (hk1 : 2 ^ 52 ≤ k) (hk2 : k < 2 ^ 53)
    (hj : -1074 ≤ j) (hlt : (k : ℚ) * 2 ^ j < 2 ^ (1024 : ℕ)) :
    round64 ((k : K) * 2 ^ j) = Float64.fin ((k : ℚ) * 2 ^ j) := by
  have h0 : (0 : K) ≤ (k : K) * 2 ^ j := by positivity
  unfold round64
  rw [abs_of_nonneg h0, roundMagnitude_grid k j hk1 hk2 hj, if_neg (not_le.2 hlt),
    if_neg (not_lt.2 h0)]

end Grid

/-- The rounding of a non-zero multiple of `2^-1074` is not zero: a difference
of two `float64` vanishes only when they are equal. -/
theorem round64_eq_zero_iff (x : ℚ) (k : ℤ) (hx : x = (k : ℚ) * 2 ^ (-1074 : ℤ)) :
    round64 x = Float64.fin 0 ↔ x = 0 := by
  constructor
  · intro h
    by_contra hne
    have hk : k ≠ 0 := by
      intro hk
      apply hne
      rw [hx, hk]
      simp
    have hpos : (0 : ℚ) < 2 ^ (-1074 : ℤ) := zpow_pos (by norm_num) _
    have habs : (2 : ℚ) ^ (-1074 : ℤ) ≤ |x| := by
      rw [hx, abs_mul, abs_of_pos hpos]
      have h1 : (1 : ℚ) ≤ |(k : ℚ)| := by
        have : (1 : ℤ) ≤ |k| := Int.one_le_abs hk
        exact_mod_cast this
      exact le_mul_of_one_le_left hpos.le h1
    have hrm := roundMagnitude_ge_zpow |x| (-1074) (le_refl _) habs
    have hrpos : (0 : ℚ) < roundMagnitude |x| := lt_of_lt_of_le hpos hrm
    unfold round64 at h
    split_ifs at h with h1 h2
    · simp only [Float64.fin.injEq] at h
      linarith
    · simp only [Float64.fin.injEq] at h
      linarith
  · intro h
    rw [h]
    exact round64_zero

theorem Float64_abs_nonneg (x : Float64) (h : x ≠ Float64.nan) :
    Float64.le (Float64.fin 0) (Float64.abs x) := by
  cases x with
  | nan => exact absurd rfl h
  | inf s => simp [Float64.abs, Float64.le]
  | fin q => exact abs_nonneg q

theorem Float64_abs_eq_zero (x : Float64) :
    Float64.abs x = Float64.fin 0 ↔ x = Float64.fin 0 := by
  cases x with
  | nan => simp [Float64.abs]
  | inf s => simp [Float64.abs]
  | fin q => simp [Float64.abs]

theorem round64_ne_nan (x : ℚ) : round64 x ≠ Float64.nan := by
  unfold round64
  split_ifs <;> simp

/-- The value `math.Abs(t - v)` of two finite `float64` `t` and `v`: it is not
negative, and it is zero exactly when `v = t`. -/
theorem Float64_abs_sub (t v : ℚ) (kt kv : ℤ) (ht : t = (kt : ℚ) * 2 ^ (-1074 : ℤ))
    (hv : v = (kv : ℚ) * 2 ^ (-1074 : ℤ)) :
    Float64.le (Float64.fin 0) (Float64.abs (Float64.sub (Float64.fin t) (Float64.fin v))) ∧
      (Float64.abs (Float64.sub (Float64.fin t) (Float64.fin v)) = Float64.fin 0 ↔ v = t) := by
  have hsub : Float64.sub (Float64.fin t) (Float64.fin v) = round64 (t + -v) := rfl
  rw [hsub]
  refine ⟨Float64_abs_nonneg _ (round64_ne_nan _), ?_⟩
  rw [Float64_abs_eq_zero, round64_eq_zero_iff (t + -v) (kt - kv)
    (by rw [ht, hv]; push_cast; ring)]
  constructor
  · intro h
    linarith
  · intro h
    rw [h]
    ring

/-- A finite quotient `p / y` of `float64` is an integer multiple of `2^-1074`. -/
theorem Float64_div_multiple (p : ℚ) (y : Float64) (s : ℚ)
    (h : Float64.div (Float64.fin p) y = Float64.fin s) :
    ∃ k : ℤ, s = (k : ℚ) * 2 ^ (-1074 : ℤ) := by
  cases y with
  | nan => simp [Float64.div] at h
  | inf r =>
    simp only [Float64.div, Float64.fin.injEq] at h
    exact ⟨0, by rw [← h]; simp⟩
  | fin q =>
    simp only [Float64.div] at h
    split_ifs at h with h1 h2
    exact round64_multiple _ _ h

/-- The sigmoid in `float64` of not-a-number is not-a-number, when `math.Exp` of
not-a-number is. -/
theorem F64_sigmoid_nan (exp : Float64 → Float64) (hnan : exp Float64.nan = Float64.nan) :
    F64.sigmoid exp Float64.nan = Float64.nan := by
  simp [F64.sigmoid, Float64.neg, hnan, Float64.add, Float64.div]

/-- A value of the sigmoid in `float64` is not-a-number or a finite value in
`[0, 1]` that is an integer multiple of `2^-1074`. -/
theorem F64_sigmoid_value (exp : Float64 → Float64) (hexp : ExpSound exp)
    (hnan : exp Float64.nan = Float64.nan) (a : Float64) :
    F64.sigmoid exp a = Float64.nan ∨
      ∃ s : ℚ, 0 ≤ s ∧ s ≤ 1 ∧ (∃ k : ℤ, s = (k : ℚ) * 2 ^ (-1074 : ℤ)) ∧
        F64.sigmoid exp a = Float64.fin s := by
  by_cases ha : a = Float64.nan
  · left
    rw [ha]
    exact F64_sigmoid_nan exp hnan
  · right
    obtain ⟨s, h0, h1, hs⟩ := F64_sigmoid_bounds exp hexp a ha
    exact ⟨s, h0, h1, Float64_div_multiple 1 _ s hs, hs⟩

/-- Whatever `math.Exp` is, the sigmoid in `float64` is exactly 1 wherever
`math.Exp(-x)` is a finite value in `[0, 2^-53)`. -/
theorem F64_sigmoid_one_of_small (exp : Float64 → Float64) (x : Float64) (e : ℚ)
    (he : exp (Float64.neg x) = Float64.fin e) (h0 : 0 ≤ e) (h1 : e < 1 / 2 ^ 53) :
    F64.sigmoid exp x = Float64.fin 1 := by
  have hadd : Float64.add (Float64.fin 1) (Float64.fin e) = Float64.fin 1 :=
    round64_near_one (1 + e) (by linarith) (by linarith)
  have hdiv : Float64.div (Float64.fin 1) (Float64.fin 1) = Float64.fin 1 := by
    simp only [Float64.div, one_ne_zero, if_false]
    exact round64_near_one ((1 : ℚ) / 1) (by norm_num) (by norm_num)
  unfold F64.sigmoid
  rw [he, hadd, hdiv]

/-! ## Two small networks in `float64` -/

/-- The call `network.Think` in `float64` on the `[1, 1]` network with the
weight `w`, on the input `[x]`. -/
theorem F64_think_net11 (exp : Float64 → Float64) (w x o0 e0 o1 sig e1 : Float64) :
    F64.network.Think exp
        ⟨[⟨true, [⟨o0, [], e0⟩]⟩, ⟨false, [⟨o1, [⟨0, w, sig⟩], e1⟩]⟩]⟩ [x] =
      some (⟨[⟨true, [⟨x, [], e0⟩]⟩,
          ⟨false, [⟨F64.sigmoid exp (Float64.add (Float64.fin 0) (Float64.mul w x)),
            [⟨0, w, x⟩], e1⟩]⟩]⟩,
        F64.sigmoid exp (Float64.add (Float64.fin 0) (Float64.mul w x))) := by
  simp [F64.network.Think, F64.network.Think.loop, F64.network.Think.step,
    network.Think.setInputs, List.range, List.range.loop, F64.layer.Think,
    F64.layer.Think.loop, F64.neuron.Think, F64.neuron.Think.loop, previousLayer]

/-- The value `network.Think` returns in `float64` on the `[2, 1]` network with
the weights `w1`, `w2`, on the input `[x1, x2]`. -/
theorem F64_think_net21 (exp : Float64 → Float64)
    (w1 w2 x1 x2 o0 e0 o1 e1 o2 s1 s2 e2 : Float64) :
    Option.map Prod.snd (F64.network.Think exp
        ⟨[⟨true, [⟨o0, [], e0⟩, ⟨o1, [], e1⟩]⟩,
          ⟨false, [⟨o2, [⟨0, w1, s1⟩, ⟨1, w2, s2⟩], e2⟩]⟩]⟩ [x1, x2]) =
      some (F64.sigmoid exp
        (Float64.add (Float64.add (Float64.fin 0) (Float64.mul w1 x1)) (Float64.mul w2 x2))) := by
  simp [F64.network.Think, F64.network.Think.loop, F64.network.Think.step,
    network.Think.setInputs, List.range, List.range.loop, F64.layer.Think,
    F64.layer.Think.loop, F64.neuron.Think, F64.neuron.Think.loop, previousLayer]

end Model

/-! ## The properties of the specification -/

/-- C1 (weight update of training), evaluated on the network of topology `[1, 1]`
with weight `1/2` and the example `([1], 9/10)`, over the reals: after
`network.Train` the output unit has signal `1`, output `sigmoid (1/2)` and error
`9/10 - sigmoid (1/2)`, and its synapse still has the weight `1/2`, which is not
the weight before plus `signal * err * output * (1 - output)`. -/
theorem train_leaves_weight :
    NewNetwork (F := ℝ) [1/2] [1, 1] = some (net11 (1/2) 0 0 0 0 0) ∧
    ∃ n1 r u s, (net11 (1/2 : ℝ) 0 0 0 0 0).Train Real.exp ⟨[1], 9/10⟩ = some (n1, r) ∧
      n1.layers[1]? = some ⟨false, [u]⟩ ∧ u.synapses = [s] ∧
      s.signal = 1 ∧ u.output = sigmoid Real.exp (1/2) ∧
      u.err = 9/10 - sigmoid Real.exp (1/2) ∧
      s.weight = 1/2 ∧
      s.weight ≠ 1/2 + s.signal * u.err * u.output * (1 - u.output) := by
  refine ⟨newNetwork_net11 _, _, _,
    ⟨sigmoid Real.exp (1/2 * 1), [⟨0, 1/2, 1⟩], 9/10 - sigmoid Real.exp (1/2 * 1)⟩, ⟨0, 1/2, 1⟩,
    train_net11 Real.exp _ _ _ _ _ _ _ _, ?_⟩
  rw [mul_one]
  refine ⟨by simp [net11], rfl, rfl, rfl, rfl, rfl, ?_⟩
  show (1/2 : ℝ) ≠ 1/2 + 1 * (9/10 - sigmoid Real.exp (1/2)) * sigmoid Real.exp (1/2)
    * (1 - sigmoid Real.exp (1/2))
  rw [one_mul]
  have h0 := sigmoid_real_pos (1/2)
  have h1 := sigmoid_real_lt_one (1/2)
  have h2 := sigmoid_real_half_lt
  have h3 : 0 < (9/10 - sigmoid Real.exp (1/2)) * sigmoid Real.exp (1/2)
      * (1 - sigmoid Real.exp (1/2)) := by
    apply mul_pos (mul_pos _ h0)
    · linarith
    · linarith
  intro h
  linarith

/-- C2 (forward pass).  On a network that is well formed for a topology `t` of
positive unit counts with at least two layers and a last layer of one unit, and
an input vector as long as the input layer, `network.Think` returns; afterwards
the input units hold the inputs, every unit `u` of a later layer holds
`sigmoid` of the sum over its synapses of `weight * output` of the unit of the
layer before at `inputNeuronIndex` (the sum taken once, over all synapses), and
the value returned is the output of the single unit of the last layer.  The
shape and the weights are those before the call. -/
theorem think_forward_pass {F : Type} [LinearOrderedField F] (exp : F → F) (n : network F)
    (t : List Nat) (inputs : List F)
    (hwf : n.WellFormed t) (hpos : ∀ c ∈ t, 0 < c) (h2 : 2 ≤ t.length)
    (hlast : t.getLast? = some 1) (hin : t.head? = some inputs.length) :
    ∃ n1 v, n.Think exp inputs = some (n1, v) ∧
      n1.WellFormed t ∧ n1.weights = n.weights ∧
      (∃ l0, n1.layers[0]? = some l0 ∧ l0.neurons.map (fun u => u.output) = inputs) ∧
      (∀ j p l u, n1.layers[j]? = some p → n1.layers[j + 1]? = some l → u ∈ l.neurons →
        u.output = sigmoid exp (u.activity p)) ∧
      (∃ last u, n1.layers.getLast? = some last ∧ last.neurons = [u] ∧ v = u.output) := by
  cases t with
  | nil => simp at h2
  | cons c0 cs =>
    simp only [List.head?_cons, Option.some.injEq] at hin
    obtain ⟨last, u, us, hg, hn, hT⟩ :=
      network_Think_wellFormed exp n c0 cs inputs hwf hpos (by omega)
    obtain ⟨l0, rest, hL, hc0, hshape⟩ := network_WellFormed_cons n c0 cs hwf
    have hwf1 := network_WellFormed_forward exp inputs n _ hwf
    refine ⟨⟨forward exp inputs n.layers⟩, u.output, hT, hwf1, ?_, ?_, ?_, ?_⟩
    · simp only [network.weights, forward_weights]
    · refine ⟨l0.withInputs inputs, by simp [hL, forward], ?_⟩
      have := neuron_withOutputs_outputs l0.neurons inputs (by omega)
      simp only [layer.withInputs, this]
      rw [List.drop_of_length_le (by simp; omega)]
      simp
    · intro j p l u1 hp hl hu
      simp only [hL, forward] at hp hl
      obtain ⟨old, hold, hlold⟩ := forwardChain_pairs exp rest _ j p l hp hl
      subst hlold
      simp only [layer.thought, List.mem_map] at hu
      obtain ⟨u0, hu0, rfl⟩ := hu
      apply neuron_thought_output
      have hmem : old.shape ∈ topologyShape (some c0) cs := by
        rw [← hshape]
        exact List.mem_map.2 ⟨old, List.getElem?_mem hold, rfl⟩
      have hne := topologyShape_nonempty cs c0 (hpos c0 (List.mem_cons_self _ _))
        (fun x hx => hpos x (List.mem_cons_of_mem _ hx)) _ hmem
        (u0.synapses.map fun s => s.inputNeuronIndex)
        (by simp only [layer.shape, List.mem_map]; exact ⟨u0, hu0, rfl⟩)
      intro h
      exact hne (by simp [h])
    · refine ⟨last, u, hg, ?_, rfl⟩
      have hcounts := network_WellFormed_counts _ _ hwf1
      simp only at hcounts
      have hl : ((forward exp inputs n.layers).getLast?).map (fun l => l.neurons.length) =
          (c0 :: cs).getLast? := by
        rw [← List.getLast?_map, hcounts]
      rw [hg, hlast] at hl
      simp only [Option.map_some', Option.some.injEq, hn, List.length_cons] at hl
      have : us = [] := List.length_eq_zero.1 (by omega)
      rw [hn, this]

/-- C2, witness: the theorem at the `[2, 1]` network with weights `1/2, 1/3` and
the input `[1, 2]`, over the reals with the real exponential. -/
theorem think_forward_pass_witness :
    network.WellFormed (F := ℝ)
        ⟨[⟨true, [⟨0, [], 0⟩, ⟨0, [], 0⟩]⟩, ⟨false, [⟨0, [⟨0, 1/2, 0⟩, ⟨1, 1/3, 0⟩], 0⟩]⟩]⟩ [2, 1] ∧
      (∀ c ∈ [2, 1], 0 < c) ∧ 2 ≤ [2, 1].length ∧ [2, 1].getLast? = some 1 ∧
      [2, 1].head? = some ([1, 2] : List ℝ).length ∧
      ∃ n1 v, network.Think Real.exp
          (⟨[⟨true, [⟨0, [], 0⟩, ⟨0, [], 0⟩]⟩,
             ⟨false, [⟨0, [⟨0, 1/2, 0⟩, ⟨1, 1/3, 0⟩], 0⟩]⟩]⟩ : network ℝ) [1, 2] = some (n1, v) ∧
        n1.WellFormed [2, 1] ∧
        n1.weights = network.weights (F := ℝ)
          ⟨[⟨true, [⟨0, [], 0⟩, ⟨0, [], 0⟩]⟩, ⟨false, [⟨0, [⟨0, 1/2, 0⟩, ⟨1, 1/3, 0⟩], 0⟩]⟩]⟩ ∧
        (∃ l0, n1.layers[0]? = some l0 ∧ l0.neurons.map (fun u => u.output) = [1, 2]) ∧
        (∀ j p l u, n1.layers[j]? = some p → n1.layers[j + 1]? = some l → u ∈ l.neurons →
          u.output = sigmoid Real.exp (u.activity p)) ∧
        (∃ last u, n1.layers.getLast? = some last ∧ last.neurons = [u] ∧ v = u.output) :=
  ⟨by decide, by decide, by decide, by decide, by decide,
    think_forward_pass Real.exp _ [2, 1] [1, 2] (by decide) (by decide) (by decide) (by decide)
      (by decide)⟩

/-- C3 (training scenario), evaluated over the reals: on the network built from
the topology `[1, 1]` and the weight `1/2`, 500 successive calls of
`network.Train` on the example `([1], 9/10)` succeed, and `network.Think [1]`
then returns `sigmoid (1/2)`, which is more than `0.01` away from `0.9`. -/
theorem train_500_not_within :
    ∃ n0 n500 n1 v,
      NewNetwork (F := ℝ) [1/2] [1, 1] = some n0 ∧
      network.TrainTimes Real.exp ⟨[1], 9/10⟩ 500 n0 = some n500 ∧
      n500.Think Real.exp [1] = some (n1, v) ∧
      v = sigmoid Real.exp (1/2) ∧ 1/100 < |v - 9/10| := by
  obtain ⟨o0, e0, o1, sig, e1, h⟩ :=
    trainTimes_net11 Real.exp (1/2 : ℝ) 1 (9/10) 500 0 0 0 0 0
  refine ⟨_, _, _, _, newNetwork_net11 _, h, think_net11 Real.exp _ _ _ _ _ _ _, ?_, ?_⟩
  · rw [mul_one]
  · rw [mul_one]
    have h2 := sigmoid_real_half_lt
    rw [abs_of_neg (by linarith)]
    linarith

/-- C4 (return value of training).  On a network that is well formed for a
topology `t` of positive unit counts with at least two layers and a last layer
of one unit, and an example whose input is as long as the input layer,
`network.Think` returns a value `p`, `network.Train` returns `|target - p|`, and
after `network.Train` the `err` of the output unit is `target - p`. -/
theorem train_returns_abs_err {F : Type} [LinearOrderedField F] (exp : F → F) (n : network F)
    (t : List Nat) (data : Example F)
    (hwf : n.WellFormed t) (hpos : ∀ c ∈ t, 0 < c) (h2 : 2 ≤ t.length)
    (hlast : t.getLast? = some 1) (hin : t.head? = some data.input.length) :
    ∃ n1 p n2 r, n.Think exp data.input = some (n1, p) ∧ n.Train exp data = some (n2, r) ∧
      r = |data.output - p| ∧
      ∃ last u, n2.layers.getLast? = some last ∧ last.neurons = [u] ∧
        u.err = data.output - p := by
  cases t with
  | nil => simp at h2
  | cons c0 cs =>
    simp only [List.head?_cons, Option.some.injEq] at hin
    obtain ⟨last, u, hg, hn, hT⟩ :=
      network_Think_wellFormed_one exp n c0 cs data.input hwf hpos hlast (by omega)
    have hw := network_Wired_pairs _
      (network_WellFormed_wired _ _ (network_WellFormed_forward exp data.input n _ hwf))
    obtain ⟨L4, h4, _, hlast4⟩ := network_Train_of_Think exp n data _ last u hT hw hg
      (by simp [hn])
    refine ⟨_, _, _, _, hT, h4, rfl, _, ⟨u.output, u.synapses, data.output - u.output⟩,
      hlast4, ?_, rfl⟩
    simp [hn]

/-- C4, witness: the theorem at the `[2, 1]` network with weights `1/2, 1/3` and
the example `([1, 2], 9/10)`, over the reals with the real exponential. -/
theorem train_returns_abs_err_witness :
    network.WellFormed (F := ℝ)
        ⟨[⟨true, [⟨0, [], 0⟩, ⟨0, [], 0⟩]⟩, ⟨false, [⟨0, [⟨0, 1/2, 0⟩, ⟨1, 1/3, 0⟩], 0⟩]⟩]⟩ [2, 1] ∧
      (∀ c ∈ [2, 1], 0 < c) ∧ 2 ≤ [2, 1].length ∧ [2, 1].getLast? = some 1 ∧
      [2, 1].head? = some (Example.input (F := ℝ) ⟨[1, 2], 9/10⟩).length ∧
      ∃ n1 p n2 r,
        network.Think Real.exp
          (⟨[⟨true, [⟨0, [], 0⟩, ⟨0, [], 0⟩]⟩,
             ⟨false, [⟨0, [⟨0, 1/2, 0⟩, ⟨1, 1/3, 0⟩], 0⟩]⟩]⟩ : network ℝ) [1, 2] = some (n1, p) ∧
        network.Train Real.exp
          (⟨[⟨true, [⟨0, [], 0⟩, ⟨0, [], 0⟩]⟩,
             ⟨false, [⟨0, [⟨0, 1/2, 0⟩, ⟨1, 1/3, 0⟩], 0⟩]⟩]⟩ : network ℝ) ⟨[1, 2], 9/10⟩ =
          some (n2, r) ∧
        r = |9/10 - p| ∧
        ∃ last u, n2.layers.getLast? = some last ∧ last.neurons = [u] ∧ u.err = 9/10 - p :=
  ⟨by decide, by decide, by decide, by decide, by decide,
    train_returns_abs_err Real.exp _ [2, 1] ⟨[1, 2], 9/10⟩ (by decide) (by decide) (by decide)
      (by decide) (by decide)⟩

/-- C5 (error reset), evaluated over the reals on the network of topology
`[1, 1]` with weight `1/2` and two successive calls of `network.Train` on the
example `([1], 9/10)`: the first call leaves the input unit with the error
`e = (9/10 - sigmoid (1/2)) * (1/2) * sigmoid_derivative (sigmoid (1/2))`, which
is not 0; `network.ResetErrors` returns that network unchanged; and the second
call leaves the input unit with `e + e`, so its backward walk started from the
stored `e`, not from 0. -/
theorem resetErrors_keeps_err :
    ∃ n1 r1 n2 r2 e,
      (net11 (1/2 : ℝ) 0 0 0 0 0).Train Real.exp ⟨[1], 9/10⟩ = some (n1, r1) ∧
      n1.layers[0]? = some ⟨true, [⟨1, [], e⟩]⟩ ∧ e ≠ 0 ∧
      n1.ResetErrors = n1 ∧
      n1.Train Real.exp ⟨[1], 9/10⟩ = some (n2, r2) ∧
      n2.layers[0]? = some ⟨true, [⟨1, [], e + e⟩]⟩ := by
  refine ⟨_, _, _, _,
    (9/10 - sigmoid Real.exp (1/2 * 1)) * (1/2) * sigmoid_derivative (sigmoid Real.exp (1/2 * 1)),
    train_net11 Real.exp _ _ _ _ _ _ _ _, ?_, ?_, network_ResetErrors_eq _,
    train_net11 Real.exp _ _ _ _ _ _ _ _, ?_⟩
  · simp [net11]
  · rw [mul_one]
    have h0 := sigmoid_real_pos (1/2)
    have h1 := sigmoid_real_lt_one (1/2)
    have h2 := sigmoid_real_half_lt
    apply ne_of_gt
    unfold sigmoid_derivative
    apply mul_pos (mul_pos _ (by norm_num)) (mul_pos h0 _)
    · linarith
    · linarith
  · simp [net11]

/-- C6 (construction order).  For a topology `t` of positive unit counts and a
weight sequence `lines` with at least `sum_{m >= 1} t[m-1] * t[m]` entries,
`NewNetwork` builds a network with `len(t)` layers; layer `i` has `t[i]` units
and is marked input exactly when `i = 0`; the units of layer 0 have no synapse;
and the `j`-th unit of layer `i + 1` has `t[i]` synapses, the `k`-th with
`inputNeuronIndex = k` and the weight
`lines[(sum_{1 <= m < i + 1} t[m-1] * t[m]) + j * t[i] + k]`. -/
theorem newNetwork_construction_order {F : Type} [LinearOrderedField F] (lines : List F)
    (t : List Nat) (hpos : ∀ c ∈ t, 0 < c)
    (hlen : ∑ m in Finset.Ico 1 t.length, t.getD (m - 1) 0 * t.getD m 0 ≤ lines.length) :
    ∃ n, NewNetwork lines (t.map Int.ofNat) = some n ∧
      n.layers.length = t.length ∧
      (∀ i l, n.layers[i]? = some l →
        t[i]? = some l.neurons.length ∧ (l.inputLayer = true ↔ i = 0)) ∧
      (∀ l0 u, n.layers[0]? = some l0 → u ∈ l0.neurons → u.synapses = []) ∧
      (∀ i l j u, n.layers[i + 1]? = some l → l.neurons[j]? = some u →
        u.synapses.length = t.getD i 0 ∧
        ∀ k, k < t.getD i 0 → ∃ s, u.synapses[k]? = some s ∧ s.inputNeuronIndex = k ∧
          lines[(∑ m in Finset.Ico 1 (i + 1), t.getD (m - 1) 0 * t.getD m 0)
            + j * t.getD i 0 + k]? = some s.weight) := by
  have hN : NewNetwork lines (t.map Int.ofNat) = some ⟨layersFor lines none t 0⟩ := by
    rw [NewNetwork_eq, map_toNat_ofNat, connections_eq_sum_Ico, if_pos hlen]
  have hcounts := network_WellFormed_counts _ _ (layersFor_wellFormed lines t)
  simp only at hcounts
  refine ⟨_, hN, ?_, ?_, ?_, ?_⟩
  · have := congrArg List.length hcounts
    simpa using this
  · intro i l hl
    constructor
    · rw [← hcounts, List.getElem?_map]
      simp only at hl
      rw [hl]
      rfl
    · cases t with
      | nil => simp [layersFor] at hl
      | cons c0 cs =>
        cases i with
        | zero =>
          simp only [layersFor, List.getElem?_cons_zero, Option.some.injEq] at hl
          simp [← hl]
        | succ i =>
          simp only [layersFor, List.getElem?_cons_succ] at hl
          obtain ⟨c, _, hl1⟩ := layersFor_get lines cs _ _ i l hl
          simp [hl1]
  · intro l0 u hl0 hu
    cases t with
    | nil => simp [layersFor] at hl0
    | cons c0 cs =>
      simp only [layersFor, List.getElem?_cons_zero, Option.some.injEq] at hl0
      rw [← hl0] at hu
      simp only [neuronsFor, Option.getD_none, List.mem_map] at hu
      obtain ⟨j, _, rfl⟩ := hu
      simp [synapsesFor]
  · intro i l j u hl hu
    cases t with
    | nil => simp [layersFor] at hl
    | cons c0 cs =>
      simp only [layersFor, List.getElem?_cons_succ, Option.getD_none, mul_zero, add_zero] at hl
      obtain ⟨c, hc, hl1⟩ := layersFor_get lines cs c0 0 i l hl
      rw [hl1] at hu
      simp only [neuronsFor, zero_add, List.getElem?_map] at hu
      have hj : j < c := by
        by_contra hge
        rw [List.getElem?_eq_none (by simp; omega)] at hu
        simp at hu
      rw [List.getElem?_range hj] at hu
      simp only [Option.map_some', Option.some.injEq] at hu
      have hi : i < cs.length := by
        by_contra hge
        rw [List.getElem?_eq_none (by omega)] at hc
        simp at hc
      have hoff : connections ((c0 :: cs).take (i + 1)) =
          ∑ m in Finset.Ico 1 (i + 1), (c0 :: cs).getD (m - 1) 0 * (c0 :: cs).getD m 0 := by
        rw [connections_take, sum_Ico_one]
      have hci : (c0 :: cs).getD (i + 1) 0 = c := by
        simp [List.getD_eq_getElem?_getD, hc]
      have hbound : (∑ m in Finset.Ico 1 (i + 1), (c0 :: cs).getD (m - 1) 0 * (c0 :: cs).getD m 0)
          + (c0 :: cs).getD i 0 * c ≤ lines.length := by
        refine le_trans ?_ hlen
        rw [sum_Ico_one, ← hci, ← Finset.sum_range_succ, ← sum_Ico_one]
        apply Finset.sum_le_sum_of_subset
        intro m hm
        simp only [Finset.mem_Ico, List.length_cons] at hm ⊢
        omega
      rw [← hu]
      refine ⟨by simp [synapsesFor], ?_⟩
      intro k hk
      refine ⟨⟨0 + k, lines.getD (connections ((c0 :: cs).take (i + 1))
        + j * (c0 :: cs).getD i 0 + k) 0, 0⟩, ?_, by simp, ?_⟩
      · simp only [synapsesFor, List.getElem?_map, List.getElem?_range hk, Option.map_some']
      · simp only
        rw [hoff]
        have hjm : j * (c0 :: cs).getD i 0 + (c0 :: cs).getD i 0 ≤ (c0 :: cs).getD i 0 * c := by
          rw [Nat.mul_comm _ c, ← Nat.succ_mul]
          exact Nat.mul_le_mul_right _ hj
        have hlt : (∑ m in Finset.Ico 1 (i + 1), (c0 :: cs).getD (m - 1) 0 * (c0 :: cs).getD m 0)
            + j * (c0 :: cs).getD i 0 + k < lines.length := by omega
        have hget : ∀ idx, idx < lines.length → lines[idx]? = some (lines.getD idx 0) := by
          intro idx h
          rw [List.getD_eq_getElem?_getD, List.getElem?_eq_getElem h]
          rfl
        exact hget _ hlt

/-- C6, witness: the theorem at the topology `[2, 2, 1]` with the six weights
`1, 2, 3, 4, 5, 6` over the rationals. -/
theorem newNetwork_construction_order_witness :
    (∀ c ∈ [2, 2, 1], 0 < c) ∧
      (∑ m in Finset.Ico 1 [2, 2, 1].length, [2, 2, 1].getD (m - 1) 0 * [2, 2, 1].getD m 0
        ≤ ([1, 2, 3, 4, 5, 6] : List ℚ).length) ∧
      ∃ n, NewNetwork ([1, 2, 3, 4, 5, 6] : List ℚ) ([2, 2, 1].map Int.ofNat) = some n ∧
        n.layers.length = [2, 2, 1].length ∧
        (∀ i l, n.layers[i]? = some l →
          [2, 2, 1][i]? = some l.neurons.length ∧ (l.inputLayer = true ↔ i = 0)) ∧
        (∀ l0 u, n.layers[0]? = some l0 → u ∈ l0.neurons → u.synapses = []) ∧
        (∀ i l j u, n.layers[i + 1]? = some l → l.neurons[j]? = some u →
          u.synapses.length = [2, 2, 1].getD i 0 ∧
          ∀ k, k < [2, 2, 1].getD i 0 → ∃ s, u.synapses[k]? = some s ∧ s.inputNeuronIndex = k ∧
            ([1, 2, 3, 4, 5, 6] : List ℚ)[(∑ m in Finset.Ico 1 (i + 1),
                [2, 2, 1].getD (m - 1) 0 * [2, 2, 1].getD m 0)
              + j * [2, 2, 1].getD i 0 + k]? = some s.weight) :=
  ⟨by decide, by decide,
    newNetwork_construction_order ([1, 2, 3, 4, 5, 6] : List ℚ) [2, 2, 1] (by decide) (by decide)⟩

/-- C7 (construction failure).  For a topology `t` of positive unit counts,
`NewNetwork` produces no network when the weight sequence `lines` has fewer than
`sum_{m >= 1} t[m-1] * t[m]` entries. -/
theorem newNetwork_fails_when_short {F : Type} [LinearOrderedField F] (lines : List F)
    (t : List Nat) (hpos : ∀ c ∈ t, 0 < c)
    (hshort : lines.length < ∑ m in Finset.Ico 1 t.length, t.getD (m - 1) 0 * t.getD m 0) :
    NewNetwork lines (t.map Int.ofNat) = none := by
  rw [NewNetwork_eq, map_toNat_ofNat, connections_eq_sum_Ico, if_neg (by omega)]

/-- C7, witness: the topology `[2, 2, 1]` needs `2 * 2 + 2 * 1 = 6` weights, and
`NewNetwork` fails on the five weights `1, 2, 3, 4, 5`. -/
theorem newNetwork_fails_when_short_witness :
    (∀ c ∈ [2, 2, 1], 0 < c) ∧
      (([1, 2, 3, 4, 5] : List ℚ).length <
        ∑ m in Finset.Ico 1 [2, 2, 1].length, [2, 2, 1].getD (m - 1) 0 * [2, 2, 1].getD m 0) ∧
      NewNetwork ([1, 2, 3, 4, 5] : List ℚ) ([2, 2, 1].map Int.ofNat) = none :=
  ⟨by decide, by decide,
    newNetwork_fails_when_short ([1, 2, 3, 4, 5] : List ℚ) [2, 2, 1] (by decide) (by decide)⟩

/-- C8 (dimension check), counterexample: on the well-formed `[2, 1]` network
whose input units hold the outputs `5` and `7`, `network.Think` with the input
vector `[1]`, one value short, does not fail: it overwrites the first input
unit, keeps the stale `7` in the second, and returns `sigmoid (1 * 1 + 1 * 7)`. -/
theorem think_accepts_short_input :
    network.WellFormed (F := ℝ)
        ⟨[⟨true, [⟨5, [], 0⟩, ⟨7, [], 0⟩]⟩, ⟨false, [⟨0, [⟨0, 1, 0⟩, ⟨1, 1, 0⟩], 0⟩]⟩]⟩ [2, 1] ∧
      ([1] : List ℝ).length ≠ 2 ∧
      network.Think Real.exp
          (⟨[⟨true, [⟨5, [], 0⟩, ⟨7, [], 0⟩]⟩,
             ⟨false, [⟨0, [⟨0, 1, 0⟩, ⟨1, 1, 0⟩], 0⟩]⟩]⟩ : network ℝ) [1] =
        some (⟨[⟨true, [⟨1, [], 0⟩, ⟨7, [], 0⟩]⟩,
                ⟨false, [⟨sigmoid Real.exp 8, [⟨0, 1, 1⟩, ⟨1, 1, 7⟩], 0⟩]⟩]⟩,
              sigmoid Real.exp 8) := by
  refine ⟨by decide, by decide, ?_⟩
  simp [network.Think, network.Think.loop, network.Think.step,
    network.Think.setInputs, List.range, List.range.loop, layer.Think, layer.Think.loop,
    neuron.Think, neuron.Think.loop, previousLayer]
  norm_num

/-- C8 (dimension check), as the code has it.  On a network that is well formed
for a topology `t` of positive unit counts with at least two layers and a last
layer of one unit: when the input vector is longer than the input layer,
`network.Think` and `network.Train` fail; when it is not longer, `network.Think`
returns, and the outputs of the input units are then the inputs followed by the
old outputs of the units the vector did not reach. -/
theorem think_dimension_check {F : Type} [LinearOrderedField F] (exp : F → F) (n : network F)
    (t : List Nat) (inputs : List F) (c0 : Nat)
    (hwf : n.WellFormed t) (hpos : ∀ c ∈ t, 0 < c) (h2 : 2 ≤ t.length)
    (hlast : t.getLast? = some 1) (hc0 : t.head? = some c0) :
    (c0 < inputs.length →
      n.Think exp inputs = none ∧ ∀ y, n.Train exp ⟨inputs, y⟩ = none) ∧
    (inputs.length ≤ c0 →
      ∃ n1 v l0 l1, n.Think exp inputs = some (n1, v) ∧
        n.layers[0]? = some l0 ∧ n1.layers[0]? = some l1 ∧
        l1.neurons.map (fun u => u.output) =
          inputs ++ (l0.neurons.map fun u => u.output).drop inputs.length) := by
  cases t with
  | nil => simp at h2
  | cons c cs =>
    simp only [List.head?_cons, Option.some.injEq] at hc0
    subst hc0
    obtain ⟨l0, rest, hL, hlen0, _⟩ := network_WellFormed_cons n c cs hwf
    constructor
    · intro hlt
      have hloop := network_Think_loop_too_long exp inputs n l0
        (network_WellFormed_wired n _ hwf) (by simp [hL]) (by omega)
      have hT : n.Think exp inputs = none := by
        simp [network.Think, hloop]
      exact ⟨hT, fun y => by simp [network.Train, hT]⟩
    · intro hle
      obtain ⟨last, u, us, _, _, hT⟩ := network_Think_wellFormed exp n c cs inputs hwf hpos hle
      refine ⟨_, _, l0, l0.withInputs inputs, hT, by simp [hL], by simp [hL, forward], ?_⟩
      exact neuron_withOutputs_outputs l0.neurons inputs (by omega)

/-- C8, witness: the theorem at the `[2, 1]` network with weights `1/2, 1/3`, over
the reals, for the input vector `[1]`. -/
theorem think_dimension_check_witness :
    network.WellFormed (F := ℝ)
        ⟨[⟨true, [⟨5, [], 0⟩, ⟨7, [], 0⟩]⟩, ⟨false, [⟨0, [⟨0, 1/2, 0⟩, ⟨1, 1/3, 0⟩], 0⟩]⟩]⟩ [2, 1] ∧
      (∀ c ∈ [2, 1], 0 < c) ∧ 2 ≤ [2, 1].length ∧ [2, 1].getLast? = some 1 ∧
      [2, 1].head? = some 2 ∧
      (2 < ([1] : List ℝ).length →
        network.Think Real.exp
            (⟨[⟨true, [⟨5, [], 0⟩, ⟨7, [], 0⟩]⟩,
               ⟨false, [⟨0, [⟨0, 1/2, 0⟩, ⟨1, 1/3, 0⟩], 0⟩]⟩]⟩ : network ℝ) [1] = none ∧
          ∀ y, network.Train Real.exp
            (⟨[⟨true, [⟨5, [], 0⟩, ⟨7, [], 0⟩]⟩,
               ⟨false, [⟨0, [⟨0, 1/2, 0⟩, ⟨1, 1/3, 0⟩], 0⟩]⟩]⟩ : network ℝ) ⟨[1], y⟩ = none) ∧
      (([1] : List ℝ).length ≤ 2 →
        ∃ n1 v l0 l1,
          network.Think Real.exp
            (⟨[⟨true, [⟨5, [], 0⟩, ⟨7, [], 0⟩]⟩,
               ⟨false, [⟨0, [⟨0, 1/2, 0⟩, ⟨1, 1/3, 0⟩], 0⟩]⟩]⟩ : network ℝ) [1] = some (n1, v) ∧
          (⟨[⟨true, [⟨5, [], 0⟩, ⟨7, [], 0⟩]⟩,
             ⟨false, [⟨0, [⟨0, 1/2, 0⟩, ⟨1, 1/3, 0⟩], 0⟩]⟩]⟩ : network ℝ).layers[0]? = some l0 ∧
          n1.layers[0]? = some l1 ∧
          l1.neurons.map (fun u => u.output) =
            [1] ++ (l0.neurons.map fun u => u.output).drop ([1] : List ℝ).length) :=
  ⟨by decide, by decide, by decide, by decide, by decide,
    think_dimension_check Real.exp _ [2, 1] [1] 2 (by decide) (by decide) (by decide) (by decide)
      (by decide)⟩

/-- C9 (zero weights), over the reals.  On a network that is well formed for a
topology `t` of positive unit counts with at least two layers and whose synapse
weights are all 0, `network.Think` on an input vector as long as the input layer
returns, and afterwards every unit of every layer but the first has the output
`1/2`. -/
theorem think_zero_weights (n : network ℝ) (t : List Nat) (inputs : List ℝ)
    (hwf : n.WellFormed t) (hpos : ∀ c ∈ t, 0 < c) (h2 : 2 ≤ t.length)
    (hzero : ∀ l ∈ n.layers, ∀ u ∈ l.neurons, ∀ s ∈ u.synapses, s.weight = 0)
    (hin : t.head? = some inputs.length) :
    ∃ n1 v, n.Think Real.exp inputs = some (n1, v) ∧
      ∀ j l u, n1.layers[j + 1]? = some l → u ∈ l.neurons → u.output = 1/2 := by
  cases t with
  | nil => simp at h2
  | cons c0 cs =>
    simp only [List.head?_cons, Option.some.injEq] at hin
    obtain ⟨last, u, us, _, _, hT⟩ :=
      network_Think_wellFormed Real.exp n c0 cs inputs hwf hpos (by omega)
    obtain ⟨l0, rest, hL, hc0, hshape⟩ := network_WellFormed_cons n c0 cs hwf
    refine ⟨_, _, hT, ?_⟩
    intro j l u1 hl hu
    simp only [hL, forward] at hl
    have hj : j < (l0.withInputs inputs :: forwardChain Real.exp (l0.withInputs inputs) rest).length := by
      by_contra hge
      rw [List.getElem?_eq_none (by omega)] at hl
      cases hl
    obtain ⟨old, hold, hlold⟩ := forwardChain_pairs Real.exp rest _ j _ l
      (List.getElem?_eq_getElem hj) hl
    have hmemL : old ∈ n.layers := by
      rw [hL]
      exact List.mem_cons_of_mem _ (List.getElem?_mem hold)
    rw [hlold] at hu
    simp only [layer.thought, List.mem_map] at hu
    obtain ⟨u0, hu0, rfl⟩ := hu
    have hmem : old.shape ∈ topologyShape (some c0) cs := by
      rw [← hshape]
      exact List.mem_map.2 ⟨old, List.getElem?_mem hold, rfl⟩
    have hne := topologyShape_nonempty cs c0 (hpos c0 (List.mem_cons_self _ _))
      (fun x hx => hpos x (List.mem_cons_of_mem _ hx)) _ hmem
      (u0.synapses.map fun s => s.inputNeuronIndex)
      (by simp only [layer.shape, List.mem_map]; exact ⟨u0, hu0, rfl⟩)
    have hne0 : u0.synapses ≠ [] := fun h => hne (by simp [h])
    have hsum : ∀ p : layer ℝ, u0.activity p = 0 := by
      intro p
      unfold neuron.activity
      apply List.sum_eq_zero
      intro x hx
      simp only [List.mem_map] at hx
      obtain ⟨s, hs, rfl⟩ := hx
      rw [hzero old hmemL u0 hu0 s hs, zero_mul]
    simp only [neuron.thought, hne0, if_false, hsum, sigmoid, neg_zero, Real.exp_zero]
    norm_num

/-- C9, witness: the theorem at the `[2, 1]` network with both weights 0 and the
input `[3, 4]`. -/
theorem think_zero_weights_witness :
    network.WellFormed (F := ℝ)
        ⟨[⟨true, [⟨0, [], 0⟩, ⟨0, [], 0⟩]⟩, ⟨false, [⟨0, [⟨0, 0, 0⟩, ⟨1, 0, 0⟩], 0⟩]⟩]⟩ [2, 1] ∧
      (∀ c ∈ [2, 1], 0 < c) ∧ 2 ≤ [2, 1].length ∧
      (∀ l ∈ (⟨[⟨true, [⟨0, [], 0⟩, ⟨0, [], 0⟩]⟩,
                ⟨false, [⟨0, [⟨0, 0, 0⟩, ⟨1, 0, 0⟩], 0⟩]⟩]⟩ : network ℝ).layers,
        ∀ u ∈ l.neurons, ∀ s ∈ u.synapses, s.weight = 0) ∧
      [2, 1].head? = some ([3, 4] : List ℝ).length ∧
      ∃ n1 v, network.Think Real.exp
          (⟨[⟨true, [⟨0, [], 0⟩, ⟨0, [], 0⟩]⟩,
             ⟨false, [⟨0, [⟨0, 0, 0⟩, ⟨1, 0, 0⟩], 0⟩]⟩]⟩ : network ℝ) [3, 4] = some (n1, v) ∧
        ∀ j l u, n1.layers[j + 1]? = some l → u ∈ l.neurons → u.output = 1/2 :=
  ⟨by decide, by decide, by decide, by simp, by decide,
    think_zero_weights _ [2, 1] [3, 4] (by decide) (by decide) (by decide) (by simp) (by decide)⟩

/-- C10 (idempotence of inference).  On every network state of the program (a
network built by `NewNetwork`, after any calls of `network.Think` and
`network.Train`), if `network.Think` returns the state `n1` and the value `v`
on an input vector, then `network.Think` on `n1` with the same vector returns
`v` again and leaves the state `n1`. -/
theorem think_idempotent {F : Type} [LinearOrderedField F] (exp : F → F) (n n1 : network F)
    (inputs : List F) (v : F)
    (hr : n.Reachable exp) (h : n.Think exp inputs = some (n1, v)) :
    n1.Think exp inputs = some (n1, v) :=
  network_Think_twice exp inputs n n1 v (network_Reachable_wired exp n hr) h

/-- C10, witness: the theorem at the network `NewNetwork` builds from the topology
`[1, 1]` and the weight `1/2`, for the input `[1]`, over the reals. -/
theorem think_idempotent_witness :
    network.Reachable Real.exp (net11 (1/2 : ℝ) 0 0 0 0 0) ∧
      (net11 (1/2 : ℝ) 0 0 0 0 0).Think Real.exp [1] =
        some (net11 (1/2) 1 0 (sigmoid Real.exp (1/2 * 1)) 1 0, sigmoid Real.exp (1/2 * 1)) ∧
      (net11 (1/2 : ℝ) 1 0 (sigmoid Real.exp (1/2 * 1)) 1 0).Think Real.exp [1] =
        some (net11 (1/2) 1 0 (sigmoid Real.exp (1/2 * 1)) 1 0, sigmoid Real.exp (1/2 * 1)) :=
  ⟨network.Reachable.new [1/2] [1, 1] _ (newNetwork_net11 _),
    think_net11 Real.exp _ _ _ _ _ _ _,
    think_idempotent Real.exp _ _ [1] _
      (network.Reachable.new [1/2] [1, 1] _ (newNetwork_net11 _))
      (think_net11 Real.exp _ _ _ _ _ _ _)⟩

/-- C11 (topology immutability).  On every network, a call of `network.Think` or
of `network.Train` that returns leaves the shape of the network as it was: the
number of layers and, layer by layer, the `inputLayer` flag, the number of
neurons, and neuron by neuron the number of synapses and the `inputNeuronIndex`
of each.  The fields outside the shape are `weight`, `signal`, `output` and
`err`. -/
theorem think_train_keep_topology {F : Type} [LinearOrderedField F] (exp : F → F)
    (n n1 : network F) (inputs : List F) (y v : F)
    (h : n.Think exp inputs = some (n1, v) ∨ n.Train exp ⟨inputs, y⟩ = some (n1, v)) :
    n1.layers.length = n.layers.length ∧
      n1.layers.map (fun l => (l.inputLayer,
          l.neurons.map fun u => u.synapses.map fun s => s.inputNeuronIndex)) =
        n.layers.map (fun l => (l.inputLayer,
          l.neurons.map fun u => u.synapses.map fun s => s.inputNeuronIndex)) := by
  have hshape : n1.shape = n.shape := by
    rcases h with h | h
    · exact network_Think_shape_any exp inputs n n1 v h
    · exact network_Train_shape_any exp ⟨inputs, y⟩ n n1 v h
  refine ⟨?_, hshape⟩
  have := congrArg List.length hshape
  simpa [network.shape] using this

/-- C11, witness: the theorem at a call of `network.Train` on the `[1, 1]` network
with weight `1/2` and the example `([1], 9/10)`, over the reals. -/
theorem think_train_keep_topology_witness :
    ((net11 (1/2 : ℝ) 0 0 0 0 0).Think Real.exp [1] =
        some (net11 (1/2) 1
          (0 + (9/10 - sigmoid Real.exp (1/2 * 1)) * (1/2) *
            sigmoid_derivative (sigmoid Real.exp (1/2 * 1)))
          (sigmoid Real.exp (1/2 * 1)) 1 (9/10 - sigmoid Real.exp (1/2 * 1)),
          |9/10 - sigmoid Real.exp (1/2 * 1)|) ∨
      (net11 (1/2 : ℝ) 0 0 0 0 0).Train Real.exp ⟨[1], 9/10⟩ =
        some (net11 (1/2) 1
          (0 + (9/10 - sigmoid Real.exp (1/2 * 1)) * (1/2) *
            sigmoid_derivative (sigmoid Real.exp (1/2 * 1)))
          (sigmoid Real.exp (1/2 * 1)) 1 (9/10 - sigmoid Real.exp (1/2 * 1)),
          |9/10 - sigmoid Real.exp (1/2 * 1)|)) ∧
      (net11 (1/2 : ℝ) 1
          (0 + (9/10 - sigmoid Real.exp (1/2 * 1)) * (1/2) *
            sigmoid_derivative (sigmoid Real.exp (1/2 * 1)))
          (sigmoid Real.exp (1/2 * 1)) 1 (9/10 - sigmoid Real.exp (1/2 * 1))).layers.length =
        (net11 (1/2 : ℝ) 0 0 0 0 0).layers.length ∧
      (net11 (1/2 : ℝ) 1
          (0 + (9/10 - sigmoid Real.exp (1/2 * 1)) * (1/2) *
            sigmoid_derivative (sigmoid Real.exp (1/2 * 1)))
          (sigmoid Real.exp (1/2 * 1)) 1 (9/10 - sigmoid Real.exp (1/2 * 1))).layers.map
          (fun l => (l.inputLayer,
            l.neurons.map fun u => u.synapses.map fun s => s.inputNeuronIndex)) =
        (net11 (1/2 : ℝ) 0 0 0 0 0).layers.map (fun l => (l.inputLayer,
          l.neurons.map fun u => u.synapses.map fun s => s.inputNeuronIndex)) :=
  ⟨Or.inr (train_net11 Real.exp _ _ _ _ _ _ _ _),
    think_train_keep_topology Real.exp _ _ [1] (9/10) _
      (Or.inr (train_net11 Real.exp _ _ _ _ _ _ _ _))⟩

/-- C12 (frame of inference).  On every network and input vector, a call of
`network.Think` that returns changes no synapse weight and no neuron `err`: the
frame of the network, which holds every field but the `output` of the neurons
and the `signal` of the synapses, is the same after the call. -/
theorem think_frame {F : Type} [LinearOrderedField F] (exp : F → F) (n n1 : network F)
    (inputs : List F) (v : F) (h : n.Think exp inputs = some (n1, v)) :
    n1.frame = n.frame ∧ n1.weights = n.weights ∧
      n1.layers.map (fun l => l.neurons.map fun u => u.err) =
        n.layers.map (fun l => l.neurons.map fun u => u.err) := by
  have hframe : n1.frame = n.frame :=
    network_Think_map exp inputs layer.frame (layer_thought_frame exp)
      (fun l => layer_withInputs_frame l inputs) n n1 v h
  refine ⟨hframe, ?_, ?_⟩
  · have := congrArg (List.map fun fr : Bool × List (F × List (Nat × F)) =>
      fr.2.map fun e => e.2.map fun iw => iw.2) hframe
    simpa [network.frame, network.weights, layer.frame, Function.comp_def] using this
  · have := congrArg (List.map fun fr : Bool × List (F × List (Nat × F)) =>
      fr.2.map fun e => e.1) hframe
    simpa [network.frame, layer.frame, Function.comp_def] using this

/-- C12, witness: the theorem at `network.Think [1]` on the network `NewNetwork`
builds from the topology `[1, 1]` and the weight `1/2`, over the reals. -/
theorem think_frame_witness :
    (net11 (1/2 : ℝ) 0 0 0 0 0).Think Real.exp [1] =
        some (net11 (1/2) 1 0 (sigmoid Real.exp (1/2 * 1)) 1 0, sigmoid Real.exp (1/2 * 1)) ∧
      (net11 (1/2 : ℝ) 1 0 (sigmoid Real.exp (1/2 * 1)) 1 0).frame =
        (net11 (1/2 : ℝ) 0 0 0 0 0).frame ∧
      (net11 (1/2 : ℝ) 1 0 (sigmoid Real.exp (1/2 * 1)) 1 0).weights =
        (net11 (1/2 : ℝ) 0 0 0 0 0).weights ∧
      (net11 (1/2 : ℝ) 1 0 (sigmoid Real.exp (1/2 * 1)) 1 0).layers.map
          (fun l => l.neurons.map fun u => u.err) =
        (net11 (1/2 : ℝ) 0 0 0 0 0).layers.map (fun l => l.neurons.map fun u => u.err) :=
  ⟨think_net11 Real.exp _ _ _ _ _ _ _,
    think_frame Real.exp _ _ [1] _ (think_net11 Real.exp _ _ _ _ _ _ _)⟩

/-- C13 (sigmoid shape), counterexample.  In `float64`, with `math.Exp` the
correctly rounded exponential, the function `sigmoid` of `nn.go` returns exactly
`1.0` at 38 and at 40 and exactly `0` at -800: it is not strictly increasing
(`38 < 40`, equal values), not below 1 and not above 0. -/
theorem sigmoid_float_saturates :
    F64.sigmoid (Float64.expOf Real.exp) (Float64.fin 38) = Float64.fin 1 ∧
      F64.sigmoid (Float64.expOf Real.exp) (Float64.fin 40) = Float64.fin 1 ∧
      F64.sigmoid (Float64.expOf Real.exp) (Float64.fin (-800)) = Float64.fin 0 :=
  ⟨F64_sigmoid_one 38 (by norm_num), F64_sigmoid_one 40 (by norm_num),
    F64_sigmoid_zero (-800) (by norm_num)⟩

/-- C13 (sigmoid shape), as the code has it.  The formula `1 / (1 + e^(-x))`
read on the reals is strictly increasing with values strictly between 0 and 1.
The function `sigmoid` of `nn.go` computes it in `float64`: whenever `math.Exp`
returns `+Inf` or a finite value that is not negative, `sigmoid x` is a finite
value with `0 ≤ sigmoid x ≤ 1` for every `x` that is not not-a-number, and
whenever `math.Exp` is also non-decreasing, `x ≤ y` gives
`sigmoid x ≤ sigmoid y`. -/
theorem sigmoid_float_shape (exp : Float64 → Float64) (hexp : ExpSound exp)
    (hmono : ExpMonotone exp) :
    (∀ x y : ℝ, x < y → sigmoid Real.exp x < sigmoid Real.exp y) ∧
      (∀ x : ℝ, 0 < sigmoid Real.exp x ∧ sigmoid Real.exp x < 1) ∧
      (∀ x y : Float64, Float64.le x y →
        Float64.le (F64.sigmoid exp x) (F64.sigmoid exp y)) ∧
      ∀ x : Float64, x ≠ Float64.nan →
        ∃ s : ℚ, 0 ≤ s ∧ s ≤ 1 ∧ F64.sigmoid exp x = Float64.fin s :=
  ⟨fun _ _ h => sigmoid_real_strictMono h,
    fun x => ⟨sigmoid_real_pos x, sigmoid_real_lt_one x⟩,
    fun x y h => F64_sigmoid_mono exp hexp hmono x y h,
    fun x hx => F64_sigmoid_bounds exp hexp x hx⟩

/-- C13, witness: the theorem at `math.Exp` read as the correctly rounded real
exponential, which returns positive values or `+Inf` and is non-decreasing. -/
theorem sigmoid_float_shape_witness :
    ExpSound (Float64.expOf Real.exp) ∧ ExpMonotone (Float64.expOf Real.exp) ∧
      ((∀ x y : ℝ, x < y → sigmoid Real.exp x < sigmoid Real.exp y) ∧
        (∀ x : ℝ, 0 < sigmoid Real.exp x ∧ sigmoid Real.exp x < 1) ∧
        (∀ x y : Float64, Float64.le x y →
          Float64.le (F64.sigmoid (Float64.expOf Real.exp) x)
            (F64.sigmoid (Float64.expOf Real.exp) y)) ∧
        ∀ x : Float64, x ≠ Float64.nan →
          ∃ s : ℚ, 0 ≤ s ∧ s ≤ 1 ∧ F64.sigmoid (Float64.expOf Real.exp) x = Float64.fin s) :=
  ⟨Float64_expOf_sound Real.exp Real.exp_pos,
    Float64_expOf_monotone Real.exp Real.exp_pos (fun _ _ h => Real.exp_le_exp.2 h),
    sigmoid_float_shape (Float64.expOf Real.exp)
      (Float64_expOf_sound Real.exp Real.exp_pos)
      (Float64_expOf_monotone Real.exp Real.exp_pos (fun _ _ h => Real.exp_le_exp.2 h))⟩

/-- C14 (end-to-end inference), over the reals: on the network `NewNetwork` builds
from the topology `[1, 1]` and the weight `1`, `network.Think [0]` returns
exactly `1/2` and `network.Think [10]` returns a value above `0.999`. -/
theorem think_end_to_end :
    ∃ n n1 n2 v,
      NewNetwork (F := ℝ) [1] [1, 1] = some n ∧
      n.Think Real.exp [0] = some (n1, 1/2) ∧
      n.Think Real.exp [10] = some (n2, v) ∧ 999/1000 < v := by
  refine ⟨_, net11 1 0 0 (1/2) 0 0, _, _, newNetwork_net11 _, ?_,
    think_net11 Real.exp _ _ _ _ _ _ _, ?_⟩
  · rw [think_net11, mul_zero, sigmoid_real_zero]
  · rw [one_mul]
    exact sigmoid_real_ten_gt

/-- C15 (error propagation of one unit).  For a neuron `u` and a predecessor
layer `p` in which every `inputNeuronIndex` of `u` is a position,
`neuron.Train` returns a layer with the flag and the number of neurons of `p`
whose `k`-th neuron is the `k`-th neuron of `p` with its `err` increased by the
sum over the synapses `s` of `u` with `inputNeuronIndex = k` of
`u.err * s.weight * u.output * (1 - u.output)`, every other field unchanged. -/
theorem neuron_train_propagates {F : Type} [LinearOrderedField F] (u : neuron F) (p : layer F)
    (h : ∀ s ∈ u.synapses, s.inputNeuronIndex < p.neurons.length) :
    ∃ p1, u.Train p = some p1 ∧ p1.inputLayer = p.inputLayer ∧
      p1.neurons.length = p.neurons.length ∧
      ∀ (k : Nat) (v : neuron F), p.neurons[k]? = some v →
        p1.neurons[k]? = some { v with
          err := v.err + ((u.synapses.filter fun s => s.inputNeuronIndex = k).map
            fun s => u.err * s.weight * u.output * (1 - u.output)).sum } := by
  obtain ⟨p1, hp1⟩ := neuron_Train_loop_ok u u.synapses p h
  have hno := neuron_Train_loop_noErr u _ _ _ hp1
  refine ⟨p1, hp1, ?_, layer_noErr_length _ _ hno, ?_⟩
  · have := congrArg (fun l => l.inputLayer) hno
    simpa [layer.noErr] using this
  · intro k v hv
    rw [neuron_Train_loop_err u u.synapses p p1 hp1 k v hv]
    simp only [sigmoid_derivative, mul_assoc]

/-- C15, witness: the theorem at a unit with two synapses onto position 0 and one
onto position 1 of a layer of two neurons, over the rationals. -/
theorem neuron_train_propagates_witness :
    (∀ s ∈ (⟨1/2, [⟨0, 2, 0⟩, ⟨1, 3, 0⟩, ⟨0, 4, 0⟩], 1⟩ : neuron ℚ).synapses,
        s.inputNeuronIndex < (⟨true, [⟨5, [], 7⟩, ⟨6, [], 8⟩]⟩ : layer ℚ).neurons.length) ∧
      ∃ p1, (⟨1/2, [⟨0, 2, 0⟩, ⟨1, 3, 0⟩, ⟨0, 4, 0⟩], 1⟩ : neuron ℚ).Train
          ⟨true, [⟨5, [], 7⟩, ⟨6, [], 8⟩]⟩ = some p1 ∧
        p1.inputLayer = true ∧
        p1.neurons.length = (⟨true, [⟨5, [], 7⟩, ⟨6, [], 8⟩]⟩ : layer ℚ).neurons.length ∧
        ∀ (k : Nat) (v : neuron ℚ),
          (⟨true, [⟨5, [], 7⟩, ⟨6, [], 8⟩]⟩ : layer ℚ).neurons[k]? = some v →
          p1.neurons[k]? = some { v with
            err := v.err +
              (((⟨1/2, [⟨0, 2, 0⟩, ⟨1, 3, 0⟩, ⟨0, 4, 0⟩], 1⟩ : neuron ℚ).synapses.filter
                  fun s => s.inputNeuronIndex = k).map
                fun s => (1 : ℚ) * s.weight * (1/2) * (1 - 1/2)).sum } :=
  ⟨by decide,
    neuron_train_propagates (⟨1/2, [⟨0, 2, 0⟩, ⟨1, 3, 0⟩, ⟨0, 4, 0⟩], 1⟩ : neuron ℚ)
      ⟨true, [⟨5, [], 7⟩, ⟨6, [], 8⟩]⟩ (by decide)⟩

/-- C16 (backward ordering).  On a network that is well formed for a topology
`t` of positive unit counts with at least three layers and a last layer of one
unit, and an example whose input is as long as the input layer, `network.Train`
returns, the output unit ends with `err = target - predicted`, outputs and
weights are those of the forward pass, and for every layer `i` below the last and
every position `k` of it, the `err` of unit `k` after the call is its `err`
before plus the sum over the units `h` of layer `i + 1` of
`h.err * (weight of the k-th synapse of h) * h.output * (1 - h.output)`, where
`h.err` is the `err` of `h` after the call, that is after the units of layer
`i + 2` have written into it.  For the topology `[a, b, 1]` the amount added to
input unit `k` is the sum over the hidden units `j` of
`e_j * w_jk * o_j * (1 - o_j)` with `e_j` the hidden unit's `err` after the
output unit's contribution has been added. -/
theorem train_backward_order {F : Type} [LinearOrderedField F] (exp : F → F) (n : network F)
    (t : List Nat) (data : Example F)
    (hwf : n.WellFormed t) (hpos : ∀ c ∈ t, 0 < c) (h3 : 3 ≤ t.length)
    (hlast : t.getLast? = some 1) (hin : t.head? = some data.input.length) :
    ∃ n1 p n2 r, n.Think exp data.input = some (n1, p) ∧ n.Train exp data = some (n2, r) ∧
      (∃ last uo, n2.layers.getLast? = some last ∧ last.neurons = [uo] ∧
        uo.err = data.output - p) ∧
      n2.layers.map layer.noErr = n1.layers.map layer.noErr ∧
      ∀ (i : Nat) (a a2 b2 : layer F) (k : Nat) (v v2 : neuron F),
        n1.layers[i]? = some a → n2.layers[i]? = some a2 → n2.layers[i + 1]? = some b2 →
        a.neurons[k]? = some v → a2.neurons[k]? = some v2 →
        v2.err = v.err + (b2.neurons.map fun h =>
          h.err * ((h.synapses[k]?.map fun s => s.weight).getD 0) * h.output
            * (1 - h.output)).sum := by
  cases t with
  | nil => simp at h3
  | cons c0 cs =>
    simp only [List.head?_cons, Option.some.injEq] at hin
    obtain ⟨last, u, hg, hn, hT⟩ :=
      network_Think_wellFormed_one exp n c0 cs data.input hwf hpos hlast (by omega)
    have hw := network_Wired_pairs _
      (network_WellFormed_wired _ _ (network_WellFormed_forward exp data.input n _ hwf))
    have hu0 : last.neurons[0]? = some u := by simp [hn]
    obtain ⟨L4, h4, hno4, hlast4⟩ := network_Train_of_Think exp n data _ last u hT hw hg hu0
    have hloop := network_Train_eq_loop exp n data _ last u u.output hT hg hu0
    rw [h4] at hloop
    have hlen : L4.length = (forward exp data.input n.layers).length := by
      have := congrArg List.length hno4
      simpa using this
    refine ⟨_, _, _, _, hT, h4, ⟨_, ⟨u.output, u.synapses, data.output - u.output⟩,
      hlast4, by simp [hn], rfl⟩, hno4, ?_⟩
    intro i a a2 b2 k v v2 ha ha2 hb2 hv hv2
    simp only at ha ha2 hb2
    have hi : i + 1 < L4.length := (List.getElem?_eq_some.1 hb2).1
    cases hl : network.Train.loop ((forward exp data.input n.layers).length - 1)
        ((forward exp data.input n.layers).set ((forward exp data.input n.layers).length - 1)
          { last with neurons := last.neurons.set 0 { u with err := data.output - u.output } })
      with
    | none => simp [hl] at hloop
    | some L5 =>
      simp only [hl, Option.map_some', Option.some.injEq, Prod.mk.injEq, network.mk.injEq,
        and_true] at hloop
      subst hloop
      obtain ⟨a', b, a1, ha', hb, ha1, hrel⟩ := network_Train_loop_rel _ _ _ hl i (by omega)
      rw [List.getElem?_set_ne (by omega), ha] at ha'
      rw [hb2] at hb
      rw [ha2] at ha1
      simp only [Option.some.injEq] at ha' hb ha1
      subst ha' hb ha1
      have herr := network_Train_neurons_err _ _ _ hrel k v hv
      rw [hv2] at herr
      simp only [Option.some.injEq] at herr
      rw [herr]
      simp only
      congr 2
      apply List.map_congr_left
      intro h hh
      have hshape : b2.shape ∈ topologyShape none (c0 :: cs) := by
        have hwf' : n.layers.map layer.shape = topologyShape none (c0 :: cs) := hwf
        rw [← hwf', ← forward_shape exp data.input n.layers, ← shape_of_map_noErr _ _ hno4]
        exact List.mem_map.2 ⟨b2, List.getElem?_mem hb2, rfl⟩
      obtain ⟨m, hm⟩ := topologyShape_ranges _ _ _ hshape
        (h.synapses.map fun s => s.inputNeuronIndex)
        (by simp only [layer.shape, List.mem_map]; exact ⟨h, hh, rfl⟩)
      exact neuron_sentTo_wired h m k hm

/-- C16, witness: the theorem at the `[2, 2, 1]` network with the weights
`1/2, 1/3, 1/4, 1/5, 2, 3` and the example `([1, 2], 9/10)`, over the reals. -/
theorem train_backward_order_witness :
    network.WellFormed (F := ℝ)
        ⟨[⟨true, [⟨0, [], 0⟩, ⟨0, [], 0⟩]⟩,
          ⟨false, [⟨0, [⟨0, 1/2, 0⟩, ⟨1, 1/3, 0⟩], 0⟩, ⟨0, [⟨0, 1/4, 0⟩, ⟨1, 1/5, 0⟩], 0⟩]⟩,
          ⟨false, [⟨0, [⟨0, 2, 0⟩, ⟨1, 3, 0⟩], 0⟩]⟩]⟩ [2, 2, 1] ∧
      (∀ c ∈ [2, 2, 1], 0 < c) ∧ 3 ≤ [2, 2, 1].length ∧ [2, 2, 1].getLast? = some 1 ∧
      [2, 2, 1].head? = some (Example.input (F := ℝ) ⟨[1, 2], 9/10⟩).length ∧
      ∃ n1 p n2 r,
        network.Think Real.exp
          (⟨[⟨true, [⟨0, [], 0⟩, ⟨0, [], 0⟩]⟩,
             ⟨false, [⟨0, [⟨0, 1/2, 0⟩, ⟨1, 1/3, 0⟩], 0⟩, ⟨0, [⟨0, 1/4, 0⟩, ⟨1, 1/5, 0⟩], 0⟩]⟩,
             ⟨false, [⟨0, [⟨0, 2, 0⟩, ⟨1, 3, 0⟩], 0⟩]⟩]⟩ : network ℝ) [1, 2] = some (n1, p) ∧
        network.Train Real.exp
          (⟨[⟨true, [⟨0, [], 0⟩, ⟨0, [], 0⟩]⟩,
             ⟨false, [⟨0, [⟨0, 1/2, 0⟩, ⟨1, 1/3, 0⟩], 0⟩, ⟨0, [⟨0, 1/4, 0⟩, ⟨1, 1/5, 0⟩], 0⟩]⟩,
             ⟨false, [⟨0, [⟨0, 2, 0⟩, ⟨1, 3, 0⟩], 0⟩]⟩]⟩ : network ℝ) ⟨[1, 2], 9/10⟩ =
          some (n2, r) ∧
        (∃ last uo, n2.layers.getLast? = some last ∧ last.neurons = [uo] ∧ uo.err = 9/10 - p) ∧
        n2.layers.map layer.noErr = n1.layers.map layer.noErr ∧
        ∀ (i : Nat) (a a2 b2 : layer ℝ) (k : Nat) (v v2 : neuron ℝ),
          n1.layers[i]? = some a → n2.layers[i]? = some a2 → n2.layers[i + 1]? = some b2 →
          a.neurons[k]? = some v → a2.neurons[k]? = some v2 →
          v2.err = v.err + (b2.neurons.map fun h =>
            h.err * ((h.synapses[k]?.map fun s => s.weight).getD 0) * h.output
              * (1 - h.output)).sum :=
  ⟨by decide, by decide, by decide, by decide, by decide,
    train_backward_order Real.exp _ [2, 2, 1] ⟨[1, 2], 9/10⟩ (by decide) (by decide) (by decide)
      (by decide) (by decide)⟩

/-- C17 (derivative identity), over the reals: the sigmoid is differentiable at
every `x`, and its derivative there is `sigmoid_derivative (sigmoid x)`, that is
`sigmoid x * (1 - sigmoid x)`. -/
theorem sigmoid_derivative_identity :
    ∀ x : ℝ, HasDerivAt (sigmoid Real.exp) (sigmoid_derivative (sigmoid Real.exp x)) x ∧
      sigmoid_derivative (sigmoid Real.exp x) =
        sigmoid Real.exp x * (1 - sigmoid Real.exp x) :=
  fun x => ⟨sigmoid_real_hasDerivAt x, rfl⟩

/-- C18 (bounded prediction), counterexample, in `float64` with `math.Exp` the
correctly rounded exponential.  On the well-formed `[1, 1]` network with the
weight `40`, `network.Think` on the input `[1]` returns exactly `1.0`, not a
value below 1, and `network.Train` on that input with the target `1` returns
exactly `0`, not a positive value.  On the well-formed `[2, 1]` network with the
weights `2^1023` and `-2^1023`, `network.Think` on the input `[2, 2]` returns
not-a-number: the two products are `+Inf` and `-Inf`. -/
theorem think_float_saturates :
    network.WellFormed (F := Float64)
        ⟨[⟨true, [⟨Float64.fin 0, [], Float64.fin 0⟩]⟩,
          ⟨false, [⟨Float64.fin 0, [⟨0, Float64.fin 40, Float64.fin 0⟩], Float64.fin 0⟩]⟩]⟩
        [1, 1] ∧
      Option.map Prod.snd (F64.network.Think (Float64.expOf Real.exp)
        ⟨[⟨true, [⟨Float64.fin 0, [], Float64.fin 0⟩]⟩,
          ⟨false, [⟨Float64.fin 0, [⟨0, Float64.fin 40, Float64.fin 0⟩], Float64.fin 0⟩]⟩]⟩
        [Float64.fin 1]) = some (Float64.fin 1) ∧
      Option.map Prod.snd (F64.network.Train (Float64.expOf Real.exp)
        ⟨[⟨true, [⟨Float64.fin 0, [], Float64.fin 0⟩]⟩,
          ⟨false, [⟨Float64.fin 0, [⟨0, Float64.fin 40, Float64.fin 0⟩], Float64.fin 0⟩]⟩]⟩
        ⟨[Float64.fin 1], Float64.fin 1⟩) = some (Float64.fin 0) ∧
      network.WellFormed (F := Float64)
        ⟨[⟨true, [⟨Float64.fin 0, [], Float64.fin 0⟩, ⟨Float64.fin 0, [], Float64.fin 0⟩]⟩,
          ⟨false, [⟨Float64.fin 0, [⟨0, Float64.fin (2 ^ 1023), Float64.fin 0⟩,
            ⟨1, Float64.fin (-(2 ^ 1023)), Float64.fin 0⟩], Float64.fin 0⟩]⟩]⟩
        [2, 1] ∧
      Option.map Prod.snd (F64.network.Think (Float64.expOf Real.exp)
        ⟨[⟨true, [⟨Float64.fin 0, [], Float64.fin 0⟩, ⟨Float64.fin 0, [], Float64.fin 0⟩]⟩,
          ⟨false, [⟨Float64.fin 0, [⟨0, Float64.fin (2 ^ 1023), Float64.fin 0⟩,
            ⟨1, Float64.fin (-(2 ^ 1023)), Float64.fin 0⟩], Float64.fin 0⟩]⟩]⟩
        [Float64.fin 2, Float64.fin 2]) = some Float64.nan := by
  have h40 : round64 (40 : ℚ) = Float64.fin 40 := by
    have h := round64_exact (K := ℚ) 5629499534213120 (-47) (by norm_num) (by norm_num)
      (by norm_num) (by norm_num)
    have e : ((5629499534213120 : ℕ) : ℚ) * 2 ^ (-47 : ℤ) = 40 := by norm_num
    rw [e] at h
    exact h
  have hmul : Float64.mul (Float64.fin 40) (Float64.fin 1) = Float64.fin 40 := by
    show round64 ((40 : ℚ) * 1) = Float64.fin 40
    rw [mul_one]
    exact h40
  have hadd : Float64.add (Float64.fin 0) (Float64.fin 40) = Float64.fin 40 := by
    show round64 ((0 : ℚ) + 40) = Float64.fin 40
    rw [zero_add]
    exact h40
  have hsig : F64.sigmoid (Float64.expOf Real.exp) (Float64.fin 40) = Float64.fin 1 :=
    F64_sigmoid_one 40 (by norm_num)
  have hsub : Float64.sub (Float64.fin 1) (Float64.fin 1) = Float64.fin 0 := by
    show round64 ((1 : ℚ) + -1) = Float64.fin 0
    rw [add_neg_cancel]
    exact round64_zero
  have hT : F64.network.Think (Float64.expOf Real.exp)
      ⟨[⟨true, [⟨Float64.fin 0, [], Float64.fin 0⟩]⟩,
        ⟨false, [⟨Float64.fin 0, [⟨0, Float64.fin 40, Float64.fin 0⟩], Float64.fin 0⟩]⟩]⟩
      [Float64.fin 1] =
      some (⟨[⟨true, [⟨Float64.fin 1, [], Float64.fin 0⟩]⟩,
        ⟨false, [⟨Float64.fin 1, [⟨0, Float64.fin 40, Float64.fin 1⟩], Float64.fin 0⟩]⟩]⟩,
        Float64.fin 1) := by
    rw [F64_think_net11, hmul, hadd, hsig]
  have hup : Float64.mul (Float64.fin (2 ^ 1023)) (Float64.fin 2) = Float64.inf false :=
    round64_overflow ((2 : ℚ) ^ 1023 * 2) (by norm_num)
  have hdown : Float64.mul (Float64.fin (-(2 ^ 1023))) (Float64.fin 2) = Float64.inf true := by
    have h := round64_neg_overflow ((2 : ℚ) ^ 1023 * 2) (by norm_num)
    have e : -((2 : ℚ) ^ 1023 * 2) = -(2 ^ 1023) * 2 := (neg_mul _ _).symm
    rw [e] at h
    exact h
  have hsnan : F64.sigmoid (Float64.expOf Real.exp) Float64.nan = Float64.nan :=
    F64_sigmoid_nan _ rfl
  refine ⟨rfl, ?_, ?_, rfl, ?_⟩
  · rw [hT]
    rfl
  · obtain ⟨L4, h4, _⟩ := F64_network_Train_of_Think (Float64.expOf Real.exp)
      ⟨[⟨true, [⟨Float64.fin 0, [], Float64.fin 0⟩]⟩,
        ⟨false, [⟨Float64.fin 0, [⟨0, Float64.fin 40, Float64.fin 0⟩], Float64.fin 0⟩]⟩]⟩
      ⟨[Float64.fin 1], Float64.fin 1⟩ _
      ⟨false, [⟨Float64.fin 1, [⟨0, Float64.fin 40, Float64.fin 1⟩], Float64.fin 0⟩]⟩
      ⟨Float64.fin 1, [⟨0, Float64.fin 40, Float64.fin 1⟩], Float64.fin 0⟩ hT
      (by
        intro k sa sb ha hb
        rcases k with _ | _ | k <;> simp [layer.shape] at ha hb
        subst ha hb
        simp)
      rfl rfl
    rw [h4]
    simp only [Option.map_some', hsub]
    rfl
  · rw [F64_think_net21, hup, hdown]
    have hinf : Float64.add (Float64.add (Float64.fin 0) (Float64.inf false))
        (Float64.inf true) = Float64.nan := rfl
    rw [hinf, hsnan]

/-- C18 (bounded prediction), as the code has it, in `float64`.  Let `math.Exp`
return `+Inf` or a finite value that is not negative, and not-a-number on
not-a-number.  On a network that is well formed for a topology `t` of positive
unit counts with at least two layers and a last layer of one unit, and an input
vector as long as the input layer, `network.Think` returns a value `v` that is
not-a-number or a finite value with `0 ≤ v ≤ 1`, the bounds included.  For every
finite `float64` target `y`, `network.Train` returns `r = math.Abs(y - v)`; when
`v` is not not-a-number, `0 ≤ r`, and `r = 0` exactly when `v = y`, so `r` is not
zero for every target `y < 0` or `1 < y`. -/
theorem think_float_bounded (exp : Float64 → Float64) (hexp : ExpSound exp)
    (hnan : exp Float64.nan = Float64.nan) (n : network Float64) (t : List Nat)
    (inputs : List Float64) (hwf : n.WellFormed t) (hpos : ∀ c ∈ t, 0 < c)
    (h2 : 2 ≤ t.length) (hlast : t.getLast? = some 1)
    (hin : t.head? = some inputs.length) :
    ∃ n1 v, F64.network.Think exp n inputs = some (n1, v) ∧
      (v = Float64.nan ∨ ∃ s : ℚ, 0 ≤ s ∧ s ≤ 1 ∧ v = Float64.fin s) ∧
      ∀ y : ℚ, round64 y = Float64.fin y →
        ∃ n2 r, F64.network.Train exp n ⟨inputs, Float64.fin y⟩ = some (n2, r) ∧
          r = Float64.abs (Float64.sub (Float64.fin y) v) ∧
          (v ≠ Float64.nan →
            Float64.le (Float64.fin 0) r ∧ (r = Float64.fin 0 ↔ v = Float64.fin y) ∧
              (y < 0 ∨ 1 < y → r ≠ Float64.fin 0)) := by
  cases t with
  | nil => simp at h2
  | cons c0 t1 =>
    cases t1 with
    | nil => simp at h2
    | cons c1 cs =>
      simp only [List.head?_cons, Option.some.injEq] at hin
      obtain ⟨L, last, u, a, hT, hsh, hg, hu, ha⟩ :=
        F64_network_Think_ok exp n c0 c1 cs inputs hwf hpos (by omega)
      have hw : pairsWired (L.map layer.shape) := by
        rw [hsh]
        have h0 : n.layers.map layer.shape = topologyShape none (c0 :: c1 :: cs) := hwf
        rw [h0]
        simp only [topologyShape]
        apply wiredFrom_pairs
        simp only [List.length_replicate]
        have := wiredFrom_topologyShape (c1 :: cs) c0
        simpa [topologyShape] using this
      have hval := F64_sigmoid_value exp hexp hnan a
      rw [← ha] at hval
      refine ⟨⟨L⟩, u.output, hT, ?_, ?_⟩
      · rcases hval with h | ⟨s, h0, h1, _, hs⟩
        · exact Or.inl h
        · exact Or.inr ⟨s, h0, h1, hs⟩
      · intro y hy
        obtain ⟨L4, h4, _⟩ := F64_network_Train_of_Think exp n ⟨inputs, Float64.fin y⟩ L last u
          hT hw hg hu
        refine ⟨⟨L4⟩, _, h4, rfl, ?_⟩
        intro hv
        rcases hval with h | ⟨s, h0, h1, ⟨kv, hkv⟩, hs⟩
        · exact absurd h hv
        · obtain ⟨kt, hkt⟩ := round64_multiple y y hy
          obtain ⟨hle, hiff⟩ := Float64_abs_sub y s kt kv hkt hkv
          simp only [hs]
          have hiff2 : Float64.abs (Float64.sub (Float64.fin y) (Float64.fin s)) = Float64.fin 0 ↔
              Float64.fin s = Float64.fin y := by
            rw [hiff]
            simp
          refine ⟨hle, hiff2, ?_⟩
          intro hy2 hr
          have hsy : s = y := hiff.1 hr
          rcases hy2 with hy2 | hy2
          · linarith
          · linarith

/-- C18, witness: the theorem at `math.Exp` read as the correctly rounded real
exponential, the `[2, 1]` network with the weights `1/2` and `1/4`, and the
input `[1, 2]`. -/
theorem think_float_bounded_witness :
    ExpSound (Float64.expOf Real.exp) ∧
      Float64.expOf Real.exp Float64.nan = Float64.nan ∧
      network.WellFormed (F := Float64)
        ⟨[⟨true, [⟨Float64.fin 0, [], Float64.fin 0⟩, ⟨Float64.fin 0, [], Float64.fin 0⟩]⟩,
          ⟨false, [⟨Float64.fin 0, [⟨0, Float64.fin (1/2), Float64.fin 0⟩,
            ⟨1, Float64.fin (1/4), Float64.fin 0⟩], Float64.fin 0⟩]⟩]⟩ [2, 1] ∧
      (∀ c ∈ [2, 1], 0 < c) ∧ 2 ≤ [2, 1].length ∧ [2, 1].getLast? = some 1 ∧
      [2, 1].head? = some [Float64.fin 1, Float64.fin 2].length ∧
      ∃ n1 v, F64.network.Think (Float64.expOf Real.exp)
          ⟨[⟨true, [⟨Float64.fin 0, [], Float64.fin 0⟩, ⟨Float64.fin 0, [], Float64.fin 0⟩]⟩,
            ⟨false, [⟨Float64.fin 0, [⟨0, Float64.fin (1/2), Float64.fin 0⟩,
              ⟨1, Float64.fin (1/4), Float64.fin 0⟩], Float64.fin 0⟩]⟩]⟩
          [Float64.fin 1, Float64.fin 2] = some (n1, v) ∧
        (v = Float64.nan ∨ ∃ s : ℚ, 0 ≤ s ∧ s ≤ 1 ∧ v = Float64.fin s) ∧
        ∀ y : ℚ, round64 y = Float64.fin y →
          ∃ n2 r, F64.network.Train (Float64.expOf Real.exp)
              ⟨[⟨true, [⟨Float64.fin 0, [], Float64.fin 0⟩,
                  ⟨Float64.fin 0, [], Float64.fin 0⟩]⟩,
                ⟨false, [⟨Float64.fin 0, [⟨0, Float64.fin (1/2), Float64.fin 0⟩,
                  ⟨1, Float64.fin (1/4), Float64.fin 0⟩], Float64.fin 0⟩]⟩]⟩
              ⟨[Float64.fin 1, Float64.fin 2], Float64.fin y⟩ = some (n2, r) ∧
            r = Float64.abs (Float64.sub (Float64.fin y) v) ∧
            (v ≠ Float64.nan →
              Float64.le (Float64.fin 0) r ∧ (r = Float64.fin 0 ↔ v = Float64.fin y) ∧
                (y < 0 ∨ 1 < y → r ≠ Float64.fin 0)) :=
  ⟨Float64_expOf_sound Real.exp Real.exp_pos, rfl, rfl, by decide, by decide, by decide,
    by decide,
    think_float_bounded (Float64.expOf Real.exp) (Float64_expOf_sound Real.exp Real.exp_pos)
      rfl _ [2, 1] [Float64.fin 1, Float64.fin 2] rfl (by decide) (by decide) (by decide)
      (by decide)⟩

end Neuroblast
